import Mathlib

/-! The kobj_map device-number directory of drivers/base/map.c.

A shallow embedding of `kobj_map`, `kobj_unmap`, `kobj_lookup` and
`kobj_map_init`.

Conventions of the embedding.

* `dev_t` and `unsigned int` are 32-bit; `unsigned long` has `lb` bits, where
  `lb` is 32 or 64 depending on the architecture.  Values of those types are
  natural numbers, and every C operation that can wrap is written with an
  explicit `% 2 ^ w`.
* Pointers (`struct module *`, the two function pointers, `void *data`,
  `struct mutex *`) are natural numbers, `0` being `NULL`.
* A bucket chain `probes[i]`, linked through `->next`, is the list of its
  entries in chain order.  The base entry installed by `kobj_map_init` is
  shared by all chains in C; it is the last entry of every chain and its
  `next` field is never written (no `range` exceeds `~0UL`), so each chain
  can be held as a list of its own.
* What the code calls but does not define (`try_module_get`, `module_put`,
  the `->lock` and `->get` callbacks, `kmalloc`) is a parameter: the callbacks
  act on an abstract state `σ`, and `->get`, which runs without the mutex,
  may also change the directory.  Calls are recorded, in order, in a trace.
-/

set_option linter.unusedVariables false

namespace Kobj

/-! ## Data model -/

/-- The `struct probe` of the source, without `next` (the position in the chain). -/
structure probe where
  dev : Nat
  range : Nat
  owner : Nat
  get : Nat
  lock : Nat
  data : Nat
deriving DecidableEq

/-- The `struct kobj_map` of the source: 255 chains and the mutex pointer. -/
structure struct_kobj_map where
  probes : Fin 255 → List probe
  lock : Nat

/-- The slot `probes[index % 255]`. -/
def slot (index : Nat) : Fin 255 := ⟨index % 255, Nat.mod_lt _ (by decide)⟩

/-- Assignment to `probes[i]`. -/
def set_probes (domain : struct_kobj_map) (i : Fin 255) (l : List probe) : struct_kobj_map :=
  { domain with probes := Function.update domain.probes i l }

def MINORBITS : Nat := 20

def MINORMASK : Nat := (1 <<< MINORBITS) - 1

/-- The macro `MAJOR(dev)`, `((unsigned int) ((dev) >> MINORBITS))`, on the value
of its (unsigned) argument. -/
def MAJOR (dev : Nat) : Nat := (dev >>> MINORBITS) % 2 ^ 32

/-- The macro `MINOR(dev)`. -/
def MINOR (dev : Nat) : Nat := (dev &&& MINORMASK) % 2 ^ 32

/-- The value `~0UL` of an `lb`-bit `unsigned long`. -/
def ULONG_MAX (lb : Nat) : Nat := 2 ^ lb - 1

/-- The errno value `ENOMEM` of the kernel headers. -/
def ENOMEM : Int := 12

/-- The expression `x - 1` on an `lb`-bit `unsigned long`. -/
def ulong_pred (lb x : Nat) : Nat := (x + 2 ^ lb - 1) % 2 ^ lb

/-- Conversion of a 32-bit unsigned value to `int` (two's complement), as in
`*index = dev - p->dev`. -/
def to_int (x : Nat) : Int :=
  if x % 2 ^ 32 < 2 ^ 31 then ((x % 2 ^ 32 : Nat) : Int) else ((x % 2 ^ 32 : Nat) : Int) - 2 ^ 32

/-- Calls made by the three operations, in order. -/
inductive event where
  | mutex_lock (m : Nat)
  | mutex_unlock (m : Nat)
  | try_module_get (owner : Nat) (ok : Bool)
  | module_put (owner : Nat)
  | guard (p : probe) (dev : Nat) (ret : Int)
  | resolve (p : probe) (dev : Nat) (index : Int) (ret : Option Nat)
deriving DecidableEq

/-- What a `->get` callback leaves behind: the returned `struct kobject *`
(`none` is `NULL`), the value of `*index`, and the state and directory after it. -/
structure get_result (σ : Type) where
  kobj : Option Nat
  index : Int
  st : σ
  domain : struct_kobj_map

/-- The code the directory calls into.  `lock f dev data` is the call `p->lock(dev, data)`
through the function pointer `f`; `get f dev index data` is `probe(dev, index, data)`. -/
structure callbacks (σ : Type) where
  try_module_get : Nat → σ → Bool × σ
  module_put : Nat → σ → σ
  lock : Nat → Nat → Nat → σ → Int × σ
  get : Nat → Nat → Int → Nat → σ → struct_kobj_map → get_result σ

/-! ## kobj_map -/

/-- The count `n` of `kobj_map` and `kobj_unmap`:
`MAJOR(dev + range - 1) - MAJOR(dev) + 1` in `unsigned` arithmetic, then clamped to 255. -/
def probe_count (lb dev range : Nat) : Nat :=
  let n := (MAJOR ((dev + range + 2 ^ lb - 1) % 2 ^ lb) + 2 ^ 32 - MAJOR dev + 1) % 2 ^ 32
  if n > 255 then 255 else n

/-- The inner `while (*s && (*s)->range < range) s = &(*s)->next;` followed by the splice. -/
def insert_probe (p : probe) : List probe → List probe
  | [] => [p]
  | q :: qs => if q.range < p.range then q :: insert_probe p qs else p :: q :: qs

/-- The second `for` loop of `kobj_map`: `n` iterations from `index`. -/
def kobj_map_loop (p : probe) : Nat → Nat → struct_kobj_map → struct_kobj_map
  | 0, _, domain => domain
  | n + 1, index, domain =>
    kobj_map_loop p n ((index + 1) % 2 ^ 32)
      (set_probes domain (slot index) (insert_probe p (domain.probes (slot index))))

structure map_result where
  ret : Int
  domain : struct_kobj_map
  trace : List event

/-- The function `kobj_map`; `kmalloc_ok` tells whether `kmalloc` returns a block. -/
def kobj_map (lb : Nat) (kmalloc_ok : Bool) (domain : struct_kobj_map)
    (dev range module probe_fn lock data : Nat) : map_result :=
  let n := probe_count lb dev range
  let index := MAJOR dev
  if kmalloc_ok = false then
    { ret := -ENOMEM, domain := domain, trace := [] }
  else
    let p : probe :=
      { owner := module, get := probe_fn, lock := lock, dev := dev, range := range, data := data }
    { ret := 0
      domain := kobj_map_loop p n index domain
      trace := [event.mutex_lock domain.lock, event.mutex_unlock domain.lock] }

/-! ## kobj_unmap -/

/-- The inner `for` loop of `kobj_unmap`: unlink the first entry with this `dev` and `range`. -/
def unlink_first (dev range : Nat) : List probe → List probe
  | [] => []
  | p :: ps => if p.dev = dev ∧ p.range = range then ps else p :: unlink_first dev range ps

/-- The outer `for` loop of `kobj_unmap`. -/
def kobj_unmap_loop (dev range : Nat) : Nat → Nat → struct_kobj_map → struct_kobj_map
  | 0, _, domain => domain
  | n + 1, index, domain =>
    kobj_unmap_loop dev range n ((index + 1) % 2 ^ 32)
      (set_probes domain (slot index) (unlink_first dev range (domain.probes (slot index))))

structure unmap_result where
  domain : struct_kobj_map
  trace : List event

/-- The function `kobj_unmap` (the release of the storage of `found` is not represented). -/
def kobj_unmap (lb : Nat) (domain : struct_kobj_map) (dev range : Nat) : unmap_result :=
  let n := probe_count lb dev range
  let index := MAJOR dev
  { domain := kobj_unmap_loop dev range n index domain
    trace := [event.mutex_lock domain.lock, event.mutex_unlock domain.lock] }

/-! ## kobj_map_init -/

/-- The base entry: `kzalloc`ed, then `dev = 1`, `range = ~0`, `get = base_probe`. -/
def base_entry (lb base_probe : Nat) : probe :=
  { dev := 1, range := ULONG_MAX lb, owner := 0, get := base_probe, lock := 0, data := 0 }

/-- The function `kobj_map_init`; the two flags tell whether `kmalloc` and `kzalloc` succeed. -/
def kobj_map_init (lb : Nat) (kmalloc_ok kzalloc_ok : Bool) (base_probe lock : Nat) :
    Option struct_kobj_map :=
  if kmalloc_ok = false ∨ kzalloc_ok = false then none
  else some { probes := fun _ => [base_entry lb base_probe], lock := lock }

/-! ## kobj_lookup -/

/-- The variables a scan of one chain carries: `best`, `*index`, the callback state, the trace. -/
structure scan_state (σ : Type) where
  best : Nat
  index : Int
  st : σ
  trace : List event

/-- How the `for` loop of `kobj_lookup` is left: with a candidate whose `->get` is to be
called (the mutex still held), or at the end of the chain or by `break`. -/
inductive scan_result (σ : Type) where
  | candidate (p : probe) (s : scan_state σ)
  | exhausted (s : scan_state σ)

/-- The `for` loop of `kobj_lookup` over the rest of a chain, up to the point where the
mutex is released. -/
def scan {σ : Type} (lb : Nat) (cb : callbacks σ) (dev : Nat) :
    List probe → scan_state σ → scan_result σ
  | [], s => scan_result.exhausted s
  | p :: ps, s =>
    if p.dev > dev ∨ (p.dev + p.range + 2 ^ lb - 1) % 2 ^ lb < dev then
      scan lb cb dev ps s
    else if ulong_pred lb p.range ≥ s.best then
      scan_result.exhausted s
    else if (cb.try_module_get p.owner s.st).1 = false then
      scan lb cb dev ps
        { s with st := (cb.try_module_get p.owner s.st).2
                 trace := s.trace ++ [event.try_module_get p.owner false] }
    else
      let st1 := (cb.try_module_get p.owner s.st).2
      let best := ulong_pred lb p.range
      let index := to_int ((dev + 2 ^ 32 - p.dev) % 2 ^ 32)
      let tr1 := s.trace ++ [event.try_module_get p.owner true]
      if p.lock ≠ 0 then
        let r := cb.lock p.lock dev p.data st1
        if r.1 < 0 then
          scan lb cb dev ps
            { best := best, index := index, st := cb.module_put p.owner r.2
              trace := tr1 ++ [event.guard p dev r.1, event.module_put p.owner] }
        else
          scan_result.candidate p
            { best := best, index := index, st := r.2, trace := tr1 ++ [event.guard p dev r.1] }
      else
        scan_result.candidate p { best := best, index := index, st := st1, trace := tr1 }

structure lookup_result (σ : Type) where
  kobj : Option Nat
  index : Int
  st : σ
  domain : struct_kobj_map
  trace : List event

/-- The body of `kobj_lookup` from the label `retry:` on, with the current value of `best`. -/
def kobj_lookup_retry {σ : Type} (lb : Nat) (cb : callbacks σ) (dev : Nat)
    (best : Nat) (index : Int) (st : σ) (domain : struct_kobj_map) (trace : List event) :
    lookup_result σ :=
  match h : scan lb cb dev (domain.probes (slot (MAJOR dev)))
      { best := best, index := index, st := st
        trace := trace ++ [event.mutex_lock domain.lock] } with
  | scan_result.exhausted s =>
    { kobj := none, index := s.index, st := s.st, domain := domain
      trace := s.trace ++ [event.mutex_unlock domain.lock] }
  | scan_result.candidate p s =>
    let r := cb.get p.get dev s.index p.data s.st domain
    let tr := s.trace ++ [event.mutex_unlock domain.lock, event.resolve p dev s.index r.kobj,
      event.module_put p.owner]
    match r.kobj with
    | some k =>
      { kobj := some k, index := r.index, st := cb.module_put p.owner r.st, domain := r.domain
        trace := tr }
    | none =>
      kobj_lookup_retry lb cb dev s.best r.index (cb.module_put p.owner r.st) r.domain tr
termination_by best
decreasing_by
  have key : ∀ (l : List probe) (s0 : scan_state σ) (q : probe) (s1 : scan_state σ),
      scan lb cb dev l s0 = scan_result.candidate q s1 → s1.best < s0.best := by
    intro l
    induction l with
    | nil => intro s0 q s1 h0; simp [scan] at h0
    | cons a as ih =>
      intro s0 q s1 h0
      unfold scan at h0
      by_cases h1 : a.dev > dev ∨ (a.dev + a.range + 2 ^ lb - 1) % 2 ^ lb < dev
      · rw [if_pos h1] at h0
        exact ih s0 q s1 h0
      rw [if_neg h1] at h0
      by_cases h2 : ulong_pred lb a.range ≥ s0.best
      · rw [if_pos h2] at h0
        exact absurd h0 (by simp)
      rw [if_neg h2] at h0
      by_cases h3 : (cb.try_module_get a.owner s0.st).1 = false
      · rw [if_pos h3] at h0
        have := ih _ q s1 h0
        exact this
      rw [if_neg h3] at h0
      simp only at h0
      by_cases h4 : a.lock ≠ 0
      · rw [if_pos h4] at h0
        by_cases h5 : (cb.lock a.lock dev a.data (cb.try_module_get a.owner s0.st).2).1 < 0
        · rw [if_pos h5] at h0
          have := ih _ q s1 h0
          simp only at this
          omega
        · rw [if_neg h5] at h0
          simp only [scan_result.candidate.injEq] at h0
          obtain ⟨-, rfl⟩ := h0
          simp only
          omega
      · rw [if_neg h4] at h0
        simp only [scan_result.candidate.injEq] at h0
        obtain ⟨-, rfl⟩ := h0
        simp only
        omega
  exact key _ _ p s h

/-- The function `kobj_lookup`: `best = ~0UL`, then the `retry:` loop.  `index` is the
value `*index` has on entry. -/
def kobj_lookup {σ : Type} (lb : Nat) (cb : callbacks σ) (domain : struct_kobj_map)
    (dev : Nat) (index : Int) (st : σ) : lookup_result σ :=
  kobj_lookup_retry lb cb dev (ULONG_MAX lb) index st domain []

/-! ## Auxiliary definitions used in the statements -/

/-- The calls of `->get` callbacks recorded in a trace: entry, identifier, index passed. -/
def resolve_calls : List event → List (probe × Nat × Int)
  | [] => []
  | event.resolve p dev index _ :: es => (p, dev, index) :: resolve_calls es
  | _ :: es => resolve_calls es

/-- The entries whose `->get` was called, in call order. -/
def resolved_entries (tr : List event) : List probe := (resolve_calls tr).map (fun c => c.1)

/-- The same operation applied to the slots `index`, `index + 1`, ... (`n` of them). -/
def slot_loop (f : List probe → List probe) : Nat → Nat → struct_kobj_map → struct_kobj_map
  | 0, _, domain => domain
  | n + 1, index, domain =>
    slot_loop f n ((index + 1) % 2 ^ 32) (set_probes domain (slot index) (f (domain.probes (slot index))))

/-- The directory states reached from a successful `kobj_map_init` by calls of `kobj_map`
(succeeding or not) and `kobj_unmap` with arguments of their C types. -/
inductive reachable (lb base_probe m : Nat) : struct_kobj_map → Prop where
  | init (D : struct_kobj_map) (h : kobj_map_init lb true true base_probe m = some D) :
      reachable lb base_probe m D
  | map (D : struct_kobj_map) (ok : Bool) (dev range module probe_fn lock data : Nat)
      (hD : reachable lb base_probe m D) (hdev : dev < 2 ^ 32) (hrange : range < 2 ^ lb) :
      reachable lb base_probe m (kobj_map lb ok D dev range module probe_fn lock data).domain
  | unmap (D : struct_kobj_map) (dev range : Nat)
      (hD : reachable lb base_probe m D) (hdev : dev < 2 ^ 32) (hrange : range < 2 ^ lb) :
      reachable lb base_probe m (kobj_unmap lb D dev range).domain

/-- A successful `kobj_map` call whose arguments are the fields of `r`; `r` is then the
entry that is stamped and inserted. -/
def register (lb : Nat) (D : struct_kobj_map) (r : probe) : struct_kobj_map :=
  (kobj_map lb true D r.dev r.range r.owner r.get r.lock r.data).domain

/-- Callbacks for the examples: every token can be acquired; the guard function 7 fails and
the others succeed; the `->get` function 1 returns the handle 77 and the others return
`NULL`; nothing changes the directory. -/
def sample_cb : callbacks Unit :=
  { try_module_get := fun _ s => (true, s)
    module_put := fun _ s => s
    lock := fun f _ _ s => (if f = 7 then -1 else 0, s)
    get := fun f _ i _ s dom =>
      { kobj := if f = 1 then some 77 else none, index := i, st := s, domain := dom } }

/-- Callbacks whose `->get` functions all return `NULL`; otherwise as `sample_cb`. -/
def declining_cb : callbacks Unit :=
  { try_module_get := fun _ s => (true, s)
    module_put := fun _ s => s
    lock := fun f _ _ s => (if f = 7 then -1 else 0, s)
    get := fun _ _ i _ s dom => { kobj := none, index := i, st := s, domain := dom } }

/-- The directory `kobj_map_init(9, 5)` returns on a 64-bit machine. -/
def fresh_dir : struct_kobj_map := { probes := fun _ => [base_entry 64 9], lock := 5 }

/-- The number of distinct major values among the identifiers `dev .. dev + range - 1`. -/
def majors_spanned (dev range : Nat) : Nat :=
  ((Finset.Icc dev (dev + range - 1)).image MAJOR).card

/-- The test of line 135 that makes the scan pass over an entry. -/
abbrev skips (lb : Nat) (p : probe) (dev : Nat) : Prop :=
  p.dev > dev ∨ (p.dev + p.range + 2 ^ lb - 1) % 2 ^ lb < dev

/-- The state a scan ends in. -/
def scan_result.state {σ : Type} : scan_result σ → scan_state σ
  | scan_result.candidate _ s => s
  | scan_result.exhausted s => s

/-- An entry that cannot be the candidate of a scan for `d`, unless it is `base`: the scan
passes over it, or stops at it whatever `best` is, or its guard always fails. -/
def passive {σ : Type} (lb : Nat) (cb : callbacks σ) (base : probe) (d : Nat) (p : probe) : Prop :=
  skips lb p d ∨ ulong_pred lb p.range = 2 ^ lb - 1 ∨ p = base ∨
    (p.lock ≠ 0 ∧ ∀ s, (cb.lock p.lock d p.data s).1 < 0)

/-- Applying `f` to one slot. -/
def on_slot (f : List probe → List probe) (b : Fin 255) (D : struct_kobj_map) : struct_kobj_map :=
  set_probes D b (f (D.probes b))

/-- A chain with two entries keyed `(100, 10)`, one keyed `(100, 5)` and one keyed `(7, 10)`. -/
def sample_chain : List probe :=
  [⟨100, 5, 0, 1, 0, 0⟩, ⟨7, 10, 0, 2, 0, 0⟩, ⟨100, 10, 0, 3, 0, 0⟩, ⟨100, 10, 0, 4, 0, 0⟩]

/-- The mutex as held/released state: one step of a trace.  `h` is the mutex held, if any.
Taking a mutex while one is held, releasing one that is not held, a guard call without the
mutex and a `->get` call with the mutex held all stop the run (`none`). -/
def lock_step (h : Option Nat) : event → Option (Option Nat)
  | event.mutex_lock m => if h = none then some (some m) else none
  | event.mutex_unlock m => if h = some m then some none else none
  | event.guard _ _ _ => if h = none then none else some h
  | event.resolve _ _ _ _ => if h = none then some h else none
  | event.try_module_get _ _ => some h
  | event.module_put _ => some h

/-- The mutex state after a trace, when every step is allowed. -/
def lock_run (h : Option Nat) : List event → Option (Option Nat)
  | [] => some h
  | e :: es => (lock_step h e).bind (fun h2 => lock_run h2 es)

/-- The token of owner `o` as a counter: a successful `try_module_get(o)` adds one, a
`module_put(o)` takes one away and stops the run (`none`) when the counter is 0. -/
def token_step (o : Nat) (c : Nat) : event → Option Nat
  | event.try_module_get o2 ok => if o2 = o ∧ ok = true then some (c + 1) else some c
  | event.module_put o2 => if o2 = o then (if c = 0 then none else some (c - 1)) else some c
  | event.mutex_lock _ => some c
  | event.mutex_unlock _ => some c
  | event.guard _ _ _ => some c
  | event.resolve _ _ _ _ => some c

/-- The counter of owner `o` after a trace, when no release finds it at 0. -/
def token_run (o : Nat) (c : Nat) : List event → Option Nat
  | [] => some c
  | e :: es => (token_step o c e).bind (fun c2 => token_run o c2 es)

/-- Invariant I1 on one chain: non-decreasing `range`. -/
def ordered (l : List probe) : Prop := l.Pairwise (fun a b => a.range ≤ b.range)

/-- The directory `kobj_map_init(9, 5)` returns on a 32-bit machine. -/
def fresh_dir32 : struct_kobj_map := { probes := fun _ => [base_entry 32 9], lock := 5 }

/-- Reachable states when no `kobj_unmap` call that visits at least one slot is keyed
`(1, ~0UL)`, the key of the base entry. -/
inductive reachable_sparing (lb base_probe m : Nat) : struct_kobj_map → Prop where
  | init (D : struct_kobj_map) (h : kobj_map_init lb true true base_probe m = some D) :
      reachable_sparing lb base_probe m D
  | map (D : struct_kobj_map) (ok : Bool) (dev range module probe_fn lock data : Nat)
      (hD : reachable_sparing lb base_probe m D) (hdev : dev < 2 ^ 32) (hrange : range < 2 ^ lb) :
      reachable_sparing lb base_probe m
        (kobj_map lb ok D dev range module probe_fn lock data).domain
  | unmap (D : struct_kobj_map) (dev range : Nat)
      (hD : reachable_sparing lb base_probe m D) (hdev : dev < 2 ^ 32) (hrange : range < 2 ^ lb)
      (hkey : ¬ (dev = 1 ∧ range = ULONG_MAX lb) ∨ probe_count lb dev range = 0) :
      reachable_sparing lb base_probe m (kobj_unmap lb D dev range).domain

/-- Callbacks for the examples: every token can be acquired, no guard fails, and the `->get`
function `f` returns the handle `f`; nothing changes the directory. -/
def handle_cb : callbacks Unit :=
  { try_module_get := fun _ s => (true, s)
    module_put := fun _ s => s
    lock := fun _ _ _ s => (0, s)
    get := fun f _ i _ s dom => { kobj := some f, index := i, st := s, domain := dom } }

/-- Callbacks with a base `->get` (function 9) that loads a provider: it returns `NULL` and
registers `[1, 201)` with the `->get` function 1, which returns the handle 77.  Every token
can be acquired; the guard function 7 fails and the others succeed. -/
def loading_cb : callbacks Unit :=
  { try_module_get := fun _ s => (true, s)
    module_put := fun _ s => s
    lock := fun f _ _ s => (if f = 7 then -1 else 0, s)
    get := fun f _ i _ s dom =>
      if f = 9 then
        { kobj := none, index := i, st := s, domain := register 64 dom ⟨1, 200, 0, 1, 0, 0⟩ }
      else
        { kobj := if f = 1 then some 77 else none, index := i, st := s, domain := dom } }

/-- The test of the one-pass reference: the entry covers `d` and its token can be acquired. -/
def eligible (acq : Nat → Bool) (d : Nat) (p : probe) : Bool :=
  decide (p.dev ≤ d ∧ d ≤ p.dev + p.range - 1) && acq p.owner

/-- The one-pass reference of the lookup on one chain: the first entry, in chain order, that
covers `d` and whose token can be acquired decides; the result is `NULL` if there is none or
if it has a guard and the guard fails, and else what its `->get` returns for `d` and the
index `conv (d - dev)`.  `acq`, `guard` and `res` are the results of the callbacks. -/
def lookup_reference (conv : Nat → Int) (acq : Nat → Bool) (guard : Nat → Nat → Nat → Int)
    (res : Nat → Nat → Int → Nat → Option Nat) (chain : List probe) (d : Nat) : Option Nat :=
  match chain.find? (eligible acq d) with
  | none => none
  | some p =>
    if p.lock ≠ 0 ∧ guard p.lock d p.data < 0 then none
    else res p.get d (conv (d - p.dev)) p.data

/-- Callbacks without state whose results are given by `acq`, `guard` and `res`, and which
leave the directory alone. -/
def pure_cb (acq : Nat → Bool) (guard : Nat → Nat → Nat → Int)
    (res : Nat → Nat → Int → Nat → Option Nat) : callbacks Unit :=
  { try_module_get := fun o s => (acq o, s)
    module_put := fun _ s => s
    lock := fun f dv data s => (guard f dv data, s)
    get := fun f dv i data s dom => { kobj := res f dv i data, index := i, st := s, domain := dom } }

/-- A `->get` result that depends on the index: the handle 77 for an index that is not
negative, `NULL` for a negative one. -/
def index_res : Nat → Nat → Int → Nat → Option Nat :=
  fun _ _ i _ => if 0 ≤ i then some 77 else none

/-! ## Arithmetic of the macros -/

theorem MAJOR_eq_div (x : Nat) (hx : x < 2 ^ 32) : MAJOR x = x / 2 ^ 20 := by
  unfold MAJOR MINORBITS
  rw [Nat.shiftRight_eq_div_pow]
  apply Nat.mod_eq_of_lt
  exact lt_of_le_of_lt (Nat.div_le_self _ _) hx

theorem MAJOR_lt (x : Nat) (hx : x < 2 ^ 32) : MAJOR x < 2 ^ 12 := by
  rw [MAJOR_eq_div x hx]
  omega

theorem two_pow_le (lb : Nat) (hlb : 32 ≤ lb) : 2 ^ 32 ≤ 2 ^ lb :=
  Nat.pow_le_pow_right (by decide) hlb

theorem ulong_pred_eq (lb x : Nat) (h1 : 1 ≤ x) (h2 : x < 2 ^ lb) : ulong_pred lb x = x - 1 := by
  unfold ulong_pred
  have : x + 2 ^ lb - 1 = (x - 1) + 2 ^ lb := by omega
  rw [this, Nat.add_mod_right]
  exact Nat.mod_eq_of_lt (by omega)

theorem ulong_pred_lt (lb x : Nat) : ulong_pred lb x < 2 ^ lb :=
  Nat.mod_lt _ (by positivity)

/-- Within the identifier space the count is the number of majors between the two ends,
clamped to 255. -/
theorem probe_count_fit (lb dev range : Nat) (hlb : 32 ≤ lb) (h1 : 1 ≤ range)
    (hfit : dev + range ≤ 2 ^ 32) :
    probe_count lb dev range = min ((dev + range - 1) / 2 ^ 20 - dev / 2 ^ 20 + 1) 255 := by
  have hp := two_pow_le lb hlb
  unfold probe_count
  have e1 : (dev + range + 2 ^ lb - 1) % 2 ^ lb = dev + range - 1 := by
    have : dev + range + 2 ^ lb - 1 = (dev + range - 1) + 2 ^ lb := by omega
    rw [this, Nat.add_mod_right]
    exact Nat.mod_eq_of_lt (by omega)
  rw [e1, MAJOR_eq_div _ (by omega : dev + range - 1 < 2 ^ 32), MAJOR_eq_div _ (by omega : dev < 2 ^ 32)]
  have hmono : dev / 2 ^ 20 ≤ (dev + range - 1) / 2 ^ 20 := Nat.div_le_div_right (by omega)
  have hb : (dev + range - 1) / 2 ^ 20 < 2 ^ 12 := by omega
  have e2 : ((dev + range - 1) / 2 ^ 20 + 2 ^ 32 - dev / 2 ^ 20 + 1) % 2 ^ 32
      = (dev + range - 1) / 2 ^ 20 - dev / 2 ^ 20 + 1 := by
    have : (dev + range - 1) / 2 ^ 20 + 2 ^ 32 - dev / 2 ^ 20 + 1
        = ((dev + range - 1) / 2 ^ 20 - dev / 2 ^ 20 + 1) + 2 ^ 32 := by omega
    rw [this, Nat.add_mod_right]
    exact Nat.mod_eq_of_lt (by omega)
  simp only [e2]
  split_ifs with h <;> omega

theorem probe_count_le (lb dev range : Nat) : probe_count lb dev range ≤ 255 := by
  unfold probe_count
  simp only
  split_ifs with h <;> omega

/-! ## The two loops over slots -/

theorem kobj_map_loop_eq (p : probe) (n index : Nat) (D : struct_kobj_map) :
    kobj_map_loop p n index D = slot_loop (insert_probe p) n index D := by
  induction n generalizing index D with
  | zero => rfl
  | succ n ih => simp only [kobj_map_loop, slot_loop, ih]

theorem kobj_unmap_loop_eq (dev range n index : Nat) (D : struct_kobj_map) :
    kobj_unmap_loop dev range n index D = slot_loop (unlink_first dev range) n index D := by
  induction n generalizing index D with
  | zero => rfl
  | succ n ih => simp only [kobj_unmap_loop, slot_loop, ih]

theorem slot_eq_iff (a b : Nat) : slot a = slot b ↔ a % 255 = b % 255 := by
  simp [slot]

theorem slot_loop_lock (f : List probe → List probe) (n index : Nat) (D : struct_kobj_map) :
    (slot_loop f n index D).lock = D.lock := by
  induction n generalizing index D with
  | zero => rfl
  | succ n ih => simp only [slot_loop, ih, set_probes]

/-- Without wrap of `index`, and with at most 255 iterations, every slot is visited at
most once: the visited slots get `f` applied once, the others are untouched. -/
theorem slot_loop_probes (f : List probe → List probe) (n index : Nat) (D : struct_kobj_map)
    (hn : n ≤ 255) (hw : index + n < 2 ^ 32) (b : Fin 255) :
    (slot_loop f n index D).probes b
      = if ∃ i, i < n ∧ slot (index + i) = b then f (D.probes b) else D.probes b := by
  induction n generalizing index D with
  | zero => simp [slot_loop]
  | succ n ih =>
    have e : (index + 1) % 2 ^ 32 = index + 1 := Nat.mod_eq_of_lt (by omega)
    simp only [slot_loop, e]
    rw [ih (index + 1) _ (by omega) (by omega)]
    by_cases hb : b = slot index
    · subst hb
      have hno : ¬ ∃ i, i < n ∧ slot (index + 1 + i) = slot index := by
        rintro ⟨i, hi, he⟩
        rw [slot_eq_iff] at he
        omega
      have hyes : ∃ i, i < n + 1 ∧ slot (index + i) = slot index := ⟨0, by omega, rfl⟩
      rw [if_neg hno, if_pos hyes]
      simp [set_probes]
    · have hupd : (set_probes D (slot index) (f (D.probes (slot index)))).probes b = D.probes b := by
        simp [set_probes, Function.update_noteq hb]
      rw [hupd]
      have hiff : (∃ i, i < n ∧ slot (index + 1 + i) = b) ↔ (∃ i, i < n + 1 ∧ slot (index + i) = b) := by
        constructor
        · rintro ⟨i, hi, he⟩
          exact ⟨i + 1, by omega, by rw [← he]; congr 1; omega⟩
        · rintro ⟨i, hi, he⟩
          cases i with
          | zero => exact absurd he.symm hb
          | succ j => exact ⟨j, by omega, by rw [← he]; congr 1; omega⟩
      by_cases hc : ∃ i, i < n ∧ slot (index + 1 + i) = b
      · rw [if_pos hc, if_pos (hiff.mp hc)]
      · rw [if_neg hc, if_neg (fun h => hc (hiff.mpr h))]

theorem slots_distinct (index i j : Nat) (hij : i < j) (hj : j < 255) :
    slot (index + i) ≠ slot (index + j) := by
  rw [Ne, slot_eq_iff]
  omega

theorem on_slot_comm (f : List probe → List probe) (a b : Fin 255) (D : struct_kobj_map) :
    on_slot f a (on_slot f b D) = on_slot f b (on_slot f a D) := by
  unfold on_slot set_probes
  congr 1
  funext c
  by_cases hab : a = b
  · subst hab; rfl
  · by_cases hca : c = a
    · subst hca
      simp [Function.update_noteq hab]
    · by_cases hcb : c = b
      · subst hcb
        simp [Function.update_noteq (Ne.symm hab), Function.update_noteq hab]
      · simp [Function.update_noteq hca, Function.update_noteq hcb]

theorem slot_loop_on_slot (f : List probe → List probe) (n index : Nat) (b : Fin 255)
    (D : struct_kobj_map) :
    slot_loop f n index (on_slot f b D) = on_slot f b (slot_loop f n index D) := by
  induction n generalizing index D with
  | zero => rfl
  | succ n ih =>
    simp only [slot_loop]
    change slot_loop f n _ (on_slot f (slot index) (on_slot f b D)) = _
    rw [on_slot_comm, ih]
    rfl

theorem on_slot_cancel (f g : List probe → List probe) (hgf : ∀ l, g (f l) = l) (b : Fin 255)
    (D : struct_kobj_map) : on_slot g b (on_slot f b D) = D := by
  unfold on_slot set_probes
  cases D with
  | mk probes lock =>
    simp only [Function.update_same, hgf, Function.update_idem]
    congr 1
    exact Function.update_eq_self b probes

theorem slot_loop_cancel (f g : List probe → List probe) (hgf : ∀ l, g (f l) = l)
    (n index : Nat) (D : struct_kobj_map) :
    slot_loop g n index (slot_loop f n index D) = D := by
  induction n generalizing index D with
  | zero => rfl
  | succ n ih =>
    simp only [slot_loop]
    change slot_loop g n _ (on_slot g (slot index) (slot_loop f n _ (on_slot f (slot index) D))) = D
    rw [slot_loop_on_slot f, on_slot_cancel f g hgf, ih]

/-! ## Insertion and unlinking in one chain -/

theorem unlink_first_insert_probe (p : probe) (l : List probe) :
    unlink_first p.dev p.range (insert_probe p l) = l := by
  induction l with
  | nil => simp [insert_probe, unlink_first]
  | cons q qs ih =>
    unfold insert_probe
    by_cases h : q.range < p.range
    · rw [if_pos h]
      unfold unlink_first
      have hne : ¬ (q.dev = p.dev ∧ q.range = p.range) := fun hh => by omega
      rw [if_neg hne, ih]
    · rw [if_neg h]
      simp [unlink_first]

/-- The new entry is spliced in after the entries of smaller `range` and before the first
entry that is not smaller; nothing else moves. -/
theorem insert_probe_split (p : probe) (l : List probe) :
    ∃ pre post, l = pre ++ post ∧ insert_probe p l = pre ++ p :: post ∧
      (∀ x ∈ pre, x.range < p.range) ∧ (∀ x, post.head? = some x → p.range ≤ x.range) := by
  induction l with
  | nil => exact ⟨[], [], rfl, rfl, by simp, by simp⟩
  | cons q qs ih =>
    obtain ⟨pre, post, h1, h2, h3, h4⟩ := ih
    unfold insert_probe
    by_cases h : q.range < p.range
    · rw [if_pos h]
      refine ⟨q :: pre, post, by simp [h1], by simp [h2], ?_, h4⟩
      intro x hx
      rcases List.mem_cons.mp hx with rfl | hx
      · exact h
      · exact h3 x hx
    · rw [if_neg h]
      exact ⟨[], q :: qs, rfl, rfl, by simp, by intro x hx; simp at hx; subst hx; omega⟩

theorem unlink_first_split (dev range : Nat) (l : List probe) :
    (∃ pre q post, l = pre ++ q :: post ∧ (q.dev = dev ∧ q.range = range) ∧
        (∀ x ∈ pre, ¬ (x.dev = dev ∧ x.range = range)) ∧ unlink_first dev range l = pre ++ post)
    ∨ ((∀ x ∈ l, ¬ (x.dev = dev ∧ x.range = range)) ∧ unlink_first dev range l = l) := by
  induction l with
  | nil => right; simp [unlink_first]
  | cons a as ih =>
    unfold unlink_first
    by_cases h : a.dev = dev ∧ a.range = range
    · left
      rw [if_pos h]
      exact ⟨[], a, as, rfl, h, by simp, rfl⟩
    · rw [if_neg h]
      rcases ih with ⟨pre, q, post, h1, h2, h3, h4⟩ | ⟨h1, h2⟩
      · left
        refine ⟨a :: pre, q, post, by simp [h1], h2, ?_, by simp [h4]⟩
        intro x hx
        rcases List.mem_cons.mp hx with rfl | hx
        · exact h
        · exact h3 x hx
      · right
        refine ⟨?_, by rw [h2]⟩
        intro x hx
        rcases List.mem_cons.mp hx with rfl | hx
        · exact h
        · exact h1 x hx

theorem insert_probe_length (p : probe) (l : List probe) :
    (insert_probe p l).length = l.length + 1 := by
  obtain ⟨pre, post, h1, h2, _, _⟩ := insert_probe_split p l
  rw [h2, h1]
  simp
  omega

/-! ## Majors spanned by a range -/

theorem majors_spanned_eq (dev range : Nat) (h1 : 1 ≤ range) (hfit : dev + range ≤ 2 ^ 32) :
    majors_spanned dev range = (dev + range - 1) / 2 ^ 20 - dev / 2 ^ 20 + 1 := by
  unfold majors_spanned
  have himg : (Finset.Icc dev (dev + range - 1)).image MAJOR
      = Finset.Icc (dev / 2 ^ 20) ((dev + range - 1) / 2 ^ 20) := by
    ext m
    simp only [Finset.mem_image, Finset.mem_Icc]
    constructor
    · rintro ⟨x, ⟨hx1, hx2⟩, rfl⟩
      rw [MAJOR_eq_div x (by omega)]
      exact ⟨Nat.div_le_div_right hx1, Nat.div_le_div_right hx2⟩
    · rintro ⟨hm1, hm2⟩
      refine ⟨max dev (m * 2 ^ 20), ⟨le_max_left _ _, ?_⟩, ?_⟩
      · apply max_le
        · omega
        · omega
      · have hmax : max dev (m * 2 ^ 20) < 2 ^ 32 := by
          apply max_lt <;> omega
        rw [MAJOR_eq_div _ hmax]
        rcases le_total dev (m * 2 ^ 20) with h | h
        · rw [max_eq_right h]
          omega
        · rw [max_eq_left h]
          omega
  rw [himg, Nat.card_Icc]
  have : dev / 2 ^ 20 ≤ (dev + range - 1) / 2 ^ 20 := Nat.div_le_div_right (by omega)
  omega

theorem probe_count_eq_majors (lb dev range : Nat) (hlb : 32 ≤ lb) (h1 : 1 ≤ range)
    (hfit : dev + range ≤ 2 ^ 32) :
    probe_count lb dev range = min (majors_spanned dev range) 255 := by
  rw [probe_count_fit lb dev range hlb h1 hfit, majors_spanned_eq dev range h1 hfit]

theorem affected_card (index n : Nat) (hn : n ≤ 255) :
    (Finset.univ.filter (fun b : Fin 255 => ∃ i, i < n ∧ slot (index + i) = b)).card = n := by
  have himg : Finset.univ.filter (fun b : Fin 255 => ∃ i, i < n ∧ slot (index + i) = b)
      = (Finset.range n).image (fun i => slot (index + i)) := by
    ext b
    simp [Finset.mem_image]
  rw [himg, Finset.card_image_of_injOn, Finset.card_range]
  intro i hi j hj hij
  simp only [Finset.coe_range, Set.mem_Iio] at hi hj
  simp only [slot_eq_iff] at hij
  omega

/-- What a successful `kobj_map` does to the chains, when `index` does not wrap. -/
theorem kobj_map_probes (lb : Nat) (D : struct_kobj_map) (dev range module probe_fn lock data : Nat)
    (hdev : dev < 2 ^ 32) (b : Fin 255) :
    (kobj_map lb true D dev range module probe_fn lock data).domain.probes b
      = if ∃ i, i < probe_count lb dev range ∧ slot (MAJOR dev + i) = b then
          insert_probe { dev := dev, range := range, owner := module, get := probe_fn,
                         lock := lock, data := data } (D.probes b)
        else D.probes b := by
  have hn := probe_count_le lb dev range
  have hM := MAJOR_lt dev hdev
  simp only [kobj_map, Bool.true_eq_false, if_false, kobj_map_loop_eq]
  exact slot_loop_probes _ _ _ D hn (by omega) b

/-- What `kobj_unmap` does to the chains, when `index` does not wrap. -/
theorem kobj_unmap_probes (lb : Nat) (D : struct_kobj_map) (dev range : Nat)
    (hdev : dev < 2 ^ 32) (b : Fin 255) :
    (kobj_unmap lb D dev range).domain.probes b
      = if ∃ i, i < probe_count lb dev range ∧ slot (MAJOR dev + i) = b then
          unlink_first dev range (D.probes b)
        else D.probes b := by
  have hn := probe_count_le lb dev range
  have hM := MAJOR_lt dev hdev
  simp only [kobj_unmap, kobj_unmap_loop_eq]
  exact slot_loop_probes _ _ _ D hn (by omega) b

theorem kobj_map_lock (lb : Nat) (ok : Bool) (D : struct_kobj_map)
    (dev range module probe_fn lock data : Nat) :
    (kobj_map lb ok D dev range module probe_fn lock data).domain.lock = D.lock := by
  unfold kobj_map
  cases ok
  · simp
  · simp [kobj_map_loop_eq, slot_loop_lock]

theorem kobj_unmap_lock (lb : Nat) (D : struct_kobj_map) (dev range : Nat) :
    (kobj_unmap lb D dev range).domain.lock = D.lock := by
  simp [kobj_unmap, kobj_unmap_loop_eq, slot_loop_lock]

/-! ## Unfolding kobj_lookup -/

theorem kobj_lookup_retry_exhausted {σ : Type} (lb : Nat) (cb : callbacks σ) (dev best : Nat)
    (index : Int) (st : σ) (domain : struct_kobj_map) (trace : List event) (s : scan_state σ)
    (h : scan lb cb dev (domain.probes (slot (MAJOR dev)))
      { best := best, index := index, st := st
        trace := trace ++ [event.mutex_lock domain.lock] } = scan_result.exhausted s) :
    kobj_lookup_retry lb cb dev best index st domain trace
      = { kobj := none, index := s.index, st := s.st, domain := domain
          trace := s.trace ++ [event.mutex_unlock domain.lock] } := by
  rw [kobj_lookup_retry]
  split
  · rename_i s2 h2
    rw [h] at h2
    cases h2
    rfl
  · rename_i p2 s2 h2
    rw [h] at h2
    cases h2

theorem kobj_lookup_retry_some {σ : Type} (lb : Nat) (cb : callbacks σ) (dev best : Nat)
    (index : Int) (st : σ) (domain : struct_kobj_map) (trace : List event)
    (p : probe) (s : scan_state σ) (k : Nat)
    (h : scan lb cb dev (domain.probes (slot (MAJOR dev)))
      { best := best, index := index, st := st
        trace := trace ++ [event.mutex_lock domain.lock] } = scan_result.candidate p s)
    (hk : (cb.get p.get dev s.index p.data s.st domain).kobj = some k) :
    kobj_lookup_retry lb cb dev best index st domain trace
      = { kobj := some k
          index := (cb.get p.get dev s.index p.data s.st domain).index
          st := cb.module_put p.owner (cb.get p.get dev s.index p.data s.st domain).st
          domain := (cb.get p.get dev s.index p.data s.st domain).domain
          trace := s.trace ++ [event.mutex_unlock domain.lock,
            event.resolve p dev s.index (some k), event.module_put p.owner] } := by
  rw [kobj_lookup_retry]
  split
  · rename_i s2 h2
    rw [h] at h2
    cases h2
  · rename_i p2 s2 h2
    rw [h] at h2
    cases h2
    simp only
    split
    · rename_i k2 hk2
      rw [hk] at hk2
      cases hk2
      simp only [hk]
    · rename_i hk2
      rw [hk] at hk2
      cases hk2

theorem kobj_lookup_retry_none {σ : Type} (lb : Nat) (cb : callbacks σ) (dev best : Nat)
    (index : Int) (st : σ) (domain : struct_kobj_map) (trace : List event)
    (p : probe) (s : scan_state σ)
    (h : scan lb cb dev (domain.probes (slot (MAJOR dev)))
      { best := best, index := index, st := st
        trace := trace ++ [event.mutex_lock domain.lock] } = scan_result.candidate p s)
    (hk : (cb.get p.get dev s.index p.data s.st domain).kobj = none) :
    kobj_lookup_retry lb cb dev best index st domain trace
      = kobj_lookup_retry lb cb dev s.best
          (cb.get p.get dev s.index p.data s.st domain).index
          (cb.module_put p.owner (cb.get p.get dev s.index p.data s.st domain).st)
          (cb.get p.get dev s.index p.data s.st domain).domain
          (s.trace ++ [event.mutex_unlock domain.lock,
            event.resolve p dev s.index none, event.module_put p.owner]) := by
  rw [kobj_lookup_retry]
  split
  · rename_i s2 h2
    rw [h] at h2
    cases h2
  · rename_i p2 s2 h2
    rw [h] at h2
    cases h2
    simp only
    split
    · rename_i k2 hk2
      rw [hk] at hk2
      cases hk2
    · rename_i hk2
      simp only [hk]

/-! ## The scan of one chain -/

theorem scan_candidate_best_lt {σ : Type} (lb : Nat) (cb : callbacks σ) (dev : Nat)
    (l : List probe) (s : scan_state σ) (p : probe) (s' : scan_state σ)
    (h : scan lb cb dev l s = scan_result.candidate p s') :
    s'.best < s.best ∧ s'.best = ulong_pred lb p.range := by
  induction l generalizing s with
  | nil => simp [scan] at h
  | cons q qs ih =>
    unfold scan at h
    by_cases h1 : q.dev > dev ∨ (q.dev + q.range + 2 ^ lb - 1) % 2 ^ lb < dev
    · rw [if_pos h1] at h
      exact ih s h
    rw [if_neg h1] at h
    by_cases h2 : ulong_pred lb q.range ≥ s.best
    · rw [if_pos h2] at h
      exact absurd h (by simp)
    rw [if_neg h2] at h
    have hlt : ulong_pred lb q.range < s.best := by omega
    by_cases h3 : (cb.try_module_get q.owner s.st).1 = false
    · rw [if_pos h3] at h
      have := ih _ h
      exact this
    rw [if_neg h3] at h
    simp only at h
    by_cases h4 : q.lock ≠ 0
    · rw [if_pos h4] at h
      by_cases h5 : (cb.lock q.lock dev q.data (cb.try_module_get q.owner s.st).2).1 < 0
      · rw [if_pos h5] at h
        have := ih _ h
        exact ⟨by simp only at this; omega, this.2⟩
      · rw [if_neg h5] at h
        simp only [scan_result.candidate.injEq] at h
        obtain ⟨rfl, rfl⟩ := h
        exact ⟨hlt, rfl⟩
    · rw [if_neg h4] at h
      simp only [scan_result.candidate.injEq] at h
      obtain ⟨rfl, rfl⟩ := h
      exact ⟨hlt, rfl⟩

theorem resolve_calls_append (l1 l2 : List event) :
    resolve_calls (l1 ++ l2) = resolve_calls l1 ++ resolve_calls l2 := by
  induction l1 with
  | nil => rfl
  | cons e es ih =>
    cases e <;> simp [resolve_calls, ih]

theorem scan_skip_pre {σ : Type} (lb : Nat) (cb : callbacks σ) (dev : Nat)
    (pre l : List probe) (s : scan_state σ) (hpre : ∀ x ∈ pre, skips lb x dev) :
    scan lb cb dev (pre ++ l) s = scan lb cb dev l s := by
  induction pre with
  | nil => rfl
  | cons q qs ih =>
    rw [List.cons_append, scan, if_pos (hpre q (List.mem_cons_self _ _))]
    exact ih (fun x hx => hpre x (List.mem_cons_of_mem _ hx))

theorem scan_cons_break {σ : Type} (lb : Nat) (cb : callbacks σ) (dev : Nat)
    (p : probe) (l : List probe) (s : scan_state σ) (h1 : ¬ skips lb p dev)
    (h2 : ulong_pred lb p.range ≥ s.best) :
    scan lb cb dev (p :: l) s = scan_result.exhausted s := by
  rw [scan, if_neg h1, if_pos h2]

/-- An entry that is not passed over, is below `best`, whose token is acquired and whose
guard, if any, does not fail, is the candidate. -/
theorem scan_cons_candidate {σ : Type} (lb : Nat) (cb : callbacks σ) (dev : Nat)
    (p : probe) (l : List probe) (s : scan_state σ) (h1 : ¬ skips lb p dev)
    (h2 : ulong_pred lb p.range < s.best)
    (h3 : (cb.try_module_get p.owner s.st).1 = true)
    (h4 : p.lock = 0 ∨ 0 ≤ (cb.lock p.lock dev p.data (cb.try_module_get p.owner s.st).2).1) :
    ∃ s', scan lb cb dev (p :: l) s = scan_result.candidate p s' ∧
      s'.best = ulong_pred lb p.range ∧
      s'.index = to_int ((dev + 2 ^ 32 - p.dev) % 2 ^ 32) ∧
      resolve_calls s'.trace = resolve_calls s.trace := by
  rw [scan, if_neg h1, if_neg (by omega : ¬ ulong_pred lb p.range ≥ s.best),
    if_neg (by simp [h3])]
  simp only
  by_cases hl : p.lock ≠ 0
  · rw [if_pos hl]
    have hg : ¬ (cb.lock p.lock dev p.data (cb.try_module_get p.owner s.st).2).1 < 0 := by
      rcases h4 with h4 | h4
      · exact absurd h4 hl
      · omega
    rw [if_neg hg]
    exact ⟨_, rfl, rfl, rfl, by simp [resolve_calls_append, resolve_calls]⟩
  · rw [if_neg hl]
    exact ⟨_, rfl, rfl, rfl, by simp [resolve_calls_append, resolve_calls]⟩

/-- A scan records no call of a `->get` callback, and never raises `best`. -/
theorem scan_state_facts {σ : Type} (lb : Nat) (cb : callbacks σ) (dev : Nat)
    (l : List probe) (s : scan_state σ) :
    resolve_calls (scan lb cb dev l s).state.trace = resolve_calls s.trace ∧
      (scan lb cb dev l s).state.best ≤ s.best := by
  induction l generalizing s with
  | nil => simp [scan, scan_result.state]
  | cons q qs ih =>
    unfold scan
    by_cases h1 : q.dev > dev ∨ (q.dev + q.range + 2 ^ lb - 1) % 2 ^ lb < dev
    · rw [if_pos h1]
      exact ih s
    rw [if_neg h1]
    by_cases h2 : ulong_pred lb q.range ≥ s.best
    · rw [if_pos h2]
      simp [scan_result.state]
    rw [if_neg h2]
    by_cases h3 : (cb.try_module_get q.owner s.st).1 = false
    · rw [if_pos h3]
      have := ih { s with st := (cb.try_module_get q.owner s.st).2
                          trace := s.trace ++ [event.try_module_get q.owner false] }
      simpa [resolve_calls_append, resolve_calls] using this
    rw [if_neg h3]
    simp only
    by_cases h4 : q.lock ≠ 0
    · rw [if_pos h4]
      by_cases h5 : (cb.lock q.lock dev q.data (cb.try_module_get q.owner s.st).2).1 < 0
      · rw [if_pos h5]
        have := ih { best := ulong_pred lb q.range
                     index := to_int ((dev + 2 ^ 32 - q.dev) % 2 ^ 32)
                     st := cb.module_put q.owner
                       (cb.lock q.lock dev q.data (cb.try_module_get q.owner s.st).2).2
                     trace := s.trace ++ [event.try_module_get q.owner true] ++
                       [event.guard q dev
                         (cb.lock q.lock dev q.data (cb.try_module_get q.owner s.st).2).1,
                        event.module_put q.owner] }
        simp only [resolve_calls_append, resolve_calls, List.append_nil] at this
        exact ⟨this.1, by omega⟩
      · rw [if_neg h5]
        simp only [scan_result.state, resolve_calls_append, resolve_calls, List.append_nil,
          true_and]
        omega
    · rw [if_neg h4]
      simp only [scan_result.state, resolve_calls_append, resolve_calls, List.append_nil,
        true_and]
      omega

/-! ## Lookups decided by the first entry that is not passed over -/

/-- The chain of `dev` is `pre ++ A :: post`, the scan passes over `pre`, and `A` is taken
(token acquired, guard absent or not failing).  If the `->get` of `A` returns a handle, that
handle is the result, and the only `->get` call is the one of `A`. -/
theorem lookup_first_candidate {σ : Type} (lb : Nat) (cb : callbacks σ) (D : struct_kobj_map)
    (d : Nat) (i0 : Int) (st0 : σ) (pre post : List probe) (A : probe) (H : Nat)
    (hchain : D.probes (slot (MAJOR d)) = pre ++ A :: post)
    (hpre : ∀ x ∈ pre, skips lb x d) (hA : ¬ skips lb A d)
    (hbest : ulong_pred lb A.range < ULONG_MAX lb)
    (htok : ∀ s, (cb.try_module_get A.owner s).1 = true)
    (hguard : A.lock = 0 ∨ ∀ s, 0 ≤ (cb.lock A.lock d A.data s).1)
    (hget : ∀ i s dom, (cb.get A.get d i A.data s dom).kobj = some H) :
    (kobj_lookup lb cb D d i0 st0).kobj = some H ∧
      resolve_calls (kobj_lookup lb cb D d i0 st0).trace
        = [(A, d, to_int ((d + 2 ^ 32 - A.dev) % 2 ^ 32))] := by
  obtain ⟨s', hs, _, hidx, htr⟩ := scan_cons_candidate lb cb d A post
    { best := ULONG_MAX lb, index := i0, st := st0, trace := [] ++ [event.mutex_lock D.lock] }
    hA hbest (htok _) (hguard.imp id (fun h => h _))
  have hscan : scan lb cb d (D.probes (slot (MAJOR d)))
      { best := ULONG_MAX lb, index := i0, st := st0, trace := [] ++ [event.mutex_lock D.lock] }
      = scan_result.candidate A s' := by
    rw [hchain, scan_skip_pre lb cb d pre _ _ hpre, hs]
  unfold kobj_lookup
  rw [kobj_lookup_retry_some lb cb d _ i0 st0 D [] A s' H hscan (hget _ _ _)]
  simp only [true_and]
  rw [resolve_calls_append, htr, hidx]
  simp [resolve_calls]

/-- As before, but the `->get` of `A` returns no handle and leaves the directory as it is:
the second scan stops at `A` (`best` is still `A.range - 1`), so the result is `NULL` and
no other `->get` is called. -/
theorem lookup_first_candidate_declines {σ : Type} (lb : Nat) (cb : callbacks σ)
    (D : struct_kobj_map) (d : Nat) (i0 : Int) (st0 : σ) (pre post : List probe) (A : probe)
    (hchain : D.probes (slot (MAJOR d)) = pre ++ A :: post)
    (hpre : ∀ x ∈ pre, skips lb x d) (hA : ¬ skips lb A d)
    (hbest : ulong_pred lb A.range < ULONG_MAX lb)
    (htok : ∀ s, (cb.try_module_get A.owner s).1 = true)
    (hguard : A.lock = 0 ∨ ∀ s, 0 ≤ (cb.lock A.lock d A.data s).1)
    (hget : ∀ i s dom, (cb.get A.get d i A.data s dom).kobj = none ∧
      (cb.get A.get d i A.data s dom).domain = dom) :
    (kobj_lookup lb cb D d i0 st0).kobj = none ∧
      resolve_calls (kobj_lookup lb cb D d i0 st0).trace
        = [(A, d, to_int ((d + 2 ^ 32 - A.dev) % 2 ^ 32))] := by
  obtain ⟨s', hs, hb, hidx, htr⟩ := scan_cons_candidate lb cb d A post
    { best := ULONG_MAX lb, index := i0, st := st0, trace := [] ++ [event.mutex_lock D.lock] }
    hA hbest (htok _) (hguard.imp id (fun h => h _))
  have hscan : scan lb cb d (D.probes (slot (MAJOR d)))
      { best := ULONG_MAX lb, index := i0, st := st0, trace := [] ++ [event.mutex_lock D.lock] }
      = scan_result.candidate A s' := by
    rw [hchain, scan_skip_pre lb cb d pre _ _ hpre, hs]
  unfold kobj_lookup
  rw [kobj_lookup_retry_none lb cb d _ i0 st0 D [] A s' hscan (hget _ _ _).1]
  rw [(hget s'.index s'.st D).2]
  have hscan2 : ∀ (i : Int) (st : σ) (tr : List event),
      scan lb cb d (D.probes (slot (MAJOR d)))
        { best := s'.best, index := i, st := st, trace := tr }
      = scan_result.exhausted { best := s'.best, index := i, st := st, trace := tr } := by
    intro i st tr
    rw [hchain, scan_skip_pre lb cb d pre _ _ hpre]
    exact scan_cons_break lb cb d A post _ hA (by simp only [hb]; exact le_refl _)
  rw [kobj_lookup_retry_exhausted lb cb d _ _ _ D _ _ (hscan2 _ _ _)]
  simp only [true_and]
  rw [resolve_calls_append, resolve_calls_append, resolve_calls_append, htr, hidx]
  simp [resolve_calls]

theorem not_skips_of_covered (lb : Nat) (p : probe) (d : Nat) (hlb : 32 ≤ lb)
    (hfit : p.dev + p.range ≤ 2 ^ 32) (h1 : p.dev ≤ d) (h2 : d < p.dev + p.range) :
    ¬ skips lb p d := by
  have hp := two_pow_le lb hlb
  have e : (p.dev + p.range + 2 ^ lb - 1) % 2 ^ lb = p.dev + p.range - 1 := by
    have : p.dev + p.range + 2 ^ lb - 1 = (p.dev + p.range - 1) + 2 ^ lb := by omega
    rw [this, Nat.add_mod_right]
    exact Nat.mod_eq_of_lt (by omega)
  unfold skips
  rw [e]
  omega

/-- An identifier covered by a range within the identifier space lies in one of the slots
that `kobj_map` and `kobj_unmap` visit for that range. -/
theorem covered_slot_affected (lb dev range d : Nat) (hlb : 32 ≤ lb)
    (hfit : dev + range ≤ 2 ^ 32) (h1 : dev ≤ d) (h2 : d < dev + range) :
    ∃ i, i < probe_count lb dev range ∧ slot (MAJOR dev + i) = slot (MAJOR d) := by
  rw [probe_count_fit lb dev range hlb (by omega) hfit, MAJOR_eq_div dev (by omega),
    MAJOR_eq_div d (by omega)]
  have hm1 : dev / 2 ^ 20 ≤ d / 2 ^ 20 := Nat.div_le_div_right h1
  have hm2 : d / 2 ^ 20 ≤ (dev + range - 1) / 2 ^ 20 := Nat.div_le_div_right (by omega)
  refine ⟨(d / 2 ^ 20 - dev / 2 ^ 20) % 255, ?_, ?_⟩
  · have : (d / 2 ^ 20 - dev / 2 ^ 20) % 255 ≤ d / 2 ^ 20 - dev / 2 ^ 20 := Nat.mod_le _ _
    have : (d / 2 ^ 20 - dev / 2 ^ 20) % 255 < 255 := Nat.mod_lt _ (by decide)
    omega
  · rw [slot_eq_iff]
    omega

theorem to_int_sub (d dev : Nat) (h1 : dev ≤ d) (h2 : d < 2 ^ 32) :
    to_int ((d + 2 ^ 32 - dev) % 2 ^ 32) = to_int (d - dev) := by
  have : d + 2 ^ 32 - dev = (d - dev) + 2 ^ 32 := by omega
  rw [this, Nat.add_mod_right, Nat.mod_eq_of_lt (by omega)]

theorem to_int_small (x : Nat) (h : x < 2 ^ 31) : to_int x = (x : Int) := by
  unfold to_int
  have : x % 2 ^ 32 = x := Nat.mod_eq_of_lt (by omega)
  rw [this, if_pos h]

theorem init_probes (lb base_probe m : Nat) (D0 : struct_kobj_map)
    (h : kobj_map_init lb true true base_probe m = some D0) (b : Fin 255) :
    D0.probes b = [base_entry lb base_probe] := by
  simp [kobj_map_init] at h
  subst h
  rfl

theorem register_probes (lb : Nat) (D : struct_kobj_map) (r : probe) (hdev : r.dev < 2 ^ 32)
    (b : Fin 255) :
    (register lb D r).probes b
      = if ∃ i, i < probe_count lb r.dev r.range ∧ slot (MAJOR r.dev + i) = b then
          insert_probe r (D.probes b)
        else D.probes b := by
  unfold register
  rw [kobj_map_probes lb D r.dev r.range r.owner r.get r.lock r.data hdev b]

theorem register_probes_covered (lb : Nat) (D : struct_kobj_map) (r : probe) (d : Nat)
    (hlb : 32 ≤ lb) (hfit : r.dev + r.range ≤ 2 ^ 32) (h1 : r.dev ≤ d) (h2 : d < r.dev + r.range) :
    (register lb D r).probes (slot (MAJOR d)) = insert_probe r (D.probes (slot (MAJOR d))) := by
  rw [register_probes lb D r (by omega), if_pos (covered_slot_affected lb r.dev r.range d hlb hfit h1 h2)]

/-- After two registrations on a fresh directory, in either order, the chain of an
identifier covered by both starts with the entry of smaller `range`. -/
theorem two_registrations_chain (lb base_probe m : Nat) (D0 D : struct_kobj_map) (r1 r2 : probe)
    (d : Nat) (hlb : 32 ≤ lb)
    (hinit : kobj_map_init lb true true base_probe m = some D0)
    (hlt : r1.range < r2.range)
    (hfit1 : r1.dev + r1.range ≤ 2 ^ 32) (hfit2 : r2.dev + r2.range ≤ 2 ^ 32)
    (hc1 : r1.dev ≤ d ∧ d < r1.dev + r1.range) (hc2 : r2.dev ≤ d ∧ d < r2.dev + r2.range)
    (ht2 : r2.range < 2 ^ lb)
    (hD : D = register lb (register lb D0 r1) r2 ∨ D = register lb (register lb D0 r2) r1) :
    D.probes (slot (MAJOR d)) = [] ++ r1 :: [r2, base_entry lb base_probe] := by
  have hp := two_pow_le lb hlb
  have hb : (base_entry lb base_probe).range = 2 ^ lb - 1 := rfl
  have e1 : ¬ (2 ^ lb - 1 < r1.range) := by omega
  have e2 : ¬ (2 ^ lb - 1 < r2.range) := by omega
  have e3 : ¬ (r2.range < r1.range) := by omega
  rcases hD with rfl | rfl
  · rw [register_probes_covered lb _ r2 d hlb hfit2 hc2.1 hc2.2,
      register_probes_covered lb _ r1 d hlb hfit1 hc1.1 hc1.2,
      init_probes lb base_probe m D0 hinit]
    simp only [insert_probe, hb, if_neg e1, if_neg e2, if_pos hlt, List.nil_append]
  · rw [register_probes_covered lb _ r1 d hlb hfit1 hc1.1 hc1.2,
      register_probes_covered lb _ r2 d hlb hfit2 hc2.1 hc2.2,
      init_probes lb base_probe m D0 hinit]
    simp only [insert_probe, hb, if_neg e2, if_neg e3, List.nil_append]

/-- The lookup after two registrations on a fresh directory. -/
theorem lookup_two_registrations {σ : Type} (lb : Nat) (cb : callbacks σ) (base_probe m : Nat)
    (D0 D : struct_kobj_map) (r1 r2 : probe) (d H1 : Nat) (i0 : Int) (st0 : σ)
    (hlb : 32 ≤ lb)
    (hinit : kobj_map_init lb true true base_probe m = some D0)
    (hlt : r1.range < r2.range)
    (hfit1 : r1.dev + r1.range ≤ 2 ^ 32) (hfit2 : r2.dev + r2.range ≤ 2 ^ 32)
    (hc1 : r1.dev ≤ d ∧ d < r1.dev + r1.range) (hc2 : r2.dev ≤ d ∧ d < r2.dev + r2.range)
    (ht2 : r2.range < 2 ^ lb)
    (hD : D = register lb (register lb D0 r1) r2 ∨ D = register lb (register lb D0 r2) r1)
    (htok : ∀ s, (cb.try_module_get r1.owner s).1 = true)
    (hguard : r1.lock = 0 ∨ ∀ s, 0 ≤ (cb.lock r1.lock d r1.data s).1)
    (hget : ∀ i s dom, (cb.get r1.get d i r1.data s dom).kobj = some H1) :
    (kobj_lookup lb cb D d i0 st0).kobj = some H1 ∧
      resolve_calls (kobj_lookup lb cb D d i0 st0).trace = [(r1, d, to_int (d - r1.dev))] := by
  have hp := two_pow_le lb hlb
  have hchain := two_registrations_chain lb base_probe m D0 D r1 r2 d hlb hinit hlt hfit1 hfit2
    hc1 hc2 ht2 hD
  have hbest : ulong_pred lb r1.range < ULONG_MAX lb := by
    rw [ulong_pred_eq lb r1.range (by omega) (by omega)]
    unfold ULONG_MAX
    omega
  have h := lookup_first_candidate lb cb D d i0 st0 [] _ r1 H1 hchain (by simp)
    (not_skips_of_covered lb r1 d hlb hfit1 hc1.1 hc1.2) hbest htok hguard hget
  rw [to_int_sub d r1.dev hc1.1 (by omega)] at h
  exact h

/-- The lookup after one registration on a fresh directory. -/
theorem lookup_one_registration {σ : Type} (lb : Nat) (cb : callbacks σ) (base_probe m : Nat)
    (D0 : struct_kobj_map) (r : probe) (d H : Nat) (i0 : Int) (st0 : σ)
    (hlb : 32 ≤ lb)
    (hinit : kobj_map_init lb true true base_probe m = some D0)
    (hrange : 1 ≤ r.range) (htyped : r.range < 2 ^ lb) (hfit : r.dev + r.range - 1 ≤ 2 ^ 32 - 1)
    (hd1 : r.dev ≤ d) (hd2 : d ≤ r.dev + r.range - 1)
    (htok : ∀ s, (cb.try_module_get r.owner s).1 = true)
    (hguard : r.lock = 0 ∨ ∀ s, 0 ≤ (cb.lock r.lock d r.data s).1)
    (hget : ∀ i s dom, (cb.get r.get d i r.data s dom).kobj = some H) :
    (kobj_lookup lb cb (register lb D0 r) d i0 st0).kobj = some H ∧
      resolve_calls (kobj_lookup lb cb (register lb D0 r) d i0 st0).trace
        = [(r, d, to_int (d - r.dev))] := by
  have hp := two_pow_le lb hlb
  have hfit' : r.dev + r.range ≤ 2 ^ 32 := by omega
  have hchain : (register lb D0 r).probes (slot (MAJOR d))
      = [] ++ r :: [base_entry lb base_probe] := by
    rw [register_probes_covered lb _ r d hlb hfit' hd1 (by omega),
      init_probes lb base_probe m D0 hinit]
    have hb : (base_entry lb base_probe).range = 2 ^ lb - 1 := rfl
    simp only [insert_probe, hb]
    rw [if_neg (by omega)]
    rfl
  have hbest : ulong_pred lb r.range < ULONG_MAX lb := by
    rw [ulong_pred_eq lb r.range hrange htyped]
    unfold ULONG_MAX
    omega
  have h := lookup_first_candidate lb cb (register lb D0 r) d i0 st0 [] _ r H hchain (by simp)
    (not_skips_of_covered lb r d hlb hfit' hd1 (by omega)) hbest htok hguard hget
  rw [to_int_sub d r.dev hd1 (by omega)] at h
  exact h

/-! ## Chains in which only the base entry can become the candidate -/

theorem scan_passive_candidate {σ : Type} (lb : Nat) (cb : callbacks σ) (base : probe) (d : Nat)
    (l : List probe) (hl : ∀ p ∈ l, passive lb cb base d p) (s : scan_state σ)
    (hs : s.best ≤ 2 ^ lb - 1) (p' : probe) (s' : scan_state σ)
    (h : scan lb cb d l s = scan_result.candidate p' s') : p' = base := by
  induction l generalizing s with
  | nil => simp [scan] at h
  | cons q qs ih =>
    have hq := hl q (List.mem_cons_self _ _)
    have hqs : ∀ p ∈ qs, passive lb cb base d p := fun p hp => hl p (List.mem_cons_of_mem _ hp)
    have hpl := ulong_pred_lt lb q.range
    unfold scan at h
    by_cases h1 : q.dev > d ∨ (q.dev + q.range + 2 ^ lb - 1) % 2 ^ lb < d
    · rw [if_pos h1] at h
      exact ih hqs s hs h
    rw [if_neg h1] at h
    by_cases h2 : ulong_pred lb q.range ≥ s.best
    · rw [if_pos h2] at h
      exact absurd h (by simp)
    rw [if_neg h2] at h
    by_cases h3 : (cb.try_module_get q.owner s.st).1 = false
    · rw [if_pos h3] at h
      have := ih hqs _ (by simpa using hs) h
      exact this
    rw [if_neg h3] at h
    simp only at h
    by_cases h4 : q.lock ≠ 0
    · rw [if_pos h4] at h
      by_cases h5 : (cb.lock q.lock d q.data (cb.try_module_get q.owner s.st).2).1 < 0
      · rw [if_pos h5] at h
        have := ih hqs _ (by simp only; omega) h
        exact this
      · rw [if_neg h5] at h
        simp only [scan_result.candidate.injEq] at h
        obtain ⟨rfl, -⟩ := h
        rcases hq with hq | hq | hq | hq
        · exact absurd hq h1
        · omega
        · exact hq
        · exact absurd (hq.2 _) h5
    · rw [if_neg h4] at h
      simp only [scan_result.candidate.injEq] at h
      obtain ⟨rfl, -⟩ := h
      rcases hq with hq | hq | hq | hq
      · exact absurd hq h1
      · omega
      · exact hq
      · exact absurd hq.1 h4

theorem scan_passive_exhausted {σ : Type} (lb : Nat) (cb : callbacks σ) (base : probe) (d : Nat)
    (l : List probe) (hl : ∀ p ∈ l, passive lb cb base d p) (s : scan_state σ)
    (hs : s.best ≤ ulong_pred lb base.range) :
    ∃ s', scan lb cb d l s = scan_result.exhausted s' := by
  have hb := ulong_pred_lt lb base.range
  cases hres : scan lb cb d l s with
  | exhausted s' => exact ⟨s', rfl⟩
  | candidate p' s' =>
    have hp' := scan_passive_candidate lb cb base d l hl s (by omega) p' s' hres
    have hlt := scan_candidate_best_lt lb cb d l s p' s' hres
    rw [hp'] at hlt
    omega

/-- In a chain of passive entries, with a base `->get` that returns `NULL` and leaves the
directory alone, the lookup returns `NULL` and calls no `->get` but the one of `base`. -/
theorem lookup_passive {σ : Type} (lb : Nat) (cb : callbacks σ) (base : probe)
    (D : struct_kobj_map) (d : Nat) (i0 : Int) (st0 : σ)
    (hl : ∀ p ∈ D.probes (slot (MAJOR d)), passive lb cb base d p)
    (hget : ∀ i s dom, (cb.get base.get d i base.data s dom).kobj = none ∧
      (cb.get base.get d i base.data s dom).domain = dom) :
    (kobj_lookup lb cb D d i0 st0).kobj = none ∧
      ∀ c ∈ resolve_calls (kobj_lookup lb cb D d i0 st0).trace, c.1 = base := by
  unfold kobj_lookup
  cases hres : scan lb cb d (D.probes (slot (MAJOR d)))
      { best := ULONG_MAX lb, index := i0, st := st0, trace := [] ++ [event.mutex_lock D.lock] } with
  | exhausted s' =>
    rw [kobj_lookup_retry_exhausted lb cb d _ i0 st0 D [] s' hres]
    have hf := (scan_state_facts lb cb d (D.probes (slot (MAJOR d)))
      { best := ULONG_MAX lb, index := i0, st := st0,
        trace := [] ++ [event.mutex_lock D.lock] }).1
    rw [hres] at hf
    simp only [scan_result.state] at hf
    simp [resolve_calls_append, hf, resolve_calls]
  | candidate p' s' =>
    have hp' := scan_passive_candidate lb cb base d _ hl _ (le_refl _) p' s' hres
    subst hp'
    have hlt := scan_candidate_best_lt lb cb d _ _ p' s' hres
    have hf := (scan_state_facts lb cb d (D.probes (slot (MAJOR d)))
      { best := ULONG_MAX lb, index := i0, st := st0,
        trace := [] ++ [event.mutex_lock D.lock] }).1
    rw [hres] at hf
    simp only [scan_result.state] at hf
    rw [kobj_lookup_retry_none lb cb d _ i0 st0 D [] p' s' hres (hget _ _ _).1]
    rw [(hget s'.index s'.st D).2]
    obtain ⟨s2, hres2⟩ := scan_passive_exhausted lb cb p' d _ hl
      { best := s'.best, index := (cb.get p'.get d s'.index p'.data s'.st D).index
        st := cb.module_put p'.owner (cb.get p'.get d s'.index p'.data s'.st D).st
        trace := (s'.trace ++ [event.mutex_unlock D.lock, event.resolve p' d s'.index none,
          event.module_put p'.owner]) ++ [event.mutex_lock D.lock] } (le_of_eq hlt.2)
    have hf2 := (scan_state_facts lb cb d (D.probes (slot (MAJOR d)))
      { best := s'.best, index := (cb.get p'.get d s'.index p'.data s'.st D).index
        st := cb.module_put p'.owner (cb.get p'.get d s'.index p'.data s'.st D).st
        trace := (s'.trace ++ [event.mutex_unlock D.lock, event.resolve p' d s'.index none,
          event.module_put p'.owner]) ++ [event.mutex_lock D.lock] }).1
    rw [hres2] at hf2
    simp only [scan_result.state] at hf2
    rw [kobj_lookup_retry_exhausted lb cb d _ _ _ D _ s2 hres2]
    simp only [true_and]
    rw [resolve_calls_append, hf2]
    simp [resolve_calls_append, hf, resolve_calls]

/-! ## Entries of reachable directories -/

theorem mem_insert_probe (p x : probe) (l : List probe) (h : x ∈ insert_probe p l) :
    x = p ∨ x ∈ l := by
  obtain ⟨pre, post, h1, h2, _, _⟩ := insert_probe_split p l
  rw [h2] at h
  rw [h1]
  simp only [List.mem_append, List.mem_cons] at h ⊢
  tauto

theorem mem_unlink_first (dev range : Nat) (x : probe) (l : List probe)
    (h : x ∈ unlink_first dev range l) : x ∈ l := by
  rcases unlink_first_split dev range l with ⟨pre, q, post, h1, _, _, h4⟩ | ⟨_, h2⟩
  · rw [h4] at h
    rw [h1]
    simp only [List.mem_append, List.mem_cons] at h ⊢
    tauto
  · rwa [h2] at h

/-- Every entry of a reachable directory has fields of its C types. -/
theorem reachable_typed (lb base_probe m : Nat) (D : struct_kobj_map)
    (hD : reachable lb base_probe m D) :
    ∀ b, ∀ p ∈ D.probes b, p.dev < 2 ^ 32 ∧ p.range < 2 ^ lb := by
  induction hD with
  | init D h =>
    intro b p hp
    rw [init_probes lb base_probe m D h b] at hp
    simp only [List.mem_singleton] at hp
    subst hp
    have : 0 < 2 ^ lb := by positivity
    simp only [base_entry, ULONG_MAX]
    omega
  | map D ok dev range module probe_fn lock data _ hdev hrange ih =>
    intro b p hp
    cases ok with
    | false =>
      simp only [kobj_map, if_true] at hp
      exact ih b p hp
    | true =>
      rw [kobj_map_probes lb D dev range module probe_fn lock data hdev b] at hp
      split_ifs at hp with hc
      · rcases mem_insert_probe _ _ _ hp with rfl | hp
        · exact ⟨hdev, hrange⟩
        · exact ih b p hp
      · exact ih b p hp
  | unmap D dev range _ hdev _ ih =>
    intro b p hp
    rw [kobj_unmap_probes lb D dev range hdev b] at hp
    split_ifs at hp with hc
    · exact ih b p (mem_unlink_first _ _ _ _ hp)
    · exact ih b p hp

/-- An entry with fields of its C types that does not cover `d` is passed over by the scan,
or (when `range` is 0) stops it. -/
theorem passive_of_not_covering {σ : Type} (lb : Nat) (cb : callbacks σ) (base p : probe)
    (d : Nat) (hlb : 32 ≤ lb) (hdev : p.dev < 2 ^ 32) (hrange : p.range < 2 ^ lb)
    (hnc : ¬ (p.dev ≤ d ∧ d < p.dev + p.range)) : passive lb cb base d p := by
  have hp := two_pow_le lb hlb
  by_cases h0 : p.range = 0
  · right; left
    unfold ulong_pred
    rw [h0, Nat.zero_add]
    exact Nat.mod_eq_of_lt (by omega)
  · left
    unfold skips
    by_cases hle : p.dev + p.range ≤ 2 ^ lb
    · have e : (p.dev + p.range + 2 ^ lb - 1) % 2 ^ lb = p.dev + p.range - 1 := by
        have : p.dev + p.range + 2 ^ lb - 1 = (p.dev + p.range - 1) + 2 ^ lb := by omega
        rw [this, Nat.add_mod_right]
        exact Nat.mod_eq_of_lt (by omega)
      rw [e]
      omega
    · have e : (p.dev + p.range + 2 ^ lb - 1) % 2 ^ lb = p.dev + p.range - 1 - 2 ^ lb := by
        have : p.dev + p.range + 2 ^ lb - 1 = (p.dev + p.range - 1 - 2 ^ lb) + 2 ^ lb + 2 ^ lb := by
          omega
        rw [this, Nat.add_mod_right, Nat.add_mod_right]
        exact Nat.mod_eq_of_lt (by omega)
      rw [e]
      omega

/-! ## The retry loop in general -/

/-- The `->get` calls of the retry loop started with `best`: each is made for an entry with
`range - 1 < best`, and `range - 1` strictly decreases from each call to the next. -/
theorem retry_calls {σ : Type} (lb : Nat) (cb : callbacks σ) (dev : Nat) :
    ∀ (best : Nat) (index : Int) (st : σ) (D : struct_kobj_map) (tr : List event),
    ∃ calls : List (probe × Nat × Int),
      resolve_calls (kobj_lookup_retry lb cb dev best index st D tr).trace
        = resolve_calls tr ++ calls ∧
      (∀ c ∈ calls, ulong_pred lb c.1.range < best) ∧
      calls.Pairwise (fun a b => ulong_pred lb b.1.range < ulong_pred lb a.1.range) := by
  intro best
  induction best using Nat.strong_induction_on with
  | _ best ih =>
    intro index st D tr
    have hf := (scan_state_facts lb cb dev (D.probes (slot (MAJOR dev)))
      { best := best, index := index, st := st, trace := tr ++ [event.mutex_lock D.lock] }).1
    cases hres : scan lb cb dev (D.probes (slot (MAJOR dev)))
        { best := best, index := index, st := st, trace := tr ++ [event.mutex_lock D.lock] } with
    | exhausted s' =>
      rw [hres] at hf
      simp only [scan_result.state] at hf
      rw [kobj_lookup_retry_exhausted lb cb dev best index st D tr s' hres]
      refine ⟨[], ?_, by simp, List.Pairwise.nil⟩
      simp [resolve_calls_append, hf, resolve_calls]
    | candidate p s' =>
      rw [hres] at hf
      simp only [scan_result.state] at hf
      have hlt := scan_candidate_best_lt lb cb dev _ _ p s' hres
      simp only at hlt
      cases hk : (cb.get p.get dev s'.index p.data s'.st D).kobj with
      | some k =>
        rw [kobj_lookup_retry_some lb cb dev best index st D tr p s' k hres hk]
        refine ⟨[(p, dev, s'.index)], ?_, ?_, by simp⟩
        · simp [resolve_calls_append, hf, resolve_calls]
        · intro c hc
          simp only [List.mem_singleton] at hc
          subst hc
          show ulong_pred lb p.range < best
          omega
      | none =>
        rw [kobj_lookup_retry_none lb cb dev best index st D tr p s' hres hk]
        obtain ⟨calls, h1, h2, h3⟩ := ih s'.best hlt.1
          (cb.get p.get dev s'.index p.data s'.st D).index
          (cb.module_put p.owner (cb.get p.get dev s'.index p.data s'.st D).st)
          (cb.get p.get dev s'.index p.data s'.st D).domain
          (s'.trace ++ [event.mutex_unlock D.lock, event.resolve p dev s'.index none,
            event.module_put p.owner])
        refine ⟨(p, dev, s'.index) :: calls, ?_, ?_, ?_⟩
        · rw [h1]
          simp [resolve_calls_append, hf, resolve_calls]
        · intro c hc
          rcases List.mem_cons.mp hc with rfl | hc
          · show ulong_pred lb p.range < best
            omega
          · have := h2 c hc
            omega
        · refine List.Pairwise.cons ?_ h3
          intro c hc
          have := h2 c hc
          simp only
          omega

/-- When every `->get` returns `NULL`, so does the retry loop. -/
theorem retry_all_decline {σ : Type} (lb : Nat) (cb : callbacks σ) (dev : Nat)
    (hnone : ∀ f dv i data s dom, (cb.get f dv i data s dom).kobj = none) :
    ∀ (best : Nat) (index : Int) (st : σ) (D : struct_kobj_map) (tr : List event),
      (kobj_lookup_retry lb cb dev best index st D tr).kobj = none := by
  intro best
  induction best using Nat.strong_induction_on with
  | _ best ih =>
    intro index st D tr
    cases hres : scan lb cb dev (D.probes (slot (MAJOR dev)))
        { best := best, index := index, st := st, trace := tr ++ [event.mutex_lock D.lock] } with
    | exhausted s' =>
      rw [kobj_lookup_retry_exhausted lb cb dev best index st D tr s' hres]
    | candidate p s' =>
      have hlt := scan_candidate_best_lt lb cb dev _ _ p s' hres
      rw [kobj_lookup_retry_none lb cb dev best index st D tr p s' hres (hnone _ _ _ _ _ _)]
      exact ih s'.best hlt.1 _ _ _ _

theorem decreasing_length_le (l : List Nat) :
    ∀ N, (∀ x ∈ l, x < N) → l.Pairwise (fun a b => b < a) → l.length ≤ N := by
  induction l with
  | nil => intro N _ _; simp
  | cons a as ih =>
    intro N h1 h2
    have ha := h1 a (List.mem_cons_self _ _)
    rw [List.pairwise_cons] at h2
    have := ih a h2.1 h2.2
    simp only [List.length_cons]
    omega

/-! ## Claims on kobj_map and kobj_unmap -/

/-- C7. Per-major materialisation: for a range of at least one identifier that lies within
the identifier space and spans `k` majors, a successful `kobj_map` splices exactly one copy of
the entry `(dev, range, owner, get, lock, data)`, with `dev` and `range` as passed, into each
of the `min k 255` slots `(MAJOR(dev) + i) % 255`; these slots are pairwise different, the
other slots are unchanged, the old entries keep their order, and the total number of entries
grows by `min k 255`. -/
theorem kobj_map_per_major (lb : Nat) (D : struct_kobj_map)
    (dev range module probe_fn lock data : Nat)
    (hlb : 32 ≤ lb) (hrange : 1 ≤ range) (hfit : dev + range - 1 ≤ 2 ^ 32 - 1) :
    (∀ i, i < min (majors_spanned dev range) 255 →
      ∃ pre post, D.probes (slot (MAJOR dev + i)) = pre ++ post ∧
        (kobj_map lb true D dev range module probe_fn lock data).domain.probes
            (slot (MAJOR dev + i))
          = pre ++ { dev := dev, range := range, owner := module, get := probe_fn,
                     lock := lock, data := data } :: post)
    ∧ (∀ i j, i < j → j < min (majors_spanned dev range) 255 →
        slot (MAJOR dev + i) ≠ slot (MAJOR dev + j))
    ∧ (∀ b, (∀ i, i < min (majors_spanned dev range) 255 → b ≠ slot (MAJOR dev + i)) →
        (kobj_map lb true D dev range module probe_fn lock data).domain.probes b = D.probes b)
    ∧ (∑ b, ((kobj_map lb true D dev range module probe_fn lock data).domain.probes b).length
        = (∑ b, (D.probes b).length) + min (majors_spanned dev range) 255)
    ∧ (kobj_map lb true D dev range module probe_fn lock data).ret = 0 := by
  have hfit' : dev + range ≤ 2 ^ 32 := by omega
  have hdev : dev < 2 ^ 32 := by omega
  have hn := probe_count_eq_majors lb dev range hlb hrange hfit'
  have hP := kobj_map_probes lb D dev range module probe_fn lock data hdev
  rw [hn] at hP
  refine ⟨?_, ?_, ?_, ?_, ?_⟩
  · intro i hi
    rw [hP, if_pos ⟨i, hi, rfl⟩]
    obtain ⟨pre, post, h1, h2, _, _⟩ :=
      insert_probe_split { dev := dev, range := range, owner := module, get := probe_fn,
                           lock := lock, data := data } (D.probes (slot (MAJOR dev + i)))
    exact ⟨pre, post, h1, h2⟩
  · intro i j hij hj
    exact slots_distinct _ i j hij (by omega)
  · intro b hb
    rw [hP, if_neg]
    rintro ⟨i, hi, he⟩
    exact hb i hi he.symm
  · have hlen : ∀ b : Fin 255,
        ((kobj_map lb true D dev range module probe_fn lock data).domain.probes b).length
          = (D.probes b).length
            + (if ∃ i, i < min (majors_spanned dev range) 255 ∧ slot (MAJOR dev + i) = b
                then 1 else 0) := by
      intro b
      rw [hP]
      split_ifs with h
      · rw [insert_probe_length]
      · rfl
    simp only [hlen, Finset.sum_add_distrib, Finset.sum_boole]
    rw [affected_card _ _ (by omega)]
    simp
  · simp [kobj_map]

/-- Witness of C7: two identifiers, one on each side of a major boundary. -/
theorem kobj_map_per_major_witness :
    (32 ≤ 64 ∧ 1 ≤ 2 ∧ 1048575 + 2 - 1 ≤ 2 ^ 32 - 1) ∧
    ((∀ i, i < min (majors_spanned 1048575 2) 255 →
      ∃ pre post, (⟨fun _ => [], 0⟩ : struct_kobj_map).probes (slot (MAJOR 1048575 + i))
          = pre ++ post ∧
        (kobj_map 64 true ⟨fun _ => [], 0⟩ 1048575 2 1 2 3 4).domain.probes
            (slot (MAJOR 1048575 + i))
          = pre ++ { dev := 1048575, range := 2, owner := 1, get := 2,
                     lock := 3, data := 4 } :: post)
    ∧ (∀ i j, i < j → j < min (majors_spanned 1048575 2) 255 →
        slot (MAJOR 1048575 + i) ≠ slot (MAJOR 1048575 + j))
    ∧ (∀ b, (∀ i, i < min (majors_spanned 1048575 2) 255 → b ≠ slot (MAJOR 1048575 + i)) →
        (kobj_map 64 true ⟨fun _ => [], 0⟩ 1048575 2 1 2 3 4).domain.probes b
          = (⟨fun _ => [], 0⟩ : struct_kobj_map).probes b)
    ∧ (∑ b, ((kobj_map 64 true ⟨fun _ => [], 0⟩ 1048575 2 1 2 3 4).domain.probes b).length
        = (∑ b, ((⟨fun _ => [], 0⟩ : struct_kobj_map).probes b).length)
          + min (majors_spanned 1048575 2) 255)
    ∧ (kobj_map 64 true ⟨fun _ => [], 0⟩ 1048575 2 1 2 3 4).ret = 0) :=
  ⟨by decide,
   kobj_map_per_major 64 ⟨fun _ => [], 0⟩ 1048575 2 1 2 3 4 (by decide) (by decide) (by decide)⟩

/-- C8. Register/unregister round trip: `kobj_unmap(dev, range)` right after a successful
`kobj_map(dev, range, ...)` gives back the directory as it was before the `kobj_map`, all
255 chains with their contents and order, whatever entries were there (entries with the same
`dev` and `range` included). -/
theorem kobj_unmap_kobj_map (lb : Nat) (D : struct_kobj_map)
    (dev range module probe_fn lock data : Nat) :
    (kobj_unmap lb (kobj_map lb true D dev range module probe_fn lock data).domain
      dev range).domain = D := by
  simp only [kobj_map, kobj_unmap, Bool.true_eq_false, if_false, kobj_map_loop_eq,
    kobj_unmap_loop_eq]
  exact slot_loop_cancel _ _
    (unlink_first_insert_probe
      { dev := dev, range := range, owner := module, get := probe_fn, lock := lock, data := data })
    _ _ D

/-- C9. `kobj_unmap` unlinks the first exact match of each affected slot and nothing else:
in each of the `n` slots `(MAJOR(dev) + i) % 255`, `i < n`, either the chain is
`pre ++ q :: post` with `q` matching both `dev` and `range`, nothing in `pre` matching both,
and the new chain is `pre ++ post`; or nothing in the chain matches both and the chain is
unchanged.  The other slots are unchanged, and when no entry of an affected slot matches
both fields the directory is unchanged. -/
theorem kobj_unmap_first_match (lb : Nat) (D : struct_kobj_map) (dev range : Nat)
    (hdev : dev < 2 ^ 32) :
    (∀ i, i < probe_count lb dev range →
      (∃ pre q post, D.probes (slot (MAJOR dev + i)) = pre ++ q :: post ∧
          (q.dev = dev ∧ q.range = range) ∧
          (∀ x ∈ pre, ¬ (x.dev = dev ∧ x.range = range)) ∧
          (kobj_unmap lb D dev range).domain.probes (slot (MAJOR dev + i)) = pre ++ post)
      ∨ ((∀ x ∈ D.probes (slot (MAJOR dev + i)), ¬ (x.dev = dev ∧ x.range = range)) ∧
          (kobj_unmap lb D dev range).domain.probes (slot (MAJOR dev + i))
            = D.probes (slot (MAJOR dev + i))))
    ∧ (∀ b, (∀ i, i < probe_count lb dev range → b ≠ slot (MAJOR dev + i)) →
        (kobj_unmap lb D dev range).domain.probes b = D.probes b)
    ∧ ((∀ i, i < probe_count lb dev range →
          ∀ x ∈ D.probes (slot (MAJOR dev + i)), ¬ (x.dev = dev ∧ x.range = range)) →
        (kobj_unmap lb D dev range).domain = D) := by
  have hP := kobj_unmap_probes lb D dev range hdev
  refine ⟨?_, ?_, ?_⟩
  · intro i hi
    rw [hP, if_pos ⟨i, hi, rfl⟩]
    exact unlink_first_split dev range _
  · intro b hb
    rw [hP, if_neg]
    rintro ⟨i, hi, he⟩
    exact hb i hi he.symm
  · intro hno
    have hprobes : (kobj_unmap lb D dev range).domain.probes = D.probes := by
      funext b
      rw [hP]
      split_ifs with h
      · obtain ⟨i, hi, he⟩ := h
        subst he
        rcases unlink_first_split dev range (D.probes (slot (MAJOR dev + i))) with
          ⟨pre, q, post, h1, h2, _, _⟩ | ⟨_, h2⟩
        · exact absurd h2 (hno i hi q (by rw [h1]; simp))
        · exact h2
      · rfl
    have hlock := kobj_unmap_lock lb D dev range
    cases D with
    | mk probes lock =>
      cases hD : (kobj_unmap lb ⟨probes, lock⟩ dev range).domain with
      | mk probes2 lock2 =>
        rw [hD] at hprobes hlock
        simp only at hprobes hlock
        rw [hprobes, hlock]

/-- Witness of C9: unmapping `(100, 10)` from a directory holding `sample_chain` everywhere. -/
theorem kobj_unmap_first_match_witness :
    (100 < 2 ^ 32) ∧
    ((∀ i, i < probe_count 64 100 10 →
      (∃ pre q post, (⟨fun _ => sample_chain, 0⟩ : struct_kobj_map).probes (slot (MAJOR 100 + i))
            = pre ++ q :: post ∧
          (q.dev = 100 ∧ q.range = 10) ∧
          (∀ x ∈ pre, ¬ (x.dev = 100 ∧ x.range = 10)) ∧
          (kobj_unmap 64 ⟨fun _ => sample_chain, 0⟩ 100 10).domain.probes (slot (MAJOR 100 + i))
            = pre ++ post)
      ∨ ((∀ x ∈ (⟨fun _ => sample_chain, 0⟩ : struct_kobj_map).probes (slot (MAJOR 100 + i)),
            ¬ (x.dev = 100 ∧ x.range = 10)) ∧
          (kobj_unmap 64 ⟨fun _ => sample_chain, 0⟩ 100 10).domain.probes (slot (MAJOR 100 + i))
            = (⟨fun _ => sample_chain, 0⟩ : struct_kobj_map).probes (slot (MAJOR 100 + i))))
    ∧ (∀ b, (∀ i, i < probe_count 64 100 10 → b ≠ slot (MAJOR 100 + i)) →
        (kobj_unmap 64 ⟨fun _ => sample_chain, 0⟩ 100 10).domain.probes b
          = (⟨fun _ => sample_chain, 0⟩ : struct_kobj_map).probes b)
    ∧ ((∀ i, i < probe_count 64 100 10 →
          ∀ x ∈ (⟨fun _ => sample_chain, 0⟩ : struct_kobj_map).probes (slot (MAJOR 100 + i)),
            ¬ (x.dev = 100 ∧ x.range = 10)) →
        (kobj_unmap 64 ⟨fun _ => sample_chain, 0⟩ 100 10).domain
          = ⟨fun _ => sample_chain, 0⟩)) :=
  ⟨by decide, kobj_unmap_first_match 64 ⟨fun _ => sample_chain, 0⟩ 100 10 (by decide)⟩

/-- C10. Allocation failure is atomic: when `kmalloc` fails `kobj_map` returns `-ENOMEM`, the
directory is the one passed in (all 255 chains and the mutex pointer) and the mutex was not
taken; when it succeeds `kobj_map` returns 0. -/
theorem kobj_map_alloc_atomic (lb : Nat) (D : struct_kobj_map)
    (dev range module probe_fn lock data : Nat) :
    (kobj_map lb false D dev range module probe_fn lock data).ret = -ENOMEM
    ∧ (kobj_map lb false D dev range module probe_fn lock data).domain = D
    ∧ (∀ b, (kobj_map lb false D dev range module probe_fn lock data).domain.probes b = D.probes b)
    ∧ (kobj_map lb false D dev range module probe_fn lock data).trace = []
    ∧ (kobj_map lb true D dev range module probe_fn lock data).ret = 0 := by
  have hfail : kobj_map lb false D dev range module probe_fn lock data
      = { ret := -ENOMEM, domain := D, trace := [] } := by
    unfold kobj_map
    simp only [if_true]
  have hok : (kobj_map lb true D dev range module probe_fn lock data).ret = 0 := by
    unfold kobj_map
    simp only [Bool.true_eq_false, if_false]
  rw [hfail]
  exact ⟨rfl, rfl, fun _ => rfl, rfl, hok⟩

/-! ## Claims on kobj_lookup -/

/-- C1, as amended.  Narrowest match wins: on a freshly initialised directory, after two
registrations `r1`, `r2` of ranges within the identifier space with `r1.range < r2.range`,
made in either order, and for an identifier `d` covered by both, if the token of `r1` can be
acquired, `r1` has no guard or its guard does not fail, and the `->get` of `r1` returns the
handle `H1`, then `kobj_lookup(d)` returns `H1`, the only `->get` called is the one of `r1`,
and the index handed to it is `d - r1.dev` converted to `int`, which is `d - r1.dev` itself
when that is below `2^31`. -/
theorem lookup_narrowest_wins {σ : Type} (lb : Nat) (cb : callbacks σ) (base_probe m : Nat)
    (D0 D : struct_kobj_map) (r1 r2 : probe) (d H1 : Nat) (i0 : Int) (st0 : σ)
    (hlb : 32 ≤ lb)
    (hinit : kobj_map_init lb true true base_probe m = some D0)
    (hlt : r1.range < r2.range)
    (hfit1 : r1.dev + r1.range ≤ 2 ^ 32) (hfit2 : r2.dev + r2.range ≤ 2 ^ 32)
    (hc1 : r1.dev ≤ d ∧ d < r1.dev + r1.range) (hc2 : r2.dev ≤ d ∧ d < r2.dev + r2.range)
    (ht2 : r2.range < 2 ^ lb)
    (hD : D = register lb (register lb D0 r1) r2 ∨ D = register lb (register lb D0 r2) r1)
    (htok : ∀ s, (cb.try_module_get r1.owner s).1 = true)
    (hguard : r1.lock = 0 ∨ ∀ s, 0 ≤ (cb.lock r1.lock d r1.data s).1)
    (hget : ∀ i s dom, (cb.get r1.get d i r1.data s dom).kobj = some H1) :
    (kobj_lookup lb cb D d i0 st0).kobj = some H1 ∧
      resolve_calls (kobj_lookup lb cb D d i0 st0).trace = [(r1, d, to_int (d - r1.dev))] ∧
      (d - r1.dev < 2 ^ 31 → to_int (d - r1.dev) = ((d - r1.dev : Nat) : Int)) :=
  ⟨(lookup_two_registrations lb cb base_probe m D0 D r1 r2 d H1 i0 st0 hlb hinit hlt hfit1 hfit2
      hc1 hc2 ht2 hD htok hguard hget).1,
   (lookup_two_registrations lb cb base_probe m D0 D r1 r2 d H1 i0 st0 hlb hinit hlt hfit1 hfit2
      hc1 hc2 ht2 hD htok hguard hget).2,
   to_int_small _⟩

/-- Witness of C1: `[100, 110)` registered, then `[100, 105)`; lookup of 102. -/
theorem lookup_narrowest_wins_witness :
    (kobj_lookup 64 sample_cb
        (register 64 (register 64 fresh_dir ⟨100, 10, 0, 2, 0, 0⟩) ⟨100, 5, 0, 1, 0, 0⟩)
        102 0 ()).kobj = some 77 ∧
      resolve_calls (kobj_lookup 64 sample_cb
        (register 64 (register 64 fresh_dir ⟨100, 10, 0, 2, 0, 0⟩) ⟨100, 5, 0, 1, 0, 0⟩)
        102 0 ()).trace = [(⟨100, 5, 0, 1, 0, 0⟩, 102, to_int (102 - 100))] ∧
      (102 - 100 < 2 ^ 31 → to_int (102 - 100) = ((102 - 100 : Nat) : Int)) :=
  lookup_narrowest_wins 64 sample_cb 9 5 fresh_dir _ ⟨100, 5, 0, 1, 0, 0⟩ ⟨100, 10, 0, 2, 0, 0⟩
    102 77 0 () (by decide) rfl (by decide) (by decide) (by decide) (by decide) (by decide)
    (by decide) (Or.inr rfl) (fun _ => rfl) (Or.inl rfl) (fun _ _ _ => rfl)

/-- The chain of major 0 after the registration of two ranges that start at 5 and run beyond
the identifier space. -/
theorem overwide_chain :
    (register 64 (register 64 fresh_dir ⟨5, 18446744073709551613, 0, 1, 0, 0⟩)
        ⟨5, 18446744073709551614, 0, 2, 0, 0⟩).probes (slot (MAJOR 7))
      = [⟨5, 18446744073709551613, 0, 1, 0, 0⟩, ⟨5, 18446744073709551614, 0, 2, 0, 0⟩,
         base_entry 64 9] := by
  rw [register_probes 64 _ _ (by decide), if_pos ⟨0, by decide, by decide⟩,
    register_probes 64 _ _ (by decide), if_pos ⟨0, by decide, by decide⟩]
  decide

/-- Counterexample to C1 as stated, on a 64-bit machine.  First: with `r1 = [0, 2^31 + 1)` and
`r2 = [0, 2^32)` registered on a fresh directory, the lookup of `d = 2^31` returns the handle
of `r1`, but the index handed to the `->get` of `r1` is `-2^31`, not `d - r1.dev = 2^31`.
Second: with `r1 = (5, 2^64 - 3)` and `r2 = (5, 2^64 - 2)`, both in the chain of `d = 7` and
both covering 7 as ranges of numbers, `p->dev + p->range - 1` wraps, both entries are passed
over, and the lookup returns `NULL` although the `->get` of `r1` would return 77. -/
theorem lookup_narrowest_index_counterexample :
    (kobj_map_init 64 true true 9 5 = some fresh_dir ∧
      (⟨0, 2147483649, 0, 1, 0, 0⟩ : probe).range < (⟨0, 4294967296, 0, 2, 0, 0⟩ : probe).range ∧
      (kobj_lookup 64 sample_cb
          (register 64 (register 64 fresh_dir ⟨0, 2147483649, 0, 1, 0, 0⟩)
            ⟨0, 4294967296, 0, 2, 0, 0⟩)
          2147483648 0 ()).kobj = some 77 ∧
      resolve_calls (kobj_lookup 64 sample_cb
          (register 64 (register 64 fresh_dir ⟨0, 2147483649, 0, 1, 0, 0⟩)
            ⟨0, 4294967296, 0, 2, 0, 0⟩)
          2147483648 0 ()).trace = [(⟨0, 2147483649, 0, 1, 0, 0⟩, 2147483648, -2147483648)] ∧
      (-2147483648 : Int) ≠ ((2147483648 - 0 : Nat) : Int))
    ∧ ((⟨5, 18446744073709551613, 0, 1, 0, 0⟩ : probe).range
          < (⟨5, 18446744073709551614, 0, 2, 0, 0⟩ : probe).range ∧
      (5 ≤ 7 ∧ 7 < 5 + 18446744073709551613 ∧ 7 < 5 + 18446744073709551614) ∧
      (register 64 (register 64 fresh_dir ⟨5, 18446744073709551613, 0, 1, 0, 0⟩)
          ⟨5, 18446744073709551614, 0, 2, 0, 0⟩).probes (slot (MAJOR 7))
        = [⟨5, 18446744073709551613, 0, 1, 0, 0⟩, ⟨5, 18446744073709551614, 0, 2, 0, 0⟩,
           base_entry 64 9] ∧
      (∀ i s dom, (sample_cb.get 1 7 i 0 s dom).kobj = some 77) ∧
      (kobj_lookup 64 sample_cb
          (register 64 (register 64 fresh_dir ⟨5, 18446744073709551613, 0, 1, 0, 0⟩)
            ⟨5, 18446744073709551614, 0, 2, 0, 0⟩)
          7 0 ()).kobj = none) := by
  have h := lookup_two_registrations 64 sample_cb 9 5 fresh_dir _ ⟨0, 2147483649, 0, 1, 0, 0⟩
    ⟨0, 4294967296, 0, 2, 0, 0⟩ 2147483648 77 0 () (by decide) rfl (by decide) (by decide)
    (by decide) (by decide) (by decide) (by decide) (Or.inl rfl) (fun _ => rfl) (Or.inl rfl)
    (fun _ _ _ => rfl)
  have h2 := lookup_passive 64 sample_cb (base_entry 64 9)
    (register 64 (register 64 fresh_dir ⟨5, 18446744073709551613, 0, 1, 0, 0⟩)
      ⟨5, 18446744073709551614, 0, 2, 0, 0⟩) 7 0 ()
    (by
      intro p hp
      rw [overwide_chain] at hp
      simp only [List.mem_cons, List.mem_singleton, List.not_mem_nil, or_false] at hp
      rcases hp with rfl | rfl | rfl
      · exact Or.inl (by decide)
      · exact Or.inl (by decide)
      · exact Or.inr (Or.inr (Or.inl rfl)))
    (fun _ _ _ => ⟨rfl, rfl⟩)
  refine ⟨⟨rfl, by decide, h.1, ?_, by decide⟩, by decide, by decide, overwide_chain,
    fun _ _ _ => rfl, h2.1⟩
  rw [h.2]
  decide

/-- C2, as amended.  A registered range is found: on a freshly initialised directory, after
one successful `kobj_map(dev0, range, ...)` with `range >= 1` and `dev0 + range - 1` not
above the largest identifier, whose token can be acquired, whose guard is absent or does not
fail and whose `->get` returns `H`, `kobj_lookup(d)` for every `d` of the range returns `H`
after exactly one `->get` call, the one of that entry, however many majors the range spans.
The index handed over is `d - dev0` converted to `int`: `d - dev0` itself when that is below
`2^31`. -/
theorem lookup_registered_range {σ : Type} (lb : Nat) (cb : callbacks σ) (base_probe m : Nat)
    (D0 : struct_kobj_map) (r : probe) (d H : Nat) (i0 : Int) (st0 : σ)
    (hlb : 32 ≤ lb)
    (hinit : kobj_map_init lb true true base_probe m = some D0)
    (hrange : 1 ≤ r.range) (htyped : r.range < 2 ^ lb) (hfit : r.dev + r.range - 1 ≤ 2 ^ 32 - 1)
    (hd1 : r.dev ≤ d) (hd2 : d ≤ r.dev + r.range - 1)
    (htok : ∀ s, (cb.try_module_get r.owner s).1 = true)
    (hguard : r.lock = 0 ∨ ∀ s, 0 ≤ (cb.lock r.lock d r.data s).1)
    (hget : ∀ i s dom, (cb.get r.get d i r.data s dom).kobj = some H) :
    (kobj_lookup lb cb (register lb D0 r) d i0 st0).kobj = some H ∧
      resolve_calls (kobj_lookup lb cb (register lb D0 r) d i0 st0).trace
        = [(r, d, to_int (d - r.dev))] ∧
      (d - r.dev < 2 ^ 31 → to_int (d - r.dev) = ((d - r.dev : Nat) : Int)) :=
  ⟨(lookup_one_registration lb cb base_probe m D0 r d H i0 st0 hlb hinit hrange htyped hfit
      hd1 hd2 htok hguard hget).1,
   (lookup_one_registration lb cb base_probe m D0 r d H i0 st0 hlb hinit hrange htyped hfit
      hd1 hd2 htok hguard hget).2,
   to_int_small _⟩

/-- Witness of C2: `[100, 110)` registered; lookup of 105 gives the handle with index 5. -/
theorem lookup_registered_range_witness :
    (kobj_lookup 64 sample_cb (register 64 fresh_dir ⟨100, 10, 0, 1, 0, 0⟩) 105 0 ()).kobj
        = some 77 ∧
      resolve_calls
          (kobj_lookup 64 sample_cb (register 64 fresh_dir ⟨100, 10, 0, 1, 0, 0⟩) 105 0 ()).trace
        = [(⟨100, 10, 0, 1, 0, 0⟩, 105, to_int (105 - 100))] ∧
      (105 - 100 < 2 ^ 31 → to_int (105 - 100) = ((105 - 100 : Nat) : Int)) :=
  lookup_registered_range 64 sample_cb 9 5 fresh_dir ⟨100, 10, 0, 1, 0, 0⟩ 105 77 0 ()
    (by decide) rfl (by decide) (by decide) (by decide) (by decide) (by decide)
    (fun _ => rfl) (Or.inl rfl) (fun _ _ _ => rfl)

/-- Counterexample to C2 as stated: after `kobj_map(2^20, 2^32 - 2^20, ...)` on a fresh
directory, the lookup of `d = 2^32 - 1` returns the handle, but the index handed to the
`->get` callback is `-1048577`, not `d - dev0 = 4293918719`. -/
theorem lookup_registered_index_counterexample :
    kobj_map_init 64 true true 9 5 = some fresh_dir ∧
    (1 ≤ 4293918720 ∧ 1048576 + 4293918720 - 1 ≤ 2 ^ 32 - 1) ∧
    (kobj_lookup 64 sample_cb (register 64 fresh_dir ⟨1048576, 4293918720, 0, 1, 0, 0⟩)
        4294967295 0 ()).kobj = some 77 ∧
    resolve_calls (kobj_lookup 64 sample_cb
        (register 64 fresh_dir ⟨1048576, 4293918720, 0, 1, 0, 0⟩) 4294967295 0 ()).trace
      = [(⟨1048576, 4293918720, 0, 1, 0, 0⟩, 4294967295, -1048577)] ∧
    (-1048577 : Int) ≠ ((4294967295 - 1048576 : Nat) : Int) := by
  have h := lookup_one_registration 64 sample_cb 9 5 fresh_dir
    ⟨1048576, 4293918720, 0, 1, 0, 0⟩ 4294967295 77 0 () (by decide) rfl (by decide) (by decide)
    (by decide) (by decide) (by decide) (fun _ => rfl) (Or.inl rfl) (fun _ _ _ => rfl)
  refine ⟨rfl, by decide, h.1, ?_, by decide⟩
  rw [h.2]
  decide

/-- C3, as amended.  With a base `->get` that returns `NULL` for every identifier and leaves
the directory as it is (it registers no provider during the lookup): in every directory
reachable from `kobj_map_init` by `kobj_map` and `kobj_unmap` calls, `kobj_lookup(d)` returns
`NULL` for every `d` that no entry other than the base entry covers; and on the freshly
initialised directory `kobj_lookup` returns `NULL` for every identifier. -/
theorem lookup_unregistered_not_found {σ : Type} (lb : Nat) (cb : callbacks σ)
    (base_probe m : Nat) (hlb : 32 ≤ lb)
    (hbase : ∀ d i s dom, (cb.get base_probe d i 0 s dom).kobj = none ∧
      (cb.get base_probe d i 0 s dom).domain = dom) :
    (∀ D, reachable lb base_probe m D → ∀ d,
      (∀ b, ∀ p ∈ D.probes b, p ≠ base_entry lb base_probe →
        ¬ (p.dev ≤ d ∧ d < p.dev + p.range)) →
      ∀ i0 st0, (kobj_lookup lb cb D d i0 st0).kobj = none)
    ∧ (∀ D0, kobj_map_init lb true true base_probe m = some D0 →
      ∀ d i0 st0, (kobj_lookup lb cb D0 d i0 st0).kobj = none) := by
  constructor
  · intro D hD d hnc i0 st0
    have htyped := reachable_typed lb base_probe m D hD
    refine (lookup_passive lb cb (base_entry lb base_probe) D d i0 st0 ?_ (hbase d)).1
    intro p hp
    by_cases hpb : p = base_entry lb base_probe
    · exact Or.inr (Or.inr (Or.inl hpb))
    · exact passive_of_not_covering lb cb _ p d hlb (htyped _ p hp).1 (htyped _ p hp).2
        (hnc _ p hp hpb)
  · intro D0 hinit d i0 st0
    refine (lookup_passive lb cb (base_entry lb base_probe) D0 d i0 st0 ?_ (hbase d)).1
    intro p hp
    rw [init_probes lb base_probe m D0 hinit] at hp
    simp only [List.mem_singleton] at hp
    exact Or.inr (Or.inr (Or.inl hp))

/-- C4, as amended.  The retry does not fall back to a wider entry: `best` is set once, before
the label `retry:`, and keeps the value `A.range - 1` when the scan restarts.  When `A` is the
first entry of the chain of `d` that covers `d` (so any wider `B` covering `d` comes later in
the chain), its token can be acquired, it has no guard, and its `->get` returns `NULL` leaving
the directory as it is, then `kobj_lookup(d)` returns `NULL` and the only `->get` called is
the one of `A`, whatever the `->get` of `B` would return. -/
theorem lookup_retry_keeps_best {σ : Type} (lb : Nat) (cb : callbacks σ) (D : struct_kobj_map)
    (d : Nat) (i0 : Int) (st0 : σ) (pre post : List probe) (A B : probe) (H : Nat)
    (hchain : D.probes (slot (MAJOR d)) = pre ++ A :: post)
    (hpre : ∀ x ∈ pre, skips lb x d) (hA : ¬ skips lb A d)
    (hrange : 1 ≤ A.range) (htyped : A.range < 2 ^ lb)
    (hB : B ∈ post) (hBc : ¬ skips lb B d) (hlt : A.range < B.range)
    (htok : ∀ s, (cb.try_module_get A.owner s).1 = true)
    (htokB : ∀ s, (cb.try_module_get B.owner s).1 = true)
    (hguard : A.lock = 0) (hguardB : B.lock = 0)
    (hget : ∀ i s dom, (cb.get A.get d i A.data s dom).kobj = none ∧
      (cb.get A.get d i A.data s dom).domain = dom)
    (hgetB : ∀ i s dom, (cb.get B.get d i B.data s dom).kobj = some H) :
    (kobj_lookup lb cb D d i0 st0).kobj = none ∧
      resolve_calls (kobj_lookup lb cb D d i0 st0).trace
        = [(A, d, to_int ((d + 2 ^ 32 - A.dev) % 2 ^ 32))] ∧
      B ∉ resolved_entries (kobj_lookup lb cb D d i0 st0).trace := by
  have hbest : ulong_pred lb A.range < ULONG_MAX lb := by
    rw [ulong_pred_eq lb A.range hrange htyped]
    unfold ULONG_MAX
    omega
  have h := lookup_first_candidate_declines lb cb D d i0 st0 pre post A hchain hpre hA hbest htok
    (Or.inl hguard) hget
  refine ⟨h.1, h.2, ?_⟩
  unfold resolved_entries
  rw [h.2]
  simp only [List.map_cons, List.map_nil, List.mem_singleton]
  intro hBA
  have h1 := (hget 0 st0 D).1
  have h2 := hgetB 0 st0 D
  rw [hBA, h1] at h2
  exact absurd h2 (by simp)

/-- The chain of major 0 after `[100, 110)` (handle 77) and `[100, 105)` (declining) were
registered on `fresh_dir`. -/
theorem fallback_chain :
    (register 64 (register 64 fresh_dir ⟨100, 10, 0, 1, 0, 0⟩) ⟨100, 5, 0, 2, 0, 0⟩).probes
        (slot (MAJOR 102))
      = [] ++ ⟨100, 5, 0, 2, 0, 0⟩ :: [⟨100, 10, 0, 1, 0, 0⟩, base_entry 64 9] :=
  two_registrations_chain 64 9 5 fresh_dir _ ⟨100, 5, 0, 2, 0, 0⟩ ⟨100, 10, 0, 1, 0, 0⟩ 102
    (by decide) rfl (by decide) (by decide) (by decide) (by decide) (by decide) (by decide)
    (Or.inr rfl)

/-- Witness of C4 as amended: `A = [100, 105)` declines, `B = [100, 110)` would return 77. -/
theorem lookup_retry_keeps_best_witness :
    (kobj_lookup 64 sample_cb
        (register 64 (register 64 fresh_dir ⟨100, 10, 0, 1, 0, 0⟩) ⟨100, 5, 0, 2, 0, 0⟩)
        102 0 ()).kobj = none ∧
      resolve_calls (kobj_lookup 64 sample_cb
        (register 64 (register 64 fresh_dir ⟨100, 10, 0, 1, 0, 0⟩) ⟨100, 5, 0, 2, 0, 0⟩)
        102 0 ()).trace
        = [(⟨100, 5, 0, 2, 0, 0⟩, 102, to_int ((102 + 2 ^ 32 - 100) % 2 ^ 32))] ∧
      (⟨100, 10, 0, 1, 0, 0⟩ : probe) ∉ resolved_entries (kobj_lookup 64 sample_cb
        (register 64 (register 64 fresh_dir ⟨100, 10, 0, 1, 0, 0⟩) ⟨100, 5, 0, 2, 0, 0⟩)
        102 0 ()).trace :=
  lookup_retry_keeps_best 64 sample_cb _ 102 0 () [] _ ⟨100, 5, 0, 2, 0, 0⟩
    ⟨100, 10, 0, 1, 0, 0⟩ 77 fallback_chain (by simp) (by decide) (by decide) (by decide)
    (by simp) (by decide) (by decide) (fun _ => rfl) (fun _ => rfl) rfl rfl
    (fun _ _ _ => ⟨rfl, rfl⟩) (fun _ _ _ => rfl)

/-- Counterexample to C4 as stated: `A = [100, 105)` and `B = [100, 110)` are in the chain of
102, both cover 102, tokens can be acquired, there are no guards, the `->get` of `A` returns
`NULL` and the `->get` of `B` returns the handle 77; yet `kobj_lookup(102)` returns `NULL`,
not 77. -/
theorem lookup_fallback_counterexample :
    kobj_map_init 64 true true 9 5 = some fresh_dir ∧
    (register 64 (register 64 fresh_dir ⟨100, 10, 0, 1, 0, 0⟩) ⟨100, 5, 0, 2, 0, 0⟩).probes
        (slot (MAJOR 102))
      = [⟨100, 5, 0, 2, 0, 0⟩, ⟨100, 10, 0, 1, 0, 0⟩, base_entry 64 9] ∧
    (∀ i s dom, (sample_cb.get 2 102 i 0 s dom).kobj = none) ∧
    (∀ i s dom, (sample_cb.get 1 102 i 0 s dom).kobj = some 77) ∧
    (kobj_lookup 64 sample_cb
        (register 64 (register 64 fresh_dir ⟨100, 10, 0, 1, 0, 0⟩) ⟨100, 5, 0, 2, 0, 0⟩)
        102 0 ()).kobj = none ∧
    (kobj_lookup 64 sample_cb
        (register 64 (register 64 fresh_dir ⟨100, 10, 0, 1, 0, 0⟩) ⟨100, 5, 0, 2, 0, 0⟩)
        102 0 ()).kobj ≠ some 77 := by
  have h := lookup_first_candidate_declines 64 sample_cb _ 102 0 () [] _ ⟨100, 5, 0, 2, 0, 0⟩
    fallback_chain (by simp) (by decide) (by decide) (fun _ => rfl) (Or.inl rfl)
    (fun _ _ _ => ⟨rfl, rfl⟩)
  refine ⟨rfl, fallback_chain, fun _ _ _ => rfl, fun _ _ _ => rfl, h.1, ?_⟩
  rw [h.1]
  simp

/-- C6.  `kobj_lookup` is a total function of the directory and the callbacks (the retry loop
is defined by recursion on `best`, which every retry lowers), and for every directory and all
callbacks: over the `->get` calls of one lookup, in call order, `range - 1` of the entry
called strictly decreases; so does `range` when the entries have `unsigned long` ranges; no
entry has its `->get` called twice; there are at most `2^lb - 1` such calls; and when every
`->get` returns `NULL` the lookup returns `NULL`. -/
theorem kobj_lookup_terminates {σ : Type} (lb : Nat) (cb : callbacks σ) (D : struct_kobj_map)
    (d : Nat) (i0 : Int) (st0 : σ) :
    (resolved_entries (kobj_lookup lb cb D d i0 st0).trace).Pairwise
        (fun a b => ulong_pred lb b.range < ulong_pred lb a.range)
    ∧ ((∀ a ∈ resolved_entries (kobj_lookup lb cb D d i0 st0).trace, a.range < 2 ^ lb) →
        (resolved_entries (kobj_lookup lb cb D d i0 st0).trace).Pairwise
          (fun a b => b.range < a.range))
    ∧ (resolved_entries (kobj_lookup lb cb D d i0 st0).trace).Nodup
    ∧ (resolved_entries (kobj_lookup lb cb D d i0 st0).trace).length ≤ 2 ^ lb - 1
    ∧ ((∀ f dv i data s dom, (cb.get f dv i data s dom).kobj = none) →
        (kobj_lookup lb cb D d i0 st0).kobj = none) := by
  obtain ⟨calls, h1, h2, h3⟩ := retry_calls lb cb d (ULONG_MAX lb) i0 st0 D []
  have hre : resolved_entries (kobj_lookup lb cb D d i0 st0).trace = calls.map (fun c => c.1) := by
    unfold resolved_entries kobj_lookup
    rw [h1]
    rfl
  have hpw : (calls.map (fun c => c.1)).Pairwise
      (fun a b => ulong_pred lb b.range < ulong_pred lb a.range) := by
    rw [List.pairwise_map]
    exact h3
  have hmem : ∀ a ∈ calls.map (fun c => c.1), ulong_pred lb a.range < 2 ^ lb - 1 := by
    intro a ha
    rw [List.mem_map] at ha
    obtain ⟨c, hc, rfl⟩ := ha
    exact h2 c hc
  rw [hre]
  refine ⟨hpw, ?_, ?_, ?_, ?_⟩
  · intro htyped
    have key : ∀ a ∈ calls.map (fun c => c.1), ulong_pred lb a.range = a.range - 1 ∧ 1 ≤ a.range := by
      intro a ha
      have hlt := hmem a ha
      have hty := htyped a ha
      by_cases h0 : a.range = 0
      · exfalso
        unfold ulong_pred at hlt
        rw [h0, Nat.zero_add, Nat.mod_eq_of_lt (by omega)] at hlt
        omega
      · exact ⟨ulong_pred_eq lb a.range (by omega) hty, by omega⟩
    refine List.Pairwise.imp_of_mem ?_ hpw
    intro a b ha hb hab
    have ka := key a ha
    have kb := key b hb
    omega
  · refine List.Pairwise.imp ?_ hpw
    intro a b hab heq
    rw [heq] at hab
    exact lt_irrefl _ hab
  · have hlen := decreasing_length_le ((calls.map (fun c => c.1)).map (fun a => ulong_pred lb a.range))
      (2 ^ lb - 1) (by
        intro x hx
        rw [List.mem_map] at hx
        obtain ⟨a, ha, rfl⟩ := hx
        exact hmem a ha) (by
        rw [List.pairwise_map]
        exact hpw)
    simpa using hlen
  · intro hnone
    exact retry_all_decline lb cb d hnone _ _ _ _ _

/-- Witness of C6: with callbacks that always decline, the lookup of 102 after the
registration of `[100, 110)` returns `NULL`. -/
theorem kobj_lookup_terminates_witness :
    (∀ f dv i data s dom, (declining_cb.get f dv i data s dom).kobj = none) ∧
      (kobj_lookup 64 declining_cb (register 64 fresh_dir ⟨100, 10, 0, 1, 0, 0⟩) 102 0 ()).kobj
        = none :=
  ⟨fun _ _ _ _ _ _ => rfl,
   (kobj_lookup_terminates 64 declining_cb (register 64 fresh_dir ⟨100, 10, 0, 1, 0, 0⟩)
      102 0 ()).2.2.2.2 (fun _ _ _ _ _ _ => rfl)⟩

/-! ## Invariants of the scan and of the retry loop -/

/-- The way to prove that a scan takes states with `I` to results with `J`: one obligation
for each way the loop body is left. -/
theorem scan_invariant {σ : Type} (lb : Nat) (cb : callbacks σ) (dev : Nat)
    (I : scan_state σ → Prop) (J : scan_result σ → Prop)
    (hex : ∀ s, I s → J (scan_result.exhausted s))
    (hfail : ∀ (p : probe) s, I s → (cb.try_module_get p.owner s.st).1 = false →
      I { s with st := (cb.try_module_get p.owner s.st).2
                 trace := s.trace ++ [event.try_module_get p.owner false] })
    (hveto : ∀ (p : probe) s, I s → ¬ skips lb p dev → ulong_pred lb p.range < s.best →
      p.lock ≠ 0 →
      I { best := ulong_pred lb p.range, index := to_int ((dev + 2 ^ 32 - p.dev) % 2 ^ 32)
          st := cb.module_put p.owner
            (cb.lock p.lock dev p.data (cb.try_module_get p.owner s.st).2).2
          trace := s.trace ++ [event.try_module_get p.owner true] ++
            [event.guard p dev (cb.lock p.lock dev p.data (cb.try_module_get p.owner s.st).2).1,
             event.module_put p.owner] })
    (hguarded : ∀ (p : probe) s, I s → ¬ skips lb p dev → ulong_pred lb p.range < s.best →
      p.lock ≠ 0 →
      J (scan_result.candidate p
        { best := ulong_pred lb p.range, index := to_int ((dev + 2 ^ 32 - p.dev) % 2 ^ 32)
          st := (cb.lock p.lock dev p.data (cb.try_module_get p.owner s.st).2).2
          trace := s.trace ++ [event.try_module_get p.owner true] ++
            [event.guard p dev
              (cb.lock p.lock dev p.data (cb.try_module_get p.owner s.st).2).1] }))
    (hplain : ∀ (p : probe) s, I s → ¬ skips lb p dev → ulong_pred lb p.range < s.best →
      p.lock = 0 →
      J (scan_result.candidate p
        { best := ulong_pred lb p.range, index := to_int ((dev + 2 ^ 32 - p.dev) % 2 ^ 32)
          st := (cb.try_module_get p.owner s.st).2
          trace := s.trace ++ [event.try_module_get p.owner true] })) :
    ∀ (l : List probe) (s : scan_state σ), I s → J (scan lb cb dev l s) := by
  intro l
  induction l with
  | nil => intro s hs; exact hex s hs
  | cons q qs ih =>
    intro s hs
    unfold scan
    by_cases h1 : q.dev > dev ∨ (q.dev + q.range + 2 ^ lb - 1) % 2 ^ lb < dev
    · rw [if_pos h1]
      exact ih s hs
    rw [if_neg h1]
    by_cases h2 : ulong_pred lb q.range ≥ s.best
    · rw [if_pos h2]
      exact hex s hs
    rw [if_neg h2]
    by_cases h3 : (cb.try_module_get q.owner s.st).1 = false
    · rw [if_pos h3]
      exact ih _ (hfail q s hs h3)
    rw [if_neg h3]
    simp only
    by_cases h4 : q.lock ≠ 0
    · rw [if_pos h4]
      by_cases h5 : (cb.lock q.lock dev q.data (cb.try_module_get q.owner s.st).2).1 < 0
      · rw [if_pos h5]
        exact ih _ (hveto q s hs h1 (by omega) h4)
      · rw [if_neg h5]
        exact hguarded q s hs h1 (by omega) h4
    · rw [if_neg h4]
      exact hplain q s hs h1 (by omega) (by simpa using h4)

/-- The way to prove that the retry loop keeps a property `K` of the trace. -/
theorem retry_invariant {σ : Type} (lb : Nat) (cb : callbacks σ) (dev : Nat)
    (K : List event → Prop) (I : struct_kobj_map → scan_state σ → Prop)
    (J : struct_kobj_map → scan_result σ → Prop)
    (hstart : ∀ D best index st tr, K tr →
      I D { best := best, index := index, st := st, trace := tr ++ [event.mutex_lock D.lock] })
    (hscan : ∀ D l s, I D s → J D (scan lb cb dev l s))
    (hex : ∀ D s, J D (scan_result.exhausted s) → K (s.trace ++ [event.mutex_unlock D.lock]))
    (hcand : ∀ D p s ret, J D (scan_result.candidate p s) →
      K (s.trace ++ [event.mutex_unlock D.lock, event.resolve p dev s.index ret,
        event.module_put p.owner])) :
    ∀ (best : Nat) (index : Int) (st : σ) (D : struct_kobj_map) (tr : List event), K tr →
      K (kobj_lookup_retry lb cb dev best index st D tr).trace := by
  intro best
  induction best using Nat.strong_induction_on with
  | _ best ih =>
    intro index st D tr hK
    have hJ := hscan D (D.probes (slot (MAJOR dev))) _ (hstart D best index st tr hK)
    cases hres : scan lb cb dev (D.probes (slot (MAJOR dev)))
        { best := best, index := index, st := st, trace := tr ++ [event.mutex_lock D.lock] } with
    | exhausted s2 =>
      rw [hres] at hJ
      rw [kobj_lookup_retry_exhausted lb cb dev best index st D tr s2 hres]
      exact hex D s2 hJ
    | candidate p s2 =>
      rw [hres] at hJ
      have hlt := scan_candidate_best_lt lb cb dev _ _ p s2 hres
      cases hk : (cb.get p.get dev s2.index p.data s2.st D).kobj with
      | some k =>
        rw [kobj_lookup_retry_some lb cb dev best index st D tr p s2 k hres hk]
        exact hcand D p s2 (some k) hJ
      | none =>
        rw [kobj_lookup_retry_none lb cb dev best index st D tr p s2 hres hk]
        exact ih s2.best hlt.1 _ _ _ _ (hcand D p s2 none hJ)

/-! ## The mutex -/

theorem lock_run_append (h : Option Nat) (l1 l2 : List event) :
    lock_run h (l1 ++ l2) = (lock_run h l1).bind (fun h2 => lock_run h2 l2) := by
  induction l1 generalizing h with
  | nil => rfl
  | cons e es ih =>
    show (lock_step h e).bind (fun h2 => lock_run h2 (es ++ l2))
      = ((lock_step h e).bind (fun h2 => lock_run h2 es)).bind (fun h2 => lock_run h2 l2)
    cases lock_step h e with
    | none => rfl
    | some h2 => exact ih h2

/-- In a trace that runs through, the mutex state before each event allows that event. -/
theorem lock_run_split (h : Option Nat) (pre post : List event) (e : event) (r : Option Nat)
    (hr : lock_run h (pre ++ e :: post) = some r) :
    ∃ h2, lock_run h pre = some h2 ∧ lock_step h2 e ≠ none := by
  rw [lock_run_append] at hr
  cases hp : lock_run h pre with
  | none => rw [hp] at hr; simp at hr
  | some h2 =>
    rw [hp] at hr
    simp only [Option.some_bind, lock_run] at hr
    refine ⟨h2, rfl, ?_⟩
    intro hn
    rw [hn] at hr
    simp at hr

/-- A scan started with the mutex `m` held ends with `m` held. -/
theorem scan_lock_held {σ : Type} (lb : Nat) (cb : callbacks σ) (dev m : Nat) (l : List probe)
    (s : scan_state σ) (hs : lock_run none s.trace = some (some m)) :
    lock_run none (scan lb cb dev l s).state.trace = some (some m) := by
  refine scan_invariant lb cb dev (fun s => lock_run none s.trace = some (some m))
    (fun r => lock_run none r.state.trace = some (some m)) ?_ ?_ ?_ ?_ ?_ l s hs
  · intro s hs
    exact hs
  · intro p s hs _
    simp only [lock_run_append, hs, Option.some_bind, lock_run, lock_step]
  · intro p s hs _ _ _
    simp [lock_run_append, hs, lock_run, lock_step]
  · intro p s hs _ _ _
    simp [scan_result.state, lock_run_append, hs, lock_run, lock_step]
  · intro p s hs _ _ _
    simp [scan_result.state, lock_run_append, hs, lock_run, lock_step]

/-- One call of `kobj_lookup` from the label `retry:` on leaves the mutex released. -/
theorem retry_lock_released {σ : Type} (lb : Nat) (cb : callbacks σ) (dev : Nat)
    (best : Nat) (index : Int) (st : σ) (D : struct_kobj_map) (tr : List event)
    (htr : lock_run none tr = some none) :
    lock_run none (kobj_lookup_retry lb cb dev best index st D tr).trace = some none := by
  refine retry_invariant lb cb dev (fun tr => lock_run none tr = some none)
    (fun D s => lock_run none s.trace = some (some D.lock))
    (fun D r => lock_run none r.state.trace = some (some D.lock)) ?_ ?_ ?_ ?_ best index st D tr htr
  · intro D best index st tr hK
    simp [lock_run_append, hK, lock_run, lock_step]
  · intro D l s hs
    exact scan_lock_held lb cb dev D.lock l s hs
  · intro D s hJ
    simp only [scan_result.state] at hJ
    simp [lock_run_append, hJ, lock_run, lock_step]
  · intro D p s ret hJ
    simp only [scan_result.state] at hJ
    simp [lock_run_append, hJ, lock_run, lock_step]

/-- C11.  Lock discipline, with the mutex as explicit held/released state and starting
released: the trace of `kobj_lookup` runs through (no `->get` call with the mutex held, no
guard call without it, no double acquire or release) and ends with the mutex released, on
every return path; before every `->get` call the mutex is released and before every guard
call it is held; the traces of `kobj_map` (whether `kmalloc` succeeds or not) and of
`kobj_unmap` also end with the mutex released. -/
theorem lock_discipline {σ : Type} (lb : Nat) (cb : callbacks σ) (D : struct_kobj_map)
    (d : Nat) (i0 : Int) (st0 : σ) (ok : Bool) (dev range module probe_fn lock data : Nat) :
    lock_run none (kobj_lookup lb cb D d i0 st0).trace = some none
    ∧ (∀ pre post p dv i ret,
        (kobj_lookup lb cb D d i0 st0).trace = pre ++ event.resolve p dv i ret :: post →
        lock_run none pre = some none)
    ∧ (∀ pre post p dv ret,
        (kobj_lookup lb cb D d i0 st0).trace = pre ++ event.guard p dv ret :: post →
        ∃ m, lock_run none pre = some (some m))
    ∧ lock_run none (kobj_map lb ok D dev range module probe_fn lock data).trace = some none
    ∧ lock_run none (kobj_unmap lb D dev range).trace = some none := by
  have hrun : lock_run none (kobj_lookup lb cb D d i0 st0).trace = some none :=
    retry_lock_released lb cb d _ i0 st0 D [] rfl
  refine ⟨hrun, ?_, ?_, ?_, ?_⟩
  · intro pre post p dv i ret htr
    rw [htr] at hrun
    obtain ⟨h2, hpre, hstep⟩ := lock_run_split none pre post _ _ hrun
    cases h2 with
    | none => exact hpre
    | some m => exact absurd rfl hstep
  · intro pre post p dv ret htr
    rw [htr] at hrun
    obtain ⟨h2, hpre, hstep⟩ := lock_run_split none pre post _ _ hrun
    cases h2 with
    | none => exact absurd rfl hstep
    | some m => exact ⟨m, hpre⟩
  · cases ok with
    | false => simp [kobj_map, lock_run]
    | true => simp [kobj_map, lock_run, lock_step]
  · simp [kobj_unmap, lock_run, lock_step]

/-- The trace of the lookup of 102 on `fresh_dir` when every `->get` declines. -/
theorem fresh_lookup_trace :
    (kobj_lookup 64 declining_cb fresh_dir 102 0 ()).trace
      = [event.mutex_lock 5, event.try_module_get 0 true, event.mutex_unlock 5]
        ++ event.resolve (base_entry 64 9) 102 101 none
          :: [event.module_put 0, event.mutex_lock 5, event.mutex_unlock 5] := by
  simp [kobj_lookup, kobj_lookup_retry, scan, fresh_dir, declining_cb, base_entry, ULONG_MAX,
    ulong_pred, to_int, MAJOR, MINORBITS, slot]

/-- Witness of C11: the `->get` call of the lookup of 102 on `fresh_dir` is made with the
mutex released. -/
theorem lock_discipline_witness :
    lock_run none [event.mutex_lock 5, event.try_module_get 0 true, event.mutex_unlock 5]
      = some none :=
  (lock_discipline 64 declining_cb fresh_dir 102 0 () true 0 0 0 0 0 0).2.1 _ _ _ _ _ _
    fresh_lookup_trace

/-! ## Owner tokens -/

theorem token_run_append (o c : Nat) (l1 l2 : List event) :
    token_run o c (l1 ++ l2) = (token_run o c l1).bind (fun c2 => token_run o c2 l2) := by
  induction l1 generalizing c with
  | nil => rfl
  | cons e es ih =>
    show (token_step o c e).bind (fun c2 => token_run o c2 (es ++ l2))
      = ((token_step o c e).bind (fun c2 => token_run o c2 es)).bind (fun c2 => token_run o c2 l2)
    cases token_step o c e with
    | none => rfl
    | some c2 => exact ih c2

/-- A run of the counter accounts for every acquire and release of the owner. -/
theorem token_run_counts (o : Nat) (tr : List event) :
    ∀ c c2, token_run o c tr = some c2 →
      c + tr.count (event.try_module_get o true) = c2 + tr.count (event.module_put o) := by
  induction tr with
  | nil =>
    intro c c2 h
    simp only [token_run, Option.some.injEq] at h
    simp [h]
  | cons e es ih =>
    intro c c2 h
    simp only [token_run] at h
    cases hs : token_step o c e with
    | none => rw [hs] at h; simp at h
    | some c1 =>
      rw [hs] at h
      simp only [Option.some_bind] at h
      have hrec := ih c1 c2 h
      cases e with
      | try_module_get o2 ok =>
        simp only [token_step] at hs
        by_cases hc : o2 = o ∧ ok = true
        · rw [if_pos hc] at hs
          obtain ⟨rfl, rfl⟩ := hc
          simp only [Option.some.injEq] at hs
          simp only [List.count_cons_self]
          rw [List.count_cons_of_ne (by simp)]
          omega
        · rw [if_neg hc] at hs
          simp only [Option.some.injEq] at hs
          rw [List.count_cons_of_ne (by intro he; cases he; exact hc ⟨rfl, rfl⟩),
            List.count_cons_of_ne (by simp)]
          omega
      | module_put o2 =>
        simp only [token_step] at hs
        by_cases hc : o2 = o
        · rw [if_pos hc] at hs
          subst hc
          by_cases h0 : c = 0
          · rw [if_pos h0] at hs
            simp at hs
          · rw [if_neg h0] at hs
            simp only [Option.some.injEq] at hs
            simp only [List.count_cons_self]
            rw [List.count_cons_of_ne (by simp)]
            omega
        · rw [if_neg hc] at hs
          simp only [Option.some.injEq] at hs
          rw [List.count_cons_of_ne (by simp),
            List.count_cons_of_ne (by intro he; cases he; exact hc rfl)]
          omega
      | mutex_lock m =>
        simp only [token_step, Option.some.injEq] at hs
        rw [List.count_cons_of_ne (by simp), List.count_cons_of_ne (by simp)]
        omega
      | mutex_unlock m =>
        simp only [token_step, Option.some.injEq] at hs
        rw [List.count_cons_of_ne (by simp), List.count_cons_of_ne (by simp)]
        omega
      | guard p dv ret =>
        simp only [token_step, Option.some.injEq] at hs
        rw [List.count_cons_of_ne (by simp), List.count_cons_of_ne (by simp)]
        omega
      | resolve p dv i ret =>
        simp only [token_step, Option.some.injEq] at hs
        rw [List.count_cons_of_ne (by simp), List.count_cons_of_ne (by simp)]
        omega

/-- A scan leaves the counter of `o` as it was, plus one when it ends with a candidate
owned by `o`, whose token is then held. -/
theorem scan_token {σ : Type} (lb : Nat) (cb : callbacks σ) (dev o c : Nat) (l : List probe)
    (s : scan_state σ) (hs : token_run o c s.trace = some c) :
    match scan lb cb dev l s with
    | scan_result.exhausted s2 => token_run o c s2.trace = some c
    | scan_result.candidate p s2 =>
      token_run o c s2.trace = some (if p.owner = o then c + 1 else c) := by
  refine scan_invariant lb cb dev (fun s => token_run o c s.trace = some c)
    (fun r => match r with
      | scan_result.exhausted s2 => token_run o c s2.trace = some c
      | scan_result.candidate p s2 =>
        token_run o c s2.trace = some (if p.owner = o then c + 1 else c)) ?_ ?_ ?_ ?_ ?_ l s hs
  · intro s hs
    exact hs
  · intro p s hs _
    simp [token_run_append, hs, token_run, token_step]
  · intro p s hs _ _ _
    by_cases ho : p.owner = o
    · simp [token_run_append, hs, token_run, token_step, ho]
    · simp [token_run_append, hs, token_run, token_step, ho]
  · intro p s hs _ _ _
    by_cases ho : p.owner = o
    · simp [token_run_append, hs, token_run, token_step, ho]
    · simp [token_run_append, hs, token_run, token_step, ho]
  · intro p s hs _ _ _
    by_cases ho : p.owner = o
    · simp [token_run_append, hs, token_run, token_step, ho]
    · simp [token_run_append, hs, token_run, token_step, ho]

/-- C20.  Owner-token balance, each token being a counter: over the trace of one
`kobj_lookup` call, whatever the directory and the callbacks, the counter of every owner `o`
started at any value `c` never meets a release at 0 and ends at `c` again (started at 0, this
says that no `module_put(o)` happens without a successful `try_module_get(o)` before it that
is still unreleased, so none for a failed one), and the number of successful
`try_module_get(o)` equals the number of `module_put(o)`. -/
theorem token_balance {σ : Type} (lb : Nat) (cb : callbacks σ) (D : struct_kobj_map)
    (d : Nat) (i0 : Int) (st0 : σ) (o c : Nat) :
    token_run o c (kobj_lookup lb cb D d i0 st0).trace = some c
    ∧ (kobj_lookup lb cb D d i0 st0).trace.count (event.try_module_get o true)
        = (kobj_lookup lb cb D d i0 st0).trace.count (event.module_put o) := by
  have hrun : token_run o c (kobj_lookup lb cb D d i0 st0).trace = some c := by
    refine retry_invariant lb cb d (fun tr => token_run o c tr = some c)
      (fun _ s => token_run o c s.trace = some c)
      (fun _ r => match r with
        | scan_result.exhausted s2 => token_run o c s2.trace = some c
        | scan_result.candidate p s2 =>
          token_run o c s2.trace = some (if p.owner = o then c + 1 else c))
      ?_ ?_ ?_ ?_ _ i0 st0 D [] rfl
    · intro D best index st tr hK
      simp [token_run_append, hK, token_run, token_step]
    · intro D l s hs
      exact scan_token lb cb d o c l s hs
    · intro D s hJ
      simp only at hJ
      simp [token_run_append, hJ, token_run, token_step]
    · intro D p s ret hJ
      simp only at hJ
      by_cases ho : p.owner = o
      · simp [token_run_append, hJ, token_run, token_step, ho]
      · simp [token_run_append, hJ, token_run, token_step, ho]
  refine ⟨hrun, ?_⟩
  have := token_run_counts o _ c c hrun
  omega

/-! ## Invariants of the directory -/

/-- A property of chains that `f` keeps is kept by the loop over slots, for every `index`
and every number of iterations. -/
theorem slot_loop_preserves (P : List probe → Prop) (f : List probe → List probe)
    (hf : ∀ l, P l → P (f l)) (n index : Nat) (D : struct_kobj_map)
    (hD : ∀ b, P (D.probes b)) : ∀ b, P ((slot_loop f n index D).probes b) := by
  induction n generalizing index D with
  | zero => exact hD
  | succ n ih =>
    simp only [slot_loop]
    apply ih
    intro b
    by_cases hb : b = slot index
    · subst hb
      simp only [set_probes, Function.update_same]
      exact hf _ (hD _)
    · simp only [set_probes, Function.update_noteq hb]
      exact hD b

theorem kobj_map_preserves (P : List probe → Prop) (lb : Nat) (ok : Bool) (D : struct_kobj_map)
    (dev range module probe_fn lock data : Nat)
    (hf : ∀ l, P l → P (insert_probe ⟨dev, range, module, probe_fn, lock, data⟩ l))
    (hD : ∀ b, P (D.probes b)) :
    ∀ b, P ((kobj_map lb ok D dev range module probe_fn lock data).domain.probes b) := by
  cases ok with
  | false => simpa [kobj_map] using hD
  | true =>
    simp only [kobj_map, Bool.true_eq_false, if_false, kobj_map_loop_eq]
    exact slot_loop_preserves P _ hf _ _ D hD

theorem kobj_unmap_preserves (P : List probe → Prop) (lb : Nat) (D : struct_kobj_map)
    (dev range : Nat) (hf : ∀ l, P l → P (unlink_first dev range l))
    (hD : ∀ b, P (D.probes b)) :
    ∀ b, P ((kobj_unmap lb D dev range).domain.probes b) := by
  simp only [kobj_unmap, kobj_unmap_loop_eq]
  exact slot_loop_preserves P _ hf _ _ D hD

theorem insert_probe_ordered (p : probe) (l : List probe) (hl : ordered l) :
    ordered (insert_probe p l) := by
  unfold ordered at hl ⊢
  induction l with
  | nil => simp [insert_probe]
  | cons q qs ih =>
    rw [List.pairwise_cons] at hl
    unfold insert_probe
    by_cases h : q.range < p.range
    · rw [if_pos h, List.pairwise_cons]
      refine ⟨?_, ih hl.2⟩
      intro x hx
      rcases mem_insert_probe p x qs hx with rfl | hx
      · omega
      · exact hl.1 x hx
    · rw [if_neg h, List.pairwise_cons, List.pairwise_cons]
      refine ⟨?_, hl.1, hl.2⟩
      intro x hx
      rcases List.mem_cons.mp hx with rfl | hx
      · omega
      · have := hl.1 x hx
        omega

theorem unlink_first_ordered (dev range : Nat) (l : List probe) (hl : ordered l) :
    ordered (unlink_first dev range l) := by
  unfold ordered at hl ⊢
  rcases unlink_first_split dev range l with ⟨pre, q, post, h1, _, _, h4⟩ | ⟨_, h2⟩
  · rw [h4]
    rw [h1] at hl
    exact hl.sublist (List.Sublist.append_left (List.sublist_cons_self q post) pre)
  · rw [h2]
    exact hl

/-- C13.  Ordering invariant I1: `kobj_map_init` yields chains in non-decreasing order of
`range`; `kobj_map` (whatever its arguments, and whether `kmalloc` succeeds or not) and
`kobj_unmap` (whatever its arguments) keep every chain in that order; hence every chain of
every reachable directory is in non-decreasing order of `range`. -/
theorem ordering_invariant (lb base_probe m : Nat) :
    (∀ D, kobj_map_init lb true true base_probe m = some D → ∀ b, ordered (D.probes b))
    ∧ (∀ D ok dev range module probe_fn lock data, (∀ b, ordered (D.probes b)) →
        ∀ b, ordered ((kobj_map lb ok D dev range module probe_fn lock data).domain.probes b))
    ∧ (∀ D dev range, (∀ b, ordered (D.probes b)) →
        ∀ b, ordered ((kobj_unmap lb D dev range).domain.probes b))
    ∧ (∀ D, reachable lb base_probe m D → ∀ b, ordered (D.probes b)) := by
  have hinit : ∀ D, kobj_map_init lb true true base_probe m = some D →
      ∀ b, ordered (D.probes b) := by
    intro D h b
    rw [init_probes lb base_probe m D h b]
    simp [ordered]
  have hmap : ∀ D ok dev range module probe_fn lock data, (∀ b, ordered (D.probes b)) →
      ∀ b, ordered ((kobj_map lb ok D dev range module probe_fn lock data).domain.probes b) := by
    intro D ok dev range module probe_fn lock data hD
    exact kobj_map_preserves ordered lb ok D dev range module probe_fn lock data
      (fun l hl => insert_probe_ordered _ l hl) hD
  have hunmap : ∀ D dev range, (∀ b, ordered (D.probes b)) →
      ∀ b, ordered ((kobj_unmap lb D dev range).domain.probes b) := by
    intro D dev range hD
    exact kobj_unmap_preserves ordered lb D dev range
      (fun l hl => unlink_first_ordered dev range l hl) hD
  refine ⟨hinit, hmap, hunmap, ?_⟩
  intro D hD
  induction hD with
  | init D h => exact hinit D h
  | map D ok dev range module probe_fn lock data _ _ _ ih =>
    exact hmap D ok dev range module probe_fn lock data ih
  | unmap D dev range _ _ _ ih => exact hunmap D dev range ih

/-- Witness of C13: the chains after the registration of `[100, 110)` on `fresh_dir`. -/
theorem ordering_invariant_witness :
    reachable 64 9 5 (kobj_map 64 true fresh_dir 100 10 0 1 0 0).domain ∧
      ∀ b, ordered ((kobj_map 64 true fresh_dir 100 10 0 1 0 0).domain.probes b) :=
  ⟨reachable.map fresh_dir true 100 10 0 1 0 0 (reachable.init fresh_dir rfl) (by decide)
      (by decide),
   (ordering_invariant 64 9 5).2.2.2 _
    (reachable.map fresh_dir true 100 10 0 1 0 0 (reachable.init fresh_dir rfl) (by decide)
      (by decide))⟩

theorem mem_insert_probe_of_mem (p x : probe) (l : List probe) (h : x ∈ l) :
    x ∈ insert_probe p l := by
  obtain ⟨pre, post, h1, h2, _, _⟩ := insert_probe_split p l
  rw [h2]
  rw [h1] at h
  simp only [List.mem_append, List.mem_cons] at h ⊢
  tauto

theorem mem_unlink_first_of_mem (dev range : Nat) (x : probe) (l : List probe) (h : x ∈ l)
    (hx : ¬ (x.dev = dev ∧ x.range = range)) : x ∈ unlink_first dev range l := by
  induction l with
  | nil => simp at h
  | cons q qs ih =>
    unfold unlink_first
    by_cases hq : q.dev = dev ∧ q.range = range
    · rw [if_pos hq]
      rcases List.mem_cons.mp h with rfl | h
      · exact absurd hq hx
      · exact h
    · rw [if_neg hq]
      rcases List.mem_cons.mp h with rfl | h
      · exact List.mem_cons_self _ _
      · exact List.mem_cons_of_mem _ (ih h)

/-- The base entry stays in every chain as long as no `kobj_unmap` call that visits a slot
carries its key. -/
theorem sparing_keeps_base (lb base_probe m : Nat) (D : struct_kobj_map)
    (hD : reachable_sparing lb base_probe m D) : ∀ b, base_entry lb base_probe ∈ D.probes b := by
  induction hD with
  | init D h =>
    intro b
    rw [init_probes lb base_probe m D h b]
    exact List.mem_singleton.mpr rfl
  | map D ok dev range module probe_fn lock data _ _ _ ih =>
    exact kobj_map_preserves (fun l => base_entry lb base_probe ∈ l) lb ok D dev range module
      probe_fn lock data (fun l hl => mem_insert_probe_of_mem _ _ l hl) ih
  | unmap D dev range _ _ _ hkey ih =>
    rcases hkey with hkey | hkey
    · exact kobj_unmap_preserves (fun l => base_entry lb base_probe ∈ l) lb D dev range
        (fun l hl => mem_unlink_first_of_mem dev range _ l hl
          (fun hh => hkey ⟨hh.1.symm ▸ rfl, hh.2.symm ▸ rfl⟩)) ih
    · simp only [kobj_unmap, hkey, kobj_unmap_loop]
      exact ih

theorem reachable_sparing_64 (base_probe m : Nat) (D : struct_kobj_map)
    (hD : reachable 64 base_probe m D) : reachable_sparing 64 base_probe m D := by
  induction hD with
  | init D h => exact reachable_sparing.init D h
  | map D ok dev range module probe_fn lock data _ hdev hrange ih =>
    exact reachable_sparing.map D ok dev range module probe_fn lock data ih hdev hrange
  | unmap D dev range _ hdev hrange ih =>
    refine reachable_sparing.unmap D dev range ih hdev hrange ?_
    by_cases hk : dev = 1 ∧ range = ULONG_MAX 64
    · right
      rw [hk.1, hk.2]
      decide
    · left
      exact hk

theorem unmap_base_key_32 (b : Fin 255) :
    (kobj_unmap 32 fresh_dir32 1 4294967295).domain.probes b = [] := by
  rw [kobj_unmap_probes 32 fresh_dir32 1 4294967295 (by decide) b,
    if_pos ⟨b.val, by have := b.isLt; have h : probe_count 32 1 4294967295 = 255 := by decide
                      omega,
      by apply Fin.ext; simp only [slot]; have := b.isLt; have h : MAJOR 1 = 0 := by decide
         rw [h]; omega⟩]
  show unlink_first 1 4294967295 [base_entry 32 9] = []
  decide

/-- C14, as amended.  Sentinel invariant I3: a successful `kobj_map_init` yields 255 chains
that each consist of exactly the base entry (`dev = 1`, `range = ~0UL`, no owner, no guard,
`get = base_probe`); in every state reached from it by `kobj_map` calls and by `kobj_unmap`
calls other than slot-visiting ones keyed `(1, ~0UL)`, every chain still contains the base
entry; and with a 64-bit `unsigned long`, where `kobj_unmap(1, ~0UL)` computes `n = 0` and
visits no slot, that holds for every reachable state. -/
theorem sentinel_invariant (lb base_probe m : Nat) :
    (∀ D, kobj_map_init lb true true base_probe m = some D →
      ∀ b, D.probes b = [base_entry lb base_probe]
        ∧ (base_entry lb base_probe).dev = 1 ∧ (base_entry lb base_probe).range = 2 ^ lb - 1
        ∧ (base_entry lb base_probe).lock = 0 ∧ (base_entry lb base_probe).get = base_probe)
    ∧ (∀ D, reachable_sparing lb base_probe m D → ∀ b, base_entry lb base_probe ∈ D.probes b)
    ∧ (∀ D, reachable 64 base_probe m D → ∀ b, base_entry 64 base_probe ∈ D.probes b) := by
  refine ⟨?_, ?_, ?_⟩
  · intro D h b
    exact ⟨init_probes lb base_probe m D h b, rfl, rfl, rfl, rfl⟩
  · intro D hD
    exact sparing_keeps_base lb base_probe m D hD
  · intro D hD
    exact sparing_keeps_base 64 base_probe m D (reachable_sparing_64 base_probe m D hD)

/-- Witness of C14 as amended: on a 64-bit machine the base entry is still in every chain
after `kobj_unmap(1, ~0UL)`. -/
theorem sentinel_invariant_witness :
    reachable 64 9 5 (kobj_unmap 64 fresh_dir 1 18446744073709551615).domain ∧
      ∀ b, base_entry 64 9 ∈ (kobj_unmap 64 fresh_dir 1 18446744073709551615).domain.probes b :=
  ⟨reachable.unmap fresh_dir 1 18446744073709551615 (reachable.init fresh_dir rfl) (by decide)
      (by decide),
   (sentinel_invariant 64 9 5).2.2 _
    (reachable.unmap fresh_dir 1 18446744073709551615 (reachable.init fresh_dir rfl) (by decide)
      (by decide))⟩

/-- Counterexample to C14 as stated: with a 32-bit `unsigned long`, `kobj_unmap(1, ~0UL)` on
the freshly initialised directory computes `n = 255` and unlinks the base entry from every
chain; the state is reachable and all its chains are empty. -/
theorem sentinel_removed_counterexample :
    kobj_map_init 32 true true 9 5 = some fresh_dir32 ∧
    probe_count 32 1 4294967295 = 255 ∧
    reachable 32 9 5 (kobj_unmap 32 fresh_dir32 1 4294967295).domain ∧
    (∀ b, (kobj_unmap 32 fresh_dir32 1 4294967295).domain.probes b = []) ∧
    (∀ b, base_entry 32 9 ∉ (kobj_unmap 32 fresh_dir32 1 4294967295).domain.probes b) := by
  refine ⟨rfl, by decide, ?_, unmap_base_key_32, ?_⟩
  · exact reachable.unmap fresh_dir32 1 4294967295 (reachable.init fresh_dir32 rfl) (by decide)
      (by decide)
  · intro b
    rw [unmap_base_key_32 b]
    simp

/-- C17, as amended.  The count `n` that `kobj_map` inserts and `kobj_unmap` scans is at most
255 for all arguments, and at least 1 when `range >= 1` and `dev + range - 1` does not exceed
the largest identifier (no wrap-around): then a successful registration inserts at least one
entry. -/
theorem probe_count_bounds (lb dev range : Nat) :
    probe_count lb dev range ≤ 255
    ∧ (32 ≤ lb → 1 ≤ range → dev + range - 1 ≤ 2 ^ 32 - 1 → 1 ≤ probe_count lb dev range) := by
  refine ⟨probe_count_le lb dev range, ?_⟩
  intro hlb hrange hfit
  rw [probe_count_fit lb dev range hlb hrange (by omega)]
  omega

/-- Witness of C17 as amended. -/
theorem probe_count_bounds_witness :
    (32 ≤ 64 ∧ 1 ≤ 10 ∧ 100 + 10 - 1 ≤ 2 ^ 32 - 1) ∧ 1 ≤ probe_count 64 100 10 :=
  ⟨by decide, (probe_count_bounds 64 100 10).2 (by decide) (by decide) (by decide)⟩

/-- Counterexample to C17 as stated: for `dev = 2^20` (major 1, minor 0) and
`range = ~0UL >= 1`, `dev + range - 1` wraps to `2^20 - 2` (major 0) and
`n = 0 - 1 + 1 = 0`, on 64-bit and on 32-bit machines alike; `kobj_map` then inserts
nothing. -/
theorem probe_count_zero_counterexample :
    (1 ≤ 18446744073709551615 ∧ probe_count 64 1048576 18446744073709551615 = 0)
    ∧ (1 ≤ 4294967295 ∧ probe_count 32 1048576 4294967295 = 0)
    ∧ (kobj_map 64 true fresh_dir 1048576 18446744073709551615 0 1 0 0).domain.probes
        = fresh_dir.probes := by
  refine ⟨⟨by decide, by decide⟩, ⟨by decide, by decide⟩, ?_⟩
  have h : probe_count 64 1048576 18446744073709551615 = 0 := by decide
  simp only [kobj_map, Bool.true_eq_false, if_false, h, kobj_map_loop]

/-! ## Ties, guard failures and the reach of the base entry -/

/-- After a registration `r1` and then a registration `r2` of the same `range` on a fresh
directory, the chain of an identifier covered by both starts with `r2`. -/
theorem tie_chain (lb base_probe m : Nat) (D0 : struct_kobj_map) (r1 r2 : probe)
    (d : Nat) (hlb : 32 ≤ lb)
    (hinit : kobj_map_init lb true true base_probe m = some D0)
    (heq : r1.range = r2.range) (ht2 : r2.range < 2 ^ lb)
    (hfit1 : r1.dev + r1.range ≤ 2 ^ 32) (hfit2 : r2.dev + r2.range ≤ 2 ^ 32)
    (hc1 : r1.dev ≤ d ∧ d < r1.dev + r1.range) (hc2 : r2.dev ≤ d ∧ d < r2.dev + r2.range) :
    (register lb (register lb D0 r1) r2).probes (slot (MAJOR d))
      = [] ++ r2 :: [r1, base_entry lb base_probe] := by
  have hb : (base_entry lb base_probe).range = 2 ^ lb - 1 := rfl
  have e1 : ¬ (2 ^ lb - 1 < r1.range) := by omega
  have e2 : ¬ (r1.range < r2.range) := by omega
  rw [register_probes_covered lb _ r2 d hlb hfit2 hc2.1 hc2.2,
    register_probes_covered lb _ r1 d hlb hfit1 hc1.1 hc1.2,
    init_probes lb base_probe m D0 hinit]
  simp only [insert_probe, hb, if_neg e1, if_neg e2, List.nil_append]

/-- The lookup after two registrations of the same `range` on a fresh directory. -/
theorem lookup_tie {σ : Type} (lb : Nat) (cb : callbacks σ) (base_probe m : Nat)
    (D0 : struct_kobj_map) (r1 r2 : probe) (d H2 : Nat) (i0 : Int) (st0 : σ)
    (hlb : 32 ≤ lb)
    (hinit : kobj_map_init lb true true base_probe m = some D0)
    (heq : r1.range = r2.range) (ht2 : r2.range < 2 ^ lb)
    (hfit1 : r1.dev + r1.range ≤ 2 ^ 32) (hfit2 : r2.dev + r2.range ≤ 2 ^ 32)
    (hc1 : r1.dev ≤ d ∧ d < r1.dev + r1.range) (hc2 : r2.dev ≤ d ∧ d < r2.dev + r2.range)
    (htok : ∀ s, (cb.try_module_get r2.owner s).1 = true)
    (hguard : r2.lock = 0 ∨ ∀ s, 0 ≤ (cb.lock r2.lock d r2.data s).1)
    (hget : ∀ i s dom, (cb.get r2.get d i r2.data s dom).kobj = some H2) :
    (kobj_lookup lb cb (register lb (register lb D0 r1) r2) d i0 st0).kobj = some H2 ∧
      resolve_calls (kobj_lookup lb cb (register lb (register lb D0 r1) r2) d i0 st0).trace
        = [(r2, d, to_int (d - r2.dev))] := by
  have hp := two_pow_le lb hlb
  have hchain := tie_chain lb base_probe m D0 r1 r2 d hlb hinit heq ht2 hfit1 hfit2 hc1 hc2
  have hbest : ulong_pred lb r2.range < ULONG_MAX lb := by
    rw [ulong_pred_eq lb r2.range (by omega) ht2]
    unfold ULONG_MAX
    omega
  have h := lookup_first_candidate lb cb _ d i0 st0 [] _ r2 H2 hchain (by simp)
    (not_skips_of_covered lb r2 d hlb hfit2 hc2.1 hc2.2) hbest htok hguard hget
  rw [to_int_sub d r2.dev hc2.1 (by omega)] at h
  exact h

/-- C15, as amended.  Tie-break among equal lengths is LIFO: `kobj_map` splices a new entry
in front of the first entry whose `range` is not smaller, so every entry before it is
strictly narrower and the entries of the same `range` already in the chain come after it.
When `r1` and then `r2` with the same `range` are registered on a fresh directory and both
cover `d` (the token of `r2` acquirable, its guard absent or not failing, its `->get`
returning `H2`), the chain of `d` is `r2, r1, base` and `kobj_lookup(d)` returns `H2`, the
handle of the entry registered last; the `->get` of `r1` is not called. -/
theorem lookup_tie_newest {σ : Type} (lb : Nat) (cb : callbacks σ) (base_probe m : Nat)
    (D0 : struct_kobj_map) (r1 r2 : probe) (d H2 : Nat) (i0 : Int) (st0 : σ)
    (hlb : 32 ≤ lb)
    (hinit : kobj_map_init lb true true base_probe m = some D0)
    (heq : r1.range = r2.range) (ht2 : r2.range < 2 ^ lb)
    (hfit1 : r1.dev + r1.range ≤ 2 ^ 32) (hfit2 : r2.dev + r2.range ≤ 2 ^ 32)
    (hc1 : r1.dev ≤ d ∧ d < r1.dev + r1.range) (hc2 : r2.dev ≤ d ∧ d < r2.dev + r2.range)
    (htok : ∀ s, (cb.try_module_get r2.owner s).1 = true)
    (hguard : r2.lock = 0 ∨ ∀ s, 0 ≤ (cb.lock r2.lock d r2.data s).1)
    (hget : ∀ i s dom, (cb.get r2.get d i r2.data s dom).kobj = some H2) :
    (∀ (p : probe) (l : List probe), ∃ pre post, l = pre ++ post ∧
        insert_probe p l = pre ++ p :: post ∧ (∀ x ∈ pre, x.range < p.range))
    ∧ (register lb (register lb D0 r1) r2).probes (slot (MAJOR d))
        = [r2, r1, base_entry lb base_probe]
    ∧ (kobj_lookup lb cb (register lb (register lb D0 r1) r2) d i0 st0).kobj = some H2
    ∧ resolve_calls (kobj_lookup lb cb (register lb (register lb D0 r1) r2) d i0 st0).trace
        = [(r2, d, to_int (d - r2.dev))] := by
  refine ⟨?_, ?_, ?_, ?_⟩
  · intro p l
    obtain ⟨pre, post, h1, h2, h3, _⟩ := insert_probe_split p l
    exact ⟨pre, post, h1, h2, h3⟩
  · exact tie_chain lb base_probe m D0 r1 r2 d hlb hinit heq ht2 hfit1 hfit2 hc1 hc2
  · exact (lookup_tie lb cb base_probe m D0 r1 r2 d H2 i0 st0 hlb hinit heq ht2 hfit1 hfit2
      hc1 hc2 htok hguard hget).1
  · exact (lookup_tie lb cb base_probe m D0 r1 r2 d H2 i0 st0 hlb hinit heq ht2 hfit1 hfit2
      hc1 hc2 htok hguard hget).2

/-- Witness of C15 as amended: two registrations of `[100, 110)`, with `->get` functions 11
and then 22; the lookup of 102 returns the handle 22. -/
theorem lookup_tie_newest_witness :
    (kobj_lookup 64 handle_cb
        (register 64 (register 64 fresh_dir ⟨100, 10, 0, 11, 0, 0⟩) ⟨100, 10, 0, 22, 0, 0⟩)
        102 0 ()).kobj = some 22 :=
  (lookup_tie_newest 64 handle_cb 9 5 fresh_dir ⟨100, 10, 0, 11, 0, 0⟩ ⟨100, 10, 0, 22, 0, 0⟩
    102 22 0 () (by decide) rfl rfl (by decide) (by decide) (by decide) (by decide) (by decide)
    (fun _ => rfl) (Or.inl rfl) (fun _ _ _ => rfl)).2.2.1

/-- Counterexample to C15 as stated: `[100, 110)` is registered with the `->get` function
11 and then again with the `->get` function 22 (tokens acquirable, no guards, both returning
a handle); the second entry is placed before the first, and `kobj_lookup(102)` returns the
handle 22 of the entry registered last, not the handle 11 of the entry registered first. -/
theorem lookup_tie_counterexample :
    kobj_map_init 64 true true 9 5 = some fresh_dir ∧
    (∀ i s dom, (handle_cb.get 11 102 i 0 s dom).kobj = some 11) ∧
    (∀ i s dom, (handle_cb.get 22 102 i 0 s dom).kobj = some 22) ∧
    (register 64 (register 64 fresh_dir ⟨100, 10, 0, 11, 0, 0⟩) ⟨100, 10, 0, 22, 0, 0⟩).probes
        (slot (MAJOR 102))
      = [⟨100, 10, 0, 22, 0, 0⟩, ⟨100, 10, 0, 11, 0, 0⟩, base_entry 64 9] ∧
    (kobj_lookup 64 handle_cb
        (register 64 (register 64 fresh_dir ⟨100, 10, 0, 11, 0, 0⟩) ⟨100, 10, 0, 22, 0, 0⟩)
        102 0 ()).kobj = some 22 ∧
    (kobj_lookup 64 handle_cb
        (register 64 (register 64 fresh_dir ⟨100, 10, 0, 11, 0, 0⟩) ⟨100, 10, 0, 22, 0, 0⟩)
        102 0 ()).kobj ≠ some 11 := by
  have h := lookup_tie 64 handle_cb 9 5 fresh_dir ⟨100, 10, 0, 11, 0, 0⟩ ⟨100, 10, 0, 22, 0, 0⟩
    102 22 0 () (by decide) rfl rfl (by decide) (by decide) (by decide) (by decide) (by decide)
    (fun _ => rfl) (Or.inl rfl) (fun _ _ _ => rfl)
  refine ⟨rfl, fun _ _ _ => rfl, fun _ _ _ => rfl, ?_, h.1, ?_⟩
  · exact tie_chain 64 9 5 fresh_dir ⟨100, 10, 0, 11, 0, 0⟩ ⟨100, 10, 0, 22, 0, 0⟩ 102
      (by decide) rfl rfl (by decide) (by decide) (by decide) (by decide) (by decide)
  · rw [h.1]
    decide

/-- An entry that is not passed over, is below `best`, whose token is acquired and whose
guard fails: the scan goes on with `best` lowered to `range - 1` of that entry. -/
theorem scan_cons_veto {σ : Type} (lb : Nat) (cb : callbacks σ) (dev : Nat)
    (p : probe) (l : List probe) (s : scan_state σ) (h1 : ¬ skips lb p dev)
    (h2 : ulong_pred lb p.range < s.best)
    (h3 : (cb.try_module_get p.owner s.st).1 = true)
    (h4 : p.lock ≠ 0)
    (h5 : (cb.lock p.lock dev p.data (cb.try_module_get p.owner s.st).2).1 < 0) :
    scan lb cb dev (p :: l) s = scan lb cb dev l
      { best := ulong_pred lb p.range, index := to_int ((dev + 2 ^ 32 - p.dev) % 2 ^ 32)
        st := cb.module_put p.owner
          (cb.lock p.lock dev p.data (cb.try_module_get p.owner s.st).2).2
        trace := s.trace ++ [event.try_module_get p.owner true] ++
          [event.guard p dev (cb.lock p.lock dev p.data (cb.try_module_get p.owner s.st).2).1,
           event.module_put p.owner] } := by
  rw [scan, if_neg h1, if_neg (by omega : ¬ ulong_pred lb p.range ≥ s.best),
    if_neg (by simp [h3])]
  simp only
  rw [if_pos h4, if_pos h5]

/-- The chain of `d` is `pre ++ A :: (mid ++ B :: rest)`; the scan passes over `pre` and
`mid`; the guard of `A` fails; `B` is wider than `A`.  The scan stops at `B` and the lookup
returns `NULL` after one token acquire, one guard call and one release. -/
theorem lookup_guard_failure_stops {σ : Type} (lb : Nat) (cb : callbacks σ)
    (D : struct_kobj_map) (d : Nat) (i0 : Int) (st0 : σ) (pre mid rest : List probe)
    (A B : probe)
    (hchain : D.probes (slot (MAJOR d)) = pre ++ A :: (mid ++ B :: rest))
    (hpre : ∀ x ∈ pre, skips lb x d) (hmid : ∀ x ∈ mid, skips lb x d)
    (hA : ¬ skips lb A d) (hB : ¬ skips lb B d)
    (hrA : 1 ≤ A.range) (hlt : A.range < B.range) (htB : B.range < 2 ^ lb)
    (htok : ∀ s, (cb.try_module_get A.owner s).1 = true)
    (hlock : A.lock ≠ 0) (hfail : ∀ s, (cb.lock A.lock d A.data s).1 < 0) :
    (kobj_lookup lb cb D d i0 st0).kobj = none ∧
      (kobj_lookup lb cb D d i0 st0).trace
        = [event.mutex_lock D.lock, event.try_module_get A.owner true,
           event.guard A d (cb.lock A.lock d A.data (cb.try_module_get A.owner st0).2).1,
           event.module_put A.owner, event.mutex_unlock D.lock] := by
  have hpA : ulong_pred lb A.range = A.range - 1 := ulong_pred_eq lb A.range hrA (by omega)
  have hpB : ulong_pred lb B.range = B.range - 1 := ulong_pred_eq lb B.range (by omega) htB
  have hscan : scan lb cb d (D.probes (slot (MAJOR d)))
      { best := ULONG_MAX lb, index := i0, st := st0, trace := [] ++ [event.mutex_lock D.lock] }
      = scan_result.exhausted
        { best := ulong_pred lb A.range, index := to_int ((d + 2 ^ 32 - A.dev) % 2 ^ 32)
          st := cb.module_put A.owner
            (cb.lock A.lock d A.data (cb.try_module_get A.owner st0).2).2
          trace := [] ++ [event.mutex_lock D.lock] ++ [event.try_module_get A.owner true] ++
            [event.guard A d (cb.lock A.lock d A.data (cb.try_module_get A.owner st0).2).1,
             event.module_put A.owner] } := by
    rw [hchain, scan_skip_pre lb cb d pre _ _ hpre,
      scan_cons_veto lb cb d A _ _ hA (by simp only [hpA, ULONG_MAX]; omega) (htok _) hlock
        (hfail _),
      scan_skip_pre lb cb d mid _ _ hmid]
    exact scan_cons_break lb cb d B rest _ hB (by simp only [hpA, hpB]; omega)
  unfold kobj_lookup
  rw [kobj_lookup_retry_exhausted lb cb d _ i0 st0 D [] _ hscan]
  simp

/-- C16, as amended.  A guard failure does tighten the early-exit bound: `best` is assigned
`p->range - 1` before the guard is called, so after the guard of a matching entry `A` fails
the scan stops at the next matching entry that is not narrower.  With `A` and `B` in the
chain of `d`, both covering `d`, `A` before `B` and the entries before `A` and between them
passed over, `A.range < B.range`, tokens acquirable, the guard of `A` failing and `B` (no
guard) resolving to `H`: `kobj_lookup(d)` returns `NULL`; the calls made are the acquire of
the token of `A`, its guard and the release of its token, so the token of `B` is not
acquired and its `->get` is not called. -/
theorem guard_failure_tightens_best {σ : Type} (lb : Nat) (cb : callbacks σ)
    (D : struct_kobj_map) (d : Nat) (i0 : Int) (st0 : σ) (pre mid rest : List probe)
    (A B : probe) (H : Nat)
    (hchain : D.probes (slot (MAJOR d)) = pre ++ A :: (mid ++ B :: rest))
    (hpre : ∀ x ∈ pre, skips lb x d) (hmid : ∀ x ∈ mid, skips lb x d)
    (hA : ¬ skips lb A d) (hB : ¬ skips lb B d)
    (hrA : 1 ≤ A.range) (hlt : A.range < B.range) (htB : B.range < 2 ^ lb)
    (htok : ∀ s, (cb.try_module_get A.owner s).1 = true)
    (htokB : ∀ s, (cb.try_module_get B.owner s).1 = true)
    (hlock : A.lock ≠ 0) (hfail : ∀ s, (cb.lock A.lock d A.data s).1 < 0)
    (hlockB : B.lock = 0)
    (hgetB : ∀ i s dom, (cb.get B.get d i B.data s dom).kobj = some H) :
    (kobj_lookup lb cb D d i0 st0).kobj = none
    ∧ (kobj_lookup lb cb D d i0 st0).trace
        = [event.mutex_lock D.lock, event.try_module_get A.owner true,
           event.guard A d (cb.lock A.lock d A.data (cb.try_module_get A.owner st0).2).1,
           event.module_put A.owner, event.mutex_unlock D.lock]
    ∧ resolve_calls (kobj_lookup lb cb D d i0 st0).trace = [] := by
  have h := lookup_guard_failure_stops lb cb D d i0 st0 pre mid rest A B hchain hpre hmid hA hB
    hrA hlt htB htok hlock hfail
  refine ⟨h.1, h.2, ?_⟩
  rw [h.2]
  rfl

/-- The chain of major 0 after `B = [100, 110)` (owner 4, handle 77) and `A = [100, 105)`
(owner 3, failing guard 7) were registered on `fresh_dir`. -/
theorem veto_chain :
    (register 64 (register 64 fresh_dir ⟨100, 10, 4, 1, 0, 0⟩) ⟨100, 5, 3, 2, 7, 0⟩).probes
        (slot (MAJOR 102))
      = [] ++ ⟨100, 5, 3, 2, 7, 0⟩ :: ([] ++ ⟨100, 10, 4, 1, 0, 0⟩ :: [base_entry 64 9]) :=
  two_registrations_chain 64 9 5 fresh_dir _ ⟨100, 5, 3, 2, 7, 0⟩ ⟨100, 10, 4, 1, 0, 0⟩ 102
    (by decide) rfl (by decide) (by decide) (by decide) (by decide) (by decide) (by decide)
    (Or.inr rfl)

/-- Witness of C16 as amended. -/
theorem guard_failure_tightens_best_witness :
    (kobj_lookup 64 sample_cb
        (register 64 (register 64 fresh_dir ⟨100, 10, 4, 1, 0, 0⟩) ⟨100, 5, 3, 2, 7, 0⟩)
        102 0 ()).kobj = none :=
  (guard_failure_tightens_best 64 sample_cb _ 102 0 () [] [] _ ⟨100, 5, 3, 2, 7, 0⟩
    ⟨100, 10, 4, 1, 0, 0⟩ 77 veto_chain (by simp) (by simp) (by decide) (by decide) (by decide)
    (by decide) (by decide) (fun _ => rfl) (fun _ => rfl) (by decide)
    (fun _ => by simp [sample_cb]) rfl (fun _ _ _ => rfl)).1

/-- Counterexample to C16 as stated: `A = [100, 105)` (owner 3, guard failing) and
`B = [100, 110)` (owner 4, no guard, `->get` returning 77) are in the chain of 102 and cover
it, tokens are acquirable; yet `kobj_lookup(102)` returns `NULL`, not 77, the token of `B`
is not acquired and no `->get` is called. -/
theorem guard_failure_counterexample :
    kobj_map_init 64 true true 9 5 = some fresh_dir ∧
    (register 64 (register 64 fresh_dir ⟨100, 10, 4, 1, 0, 0⟩) ⟨100, 5, 3, 2, 7, 0⟩).probes
        (slot (MAJOR 102))
      = [⟨100, 5, 3, 2, 7, 0⟩, ⟨100, 10, 4, 1, 0, 0⟩, base_entry 64 9] ∧
    (∀ s, (sample_cb.lock 7 102 0 s).1 < 0) ∧
    (∀ i s dom, (sample_cb.get 1 102 i 0 s dom).kobj = some 77) ∧
    (kobj_lookup 64 sample_cb
        (register 64 (register 64 fresh_dir ⟨100, 10, 4, 1, 0, 0⟩) ⟨100, 5, 3, 2, 7, 0⟩)
        102 0 ()).kobj = none ∧
    event.try_module_get 4 true ∉ (kobj_lookup 64 sample_cb
        (register 64 (register 64 fresh_dir ⟨100, 10, 4, 1, 0, 0⟩) ⟨100, 5, 3, 2, 7, 0⟩)
        102 0 ()).trace ∧
    resolve_calls (kobj_lookup 64 sample_cb
        (register 64 (register 64 fresh_dir ⟨100, 10, 4, 1, 0, 0⟩) ⟨100, 5, 3, 2, 7, 0⟩)
        102 0 ()).trace = [] := by
  have h := lookup_guard_failure_stops 64 sample_cb _ 102 0 () [] [] _ ⟨100, 5, 3, 2, 7, 0⟩
    ⟨100, 10, 4, 1, 0, 0⟩ veto_chain (by simp) (by simp) (by decide) (by decide) (by decide)
    (by decide) (by decide) (fun _ => rfl) (by decide) (fun _ => by simp [sample_cb])
  refine ⟨rfl, veto_chain, fun _ => by simp [sample_cb], fun _ _ _ => rfl, h.1, ?_, ?_⟩
  · rw [h.2]
    decide
  · rw [h.2]
    rfl

/-- C18, as amended.  The base entry covers every identifier except 0: the test of line 135
passes over it for `d = 0` (`p->dev = 1 > 0`) and accepts it for every `d >= 1`; so on a
freshly initialised directory `kobj_lookup(0)` returns `NULL` whatever the callbacks do, and
when the base `->get` returns `H` and the `NULL` owner of the base entry can be acquired,
`kobj_lookup(d)` returns `H` for every identifier `d >= 1`. -/
theorem base_covers_nonzero {σ : Type} (lb : Nat) (cb : callbacks σ) (base_probe m : Nat)
    (D0 : struct_kobj_map) (d H : Nat) (i0 : Int) (st0 : σ)
    (hlb : 32 ≤ lb)
    (hinit : kobj_map_init lb true true base_probe m = some D0)
    (hd1 : 1 ≤ d) (hd2 : d < 2 ^ 32)
    (htok : ∀ s, (cb.try_module_get 0 s).1 = true)
    (hget : ∀ i s dom, (cb.get base_probe d i 0 s dom).kobj = some H) :
    skips lb (base_entry lb base_probe) 0
    ∧ ¬ skips lb (base_entry lb base_probe) d
    ∧ (kobj_lookup lb cb D0 d i0 st0).kobj = some H
    ∧ (∀ (cb2 : callbacks σ) (i : Int) (st : σ), (kobj_lookup lb cb2 D0 0 i st).kobj = none)
    ∧ (∀ (cb2 : callbacks σ) (i : Int) (st : σ),
        resolve_calls (kobj_lookup lb cb2 D0 0 i st).trace = []) := by
  have hp := two_pow_le lb hlb
  have hns : ¬ skips lb (base_entry lb base_probe) d := by
    unfold skips
    simp only [base_entry, ULONG_MAX]
    have e : (1 + (2 ^ lb - 1) + 2 ^ lb - 1) % 2 ^ lb = 2 ^ lb - 1 := by
      have : 1 + (2 ^ lb - 1) + 2 ^ lb - 1 = (2 ^ lb - 1) + 2 ^ lb := by omega
      rw [this, Nat.add_mod_right]
      exact Nat.mod_eq_of_lt (by omega)
    rw [e]
    omega
  have hbest : ulong_pred lb (base_entry lb base_probe).range < ULONG_MAX lb := by
    simp only [base_entry, ULONG_MAX]
    rw [ulong_pred_eq lb (2 ^ lb - 1) (by omega) (by omega)]
    omega
  have hzero : ∀ (cb2 : callbacks σ) (i : Int) (st : σ),
      kobj_lookup lb cb2 D0 0 i st
        = { kobj := none, index := i, st := st, domain := D0
            trace := [] ++ [event.mutex_lock D0.lock] ++ [event.mutex_unlock D0.lock] } := by
    intro cb2 i st
    have hscan : scan lb cb2 0 (D0.probes (slot (MAJOR 0)))
        { best := ULONG_MAX lb, index := i, st := st, trace := [] ++ [event.mutex_lock D0.lock] }
        = scan_result.exhausted
          { best := ULONG_MAX lb, index := i, st := st
            trace := [] ++ [event.mutex_lock D0.lock] } := by
      rw [init_probes lb base_probe m D0 hinit]
      have h := scan_skip_pre lb cb2 0 [base_entry lb base_probe] []
        { best := ULONG_MAX lb, index := i, st := st, trace := [] ++ [event.mutex_lock D0.lock] }
        (by
          intro x hx
          simp only [List.mem_singleton] at hx
          subst hx
          exact Or.inl (by simp [base_entry]))
      exact h
    unfold kobj_lookup
    rw [kobj_lookup_retry_exhausted lb cb2 0 _ i st D0 [] _ hscan]
  refine ⟨Or.inl (by simp [base_entry]), hns, ?_, ?_, ?_⟩
  · exact (lookup_first_candidate lb cb D0 d i0 st0 [] [] (base_entry lb base_probe) H
      (by rw [init_probes lb base_probe m D0 hinit]; rfl) (by simp) hns hbest htok (Or.inl rfl)
      hget).1
  · intro cb2 i st
    rw [hzero cb2 i st]
  · intro cb2 i st
    rw [hzero cb2 i st]
    rfl

/-- Witness of C18 as amended: the lookup of 102 on `fresh_dir` returns the handle 9 of the
base `->get`, and the lookup of 0 returns `NULL`. -/
theorem base_covers_nonzero_witness :
    (kobj_lookup 64 handle_cb fresh_dir 102 0 ()).kobj = some 9 ∧
      (kobj_lookup 64 handle_cb fresh_dir 0 0 ()).kobj = none :=
  ⟨(base_covers_nonzero 64 handle_cb 9 5 fresh_dir 102 9 0 () (by decide) rfl (by decide)
      (by decide) (fun _ => rfl) (fun _ _ _ => rfl)).2.2.1,
   (base_covers_nonzero 64 handle_cb 9 5 fresh_dir 102 9 0 () (by decide) rfl (by decide)
      (by decide) (fun _ => rfl) (fun _ _ _ => rfl)).2.2.2.1 handle_cb 0 ()⟩

/-- Counterexample to C18 as stated: on the freshly initialised directory, with a base
`->get` that returns the handle 9 for every identifier, the scan for `d = 0` passes over the
base entry and `kobj_lookup(0)` returns `NULL`. -/
theorem base_misses_zero_counterexample :
    kobj_map_init 64 true true 9 5 = some fresh_dir ∧
    (∀ d i s dom, (handle_cb.get 9 d i 0 s dom).kobj = some 9) ∧
    skips 64 (base_entry 64 9) 0 ∧
    (kobj_lookup 64 handle_cb fresh_dir 0 0 ()).kobj = none := by
  refine ⟨rfl, fun _ _ _ _ => rfl, by decide, ?_⟩
  have hscan : scan 64 handle_cb 0 (fresh_dir.probes (slot (MAJOR 0)))
      { best := ULONG_MAX 64, index := 0, st := (),
        trace := [] ++ [event.mutex_lock fresh_dir.lock] }
      = scan_result.exhausted
        { best := ULONG_MAX 64, index := 0, st := (),
          trace := [] ++ [event.mutex_lock fresh_dir.lock] } := by
    have h := scan_skip_pre 64 handle_cb 0 [base_entry 64 9] []
      { best := ULONG_MAX 64, index := 0, st := (),
        trace := [] ++ [event.mutex_lock fresh_dir.lock] }
      (by intro x hx; simp only [List.mem_singleton] at hx; subst hx; decide)
    exact h
  unfold kobj_lookup
  rw [kobj_lookup_retry_exhausted 64 handle_cb 0 _ 0 () fresh_dir [] _ hscan]

/-! ## The closed form of the lookup on a fixed directory -/

/-- No candidate comes out of a chain in which every entry is passed over, or cannot be
acquired, or is not below `best`. -/
theorem scan_no_candidate {σ : Type} (lb : Nat) (cb : callbacks σ) (acq : Nat → Bool) (d : Nat)
    (hacq : ∀ o s, (cb.try_module_get o s).1 = acq o) (l : List probe) :
    ∀ (s : scan_state σ),
      (∀ x ∈ l, skips lb x d ∨ acq x.owner = false ∨ ulong_pred lb x.range ≥ s.best) →
      ∃ s2, scan lb cb d l s = scan_result.exhausted s2 := by
  induction l with
  | nil => intro s _; exact ⟨s, rfl⟩
  | cons q qs ih =>
    intro s hl
    have hq := hl q (List.mem_cons_self _ _)
    have hqs : ∀ x ∈ qs, skips lb x d ∨ acq x.owner = false ∨ ulong_pred lb x.range ≥ s.best :=
      fun x hx => hl x (List.mem_cons_of_mem _ hx)
    unfold scan
    by_cases h1 : q.dev > d ∨ (q.dev + q.range + 2 ^ lb - 1) % 2 ^ lb < d
    · rw [if_pos h1]
      exact ih s hqs
    rw [if_neg h1]
    by_cases h2 : ulong_pred lb q.range ≥ s.best
    · rw [if_pos h2]
      exact ⟨s, rfl⟩
    rw [if_neg h2]
    have h3 : (cb.try_module_get q.owner s.st).1 = false := by
      rw [hacq]
      rcases hq with hq | hq | hq
      · exact absurd hq h1
      · exact hq
      · exact absurd hq h2
    rw [if_pos h3]
    exact ih _ hqs

/-- The first scan passes a stretch of entries that are passed over or cannot be acquired,
keeping `best` and recording no `->get` call. -/
theorem scan_pass_unacquirable {σ : Type} (lb : Nat) (cb : callbacks σ) (acq : Nat → Bool)
    (d : Nat) (hacq : ∀ o s, (cb.try_module_get o s).1 = acq o) (pre rest : List probe) :
    ∀ (s : scan_state σ),
      (∀ x ∈ pre, skips lb x d ∨ (ulong_pred lb x.range < s.best ∧ acq x.owner = false)) →
      ∃ s2, scan lb cb d (pre ++ rest) s = scan lb cb d rest s2 ∧ s2.best = s.best ∧
        resolve_calls s2.trace = resolve_calls s.trace := by
  induction pre with
  | nil => intro s _; exact ⟨s, rfl, rfl, rfl⟩
  | cons q qs ih =>
    intro s hl
    have hq := hl q (List.mem_cons_self _ _)
    have hqs : ∀ x ∈ qs, skips lb x d ∨ (ulong_pred lb x.range < s.best ∧ acq x.owner = false) :=
      fun x hx => hl x (List.mem_cons_of_mem _ hx)
    rw [List.cons_append, scan]
    by_cases h1 : q.dev > d ∨ (q.dev + q.range + 2 ^ lb - 1) % 2 ^ lb < d
    · rw [if_pos h1]
      exact ih s hqs
    rw [if_neg h1]
    rcases hq with hq | ⟨hq1, hq2⟩
    · exact absurd hq h1
    rw [if_neg (by omega : ¬ ulong_pred lb q.range ≥ s.best),
      if_pos (by rw [hacq]; exact hq2)]
    obtain ⟨s2, e1, e2, e3⟩ := ih
      { s with st := (cb.try_module_get q.owner s.st).2
               trace := s.trace ++ [event.try_module_get q.owner false] } hqs
    refine ⟨s2, e1, e2, ?_⟩
    rw [e3]
    simp [resolve_calls_append, resolve_calls]

/-- For an entry with fields of its C types whose range does not wrap in `unsigned long`,
the test of line 135 passes over it exactly when it does not cover `d`. -/
theorem skips_iff_not_covering (lb : Nat) (p : probe) (d : Nat)
    (h1 : 1 ≤ p.range) (hle : p.dev + p.range ≤ 2 ^ lb) :
    skips lb p d ↔ ¬ (p.dev ≤ d ∧ d ≤ p.dev + p.range - 1) := by
  have e : (p.dev + p.range + 2 ^ lb - 1) % 2 ^ lb = p.dev + p.range - 1 := by
    have : p.dev + p.range + 2 ^ lb - 1 = (p.dev + p.range - 1) + 2 ^ lb := by omega
    rw [this, Nat.add_mod_right]
    exact Nat.mod_eq_of_lt (by omega)
  unfold skips
  rw [e]
  omega

/-- The closed form of `kobj_lookup` on a fixed directory, with the index as the `int` the
code computes. -/
theorem lookup_closed_form_aux {σ : Type} (lb : Nat) (cb : callbacks σ) (D : struct_kobj_map)
    (d : Nat) (i0 : Int) (st0 : σ) (acq : Nat → Bool) (guard : Nat → Nat → Nat → Int)
    (res : Nat → Nat → Int → Nat → Option Nat)
    (hd : d < 2 ^ 32)
    (hord : ordered (D.probes (slot (MAJOR d))))
    (htyped : ∀ p ∈ D.probes (slot (MAJOR d)),
      1 ≤ p.range ∧ p.range < 2 ^ lb ∧ p.dev + p.range ≤ 2 ^ lb)
    (hacq : ∀ o s, (cb.try_module_get o s).1 = acq o)
    (hguard : ∀ f dv data s, (cb.lock f dv data s).1 = guard f dv data)
    (hres : ∀ f dv i data s dom, (cb.get f dv i data s dom).kobj = res f dv i data ∧
      (cb.get f dv i data s dom).domain = dom) :
    (kobj_lookup lb cb D d i0 st0).kobj
        = lookup_reference to_int acq guard res (D.probes (slot (MAJOR d))) d
    ∧ (∀ q ∈ resolved_entries (kobj_lookup lb cb D d i0 st0).trace,
        (D.probes (slot (MAJOR d))).find? (eligible acq d) = some q)
    ∧ (resolved_entries (kobj_lookup lb cb D d i0 st0).trace).length ≤ 1 := by
  have hpos : 0 < 2 ^ lb := by positivity
  have hnel : ∀ x ∈ D.probes (slot (MAJOR d)), eligible acq d x = false →
      skips lb x d ∨ acq x.owner = false := by
    intro x hx he
    have ht := htyped x hx
    unfold eligible at he
    rw [Bool.and_eq_false_iff] at he
    rcases he with he | he
    · left
      rw [skips_iff_not_covering lb x d ht.1 ht.2.2]
      simpa using he
    · right
      exact he
  have hpred : ∀ x ∈ D.probes (slot (MAJOR d)), ulong_pred lb x.range = x.range - 1 ∧
      ulong_pred lb x.range < ULONG_MAX lb := by
    intro x hx
    have ht := htyped x hx
    rw [ulong_pred_eq lb x.range ht.1 ht.2.1]
    unfold ULONG_MAX
    omega
  have hfacts := fun (l : List probe) (s : scan_state σ) => scan_state_facts lb cb d l s
  unfold lookup_reference
  cases hfind : (D.probes (slot (MAJOR d))).find? (eligible acq d) with
  | none =>
    rw [List.find?_eq_none] at hfind
    obtain ⟨s2, hs2⟩ := scan_no_candidate lb cb acq d hacq (D.probes (slot (MAJOR d)))
      { best := ULONG_MAX lb, index := i0, st := st0, trace := [] ++ [event.mutex_lock D.lock] }
      (by
        intro x hx
        rcases hnel x hx (by simpa using hfind x hx) with h | h
        · exact Or.inl h
        · exact Or.inr (Or.inl h))
    have hf := (hfacts (D.probes (slot (MAJOR d)))
      { best := ULONG_MAX lb, index := i0, st := st0,
        trace := [] ++ [event.mutex_lock D.lock] }).1
    rw [hs2] at hf
    simp only [scan_result.state] at hf
    unfold kobj_lookup resolved_entries
    rw [kobj_lookup_retry_exhausted lb cb d _ i0 st0 D [] s2 hs2]
    simp [resolve_calls_append, hf, resolve_calls]
  | some E =>
    obtain ⟨hE, pre, post, hchain, hpre⟩ := List.find?_eq_some.mp hfind
    have hEmem : E ∈ D.probes (slot (MAJOR d)) := by rw [hchain]; simp
    have hpremem : ∀ x ∈ pre, x ∈ D.probes (slot (MAJOR d)) := by
      intro x hx; rw [hchain]; simp [hx]
    have hpostmem : ∀ x ∈ post, x ∈ D.probes (slot (MAJOR d)) := by
      intro x hx; rw [hchain]; simp [hx]
    have htE := htyped E hEmem
    unfold eligible at hE
    rw [Bool.and_eq_true] at hE
    have hcov : E.dev ≤ d ∧ d ≤ E.dev + E.range - 1 := by simpa using hE.1
    have hEns : ¬ skips lb E d := by
      rw [skips_iff_not_covering lb E d htE.1 htE.2.2]
      exact not_not.mpr hcov
    have hpre2 : ∀ x ∈ pre, skips lb x d ∨ acq x.owner = false := by
      intro x hx
      exact hnel x (hpremem x hx) (by simpa using hpre x hx)
    have hpost : ∀ x ∈ post, ulong_pred lb E.range ≤ ulong_pred lb x.range := by
      intro x hx
      have hox : E.range ≤ x.range := by
        unfold ordered at hord
        rw [hchain, List.pairwise_append] at hord
        exact (List.pairwise_cons.mp hord.2.1).1 x hx
      rw [(hpred E hEmem).1, (hpred x (hpostmem x hx)).1]
      omega
    -- the first scan reaches `E`
    obtain ⟨s1, hs1, hb1, hr1⟩ := scan_pass_unacquirable lb cb acq d hacq pre (E :: post)
      { best := ULONG_MAX lb, index := i0, st := st0, trace := [] ++ [event.mutex_lock D.lock] }
      (by
        intro x hx
        rcases hpre2 x hx with h | h
        · exact Or.inl h
        · exact Or.inr ⟨(hpred x (hpremem x hx)).2, h⟩)
    have hbE : ulong_pred lb E.range < s1.best := by
      rw [hb1]
      exact (hpred E hEmem).2
    have htokE : (cb.try_module_get E.owner s1.st).1 = true := by
      rw [hacq]
      exact hE.2
    -- every later scan, with `best` at `E.range - 1`, ends without a candidate
    have hlater : ∀ (s : scan_state σ), s.best = ulong_pred lb E.range →
        ∃ s2, scan lb cb d (D.probes (slot (MAJOR d))) s = scan_result.exhausted s2 := by
      intro s hsb
      refine scan_no_candidate lb cb acq d hacq _ s ?_
      intro x hx
      rw [hchain] at hx
      rcases List.mem_append.mp hx with hx | hx
      · rcases hpre2 x hx with h | h
        · exact Or.inl h
        · exact Or.inr (Or.inl h)
      · rcases List.mem_cons.mp hx with rfl | hx
        · exact Or.inr (Or.inr (by omega))
        · exact Or.inr (Or.inr (by have := hpost x hx; omega))
    simp only
    by_cases hveto : E.lock ≠ 0 ∧ guard E.lock d E.data < 0
    · -- the guard of `E` fails
      rw [if_pos hveto]
      have hstep := scan_cons_veto lb cb d E post s1 hEns hbE htokE hveto.1
        (by rw [hguard]; exact hveto.2)
      obtain ⟨s2, hs2⟩ := scan_no_candidate lb cb acq d hacq post
        { best := ulong_pred lb E.range, index := to_int ((d + 2 ^ 32 - E.dev) % 2 ^ 32)
          st := cb.module_put E.owner
            (cb.lock E.lock d E.data (cb.try_module_get E.owner s1.st).2).2
          trace := s1.trace ++ [event.try_module_get E.owner true] ++
            [event.guard E d (cb.lock E.lock d E.data (cb.try_module_get E.owner s1.st).2).1,
             event.module_put E.owner] }
        (fun x hx => Or.inr (Or.inr (hpost x hx)))
      have hscan : scan lb cb d (D.probes (slot (MAJOR d)))
          { best := ULONG_MAX lb, index := i0, st := st0,
            trace := [] ++ [event.mutex_lock D.lock] } = scan_result.exhausted s2 := by
        rw [hchain, hs1, hstep, hs2]
      have hf := (hfacts (D.probes (slot (MAJOR d)))
        { best := ULONG_MAX lb, index := i0, st := st0,
          trace := [] ++ [event.mutex_lock D.lock] }).1
      rw [hscan] at hf
      simp only [scan_result.state] at hf
      unfold kobj_lookup resolved_entries
      rw [kobj_lookup_retry_exhausted lb cb d _ i0 st0 D [] s2 hscan]
      simp [resolve_calls_append, hf, resolve_calls]
    · -- `E` is the candidate
      rw [if_neg hveto]
      obtain ⟨s2, hs2, hb2, hi2, hr2⟩ := scan_cons_candidate lb cb d E post s1 hEns hbE htokE
        (by
          by_cases hl : E.lock = 0
          · exact Or.inl hl
          · right
            rw [hguard]
            have : ¬ guard E.lock d E.data < 0 := fun h => hveto ⟨hl, h⟩
            omega)
      have hscan : scan lb cb d (D.probes (slot (MAJOR d)))
          { best := ULONG_MAX lb, index := i0, st := st0,
            trace := [] ++ [event.mutex_lock D.lock] } = scan_result.candidate E s2 := by
        rw [hchain, hs1, hs2]
      have hidx : s2.index = to_int (d - E.dev) := by
        rw [hi2, to_int_sub d E.dev hcov.1 hd]
      have hrc : resolve_calls s2.trace = [] := by
        rw [hr2, hr1]
        rfl
      have hk := (hres E.get d s2.index E.data s2.st D).1
      rw [hidx] at hk
      unfold kobj_lookup resolved_entries
      cases hval : res E.get d (to_int (d - E.dev)) E.data with
      | some k =>
        rw [hval] at hk
        rw [← hidx] at hk
        rw [kobj_lookup_retry_some lb cb d _ i0 st0 D [] E s2 k hscan hk]
        simp [resolve_calls_append, hrc, resolve_calls]
      | none =>
        rw [hval] at hk
        rw [← hidx] at hk
        rw [kobj_lookup_retry_none lb cb d _ i0 st0 D [] E s2 hscan hk]
        rw [(hres E.get d s2.index E.data s2.st D).2]
        obtain ⟨s3, hs3⟩ := hlater
          { best := s2.best, index := (cb.get E.get d s2.index E.data s2.st D).index
            st := cb.module_put E.owner (cb.get E.get d s2.index E.data s2.st D).st
            trace := (s2.trace ++ [event.mutex_unlock D.lock, event.resolve E d s2.index none,
              event.module_put E.owner]) ++ [event.mutex_lock D.lock] } hb2
        have hf := (hfacts (D.probes (slot (MAJOR d)))
          { best := s2.best, index := (cb.get E.get d s2.index E.data s2.st D).index
            st := cb.module_put E.owner (cb.get E.get d s2.index E.data s2.st D).st
            trace := (s2.trace ++ [event.mutex_unlock D.lock, event.resolve E d s2.index none,
              event.module_put E.owner]) ++ [event.mutex_lock D.lock] }).1
        rw [hs3] at hf
        simp only [scan_result.state] at hf
        rw [kobj_lookup_retry_exhausted lb cb d _ _ _ D _ s3 hs3]
        simp [resolve_calls_append, hf, hrc, resolve_calls]

/-- After one registration on a fresh directory, the chain of an identifier of the range is
the new entry followed by the base entry. -/
theorem one_registration_chain (lb base_probe m : Nat) (D0 : struct_kobj_map) (r : probe)
    (d : Nat) (hlb : 32 ≤ lb)
    (hinit : kobj_map_init lb true true base_probe m = some D0)
    (htyped : r.range < 2 ^ lb) (hfit : r.dev + r.range ≤ 2 ^ 32)
    (hd1 : r.dev ≤ d) (hd2 : d < r.dev + r.range) :
    (register lb D0 r).probes (slot (MAJOR d)) = [r, base_entry lb base_probe] := by
  rw [register_probes_covered lb _ r d hlb hfit hd1 hd2, init_probes lb base_probe m D0 hinit]
  have hb : (base_entry lb base_probe).range = 2 ^ lb - 1 := rfl
  simp only [insert_probe, hb]
  rw [if_neg (by omega)]

/-- C19, as amended.  Closed form of `kobj_lookup` on a fixed directory: when the chain of
`d` is in non-decreasing order of `range` (I1), its entries have `range >= 1` and ranges
that do not wrap in `unsigned long` (`dev + range <= 2^lb`), and the callbacks are
deterministic (results `acq`, `guard`, `res`) and leave the directory alone, then
`kobj_lookup(d)` equals the one-pass reference with the index `d - dev` converted to `int`:
the first entry of the chain that covers `d` and whose token can be acquired decides; the
result is `NULL` if there is none or its guard fails, else what its `->get` returns.  No
other entry has its `->get` called, and there is at most one `->get` call. -/
theorem lookup_closed_form {σ : Type} (lb : Nat) (cb : callbacks σ) (D : struct_kobj_map)
    (d : Nat) (i0 : Int) (st0 : σ) (acq : Nat → Bool) (guard : Nat → Nat → Nat → Int)
    (res : Nat → Nat → Int → Nat → Option Nat)
    (hd : d < 2 ^ 32)
    (hord : ordered (D.probes (slot (MAJOR d))))
    (htyped : ∀ p ∈ D.probes (slot (MAJOR d)),
      1 ≤ p.range ∧ p.range < 2 ^ lb ∧ p.dev + p.range ≤ 2 ^ lb)
    (hacq : ∀ o s, (cb.try_module_get o s).1 = acq o)
    (hguard : ∀ f dv data s, (cb.lock f dv data s).1 = guard f dv data)
    (hres : ∀ f dv i data s dom, (cb.get f dv i data s dom).kobj = res f dv i data ∧
      (cb.get f dv i data s dom).domain = dom) :
    (kobj_lookup lb cb D d i0 st0).kobj
        = lookup_reference to_int acq guard res (D.probes (slot (MAJOR d))) d
    ∧ (∀ q ∈ resolved_entries (kobj_lookup lb cb D d i0 st0).trace,
        (D.probes (slot (MAJOR d))).find? (eligible acq d) = some q)
    ∧ (resolved_entries (kobj_lookup lb cb D d i0 st0).trace).length ≤ 1
    ∧ (∀ p, (D.probes (slot (MAJOR d))).find? (eligible acq d) = some p →
        d - p.dev < 2 ^ 31 → to_int (d - p.dev) = ((d - p.dev : Nat) : Int)) := by
  have h := lookup_closed_form_aux lb cb D d i0 st0 acq guard res hd hord htyped hacq hguard hres
  exact ⟨h.1, h.2.1, h.2.2, fun _ _ hlt => to_int_small _ hlt⟩

/-- Witness of C19 as amended: `[100, 110)` registered on `fresh_dir`, lookup of 105. -/
theorem lookup_closed_form_witness :
    (kobj_lookup 64 (pure_cb (fun _ => true) (fun _ _ _ => 0) index_res)
        (register 64 fresh_dir ⟨100, 10, 0, 1, 0, 0⟩) 105 0 ()).kobj
      = lookup_reference to_int (fun _ => true) (fun _ _ _ => 0) index_res
          ((register 64 fresh_dir ⟨100, 10, 0, 1, 0, 0⟩).probes (slot (MAJOR 105))) 105 := by
  have hchain := one_registration_chain 64 9 5 fresh_dir ⟨100, 10, 0, 1, 0, 0⟩ 105 (by decide)
    rfl (by decide) (by decide) (by decide) (by decide)
  refine (lookup_closed_form 64 (pure_cb (fun _ => true) (fun _ _ _ => 0) index_res)
    (register 64 fresh_dir ⟨100, 10, 0, 1, 0, 0⟩) 105 0 () (fun _ => true) (fun _ _ _ => 0)
    index_res (by decide) ?_ ?_ (fun _ _ => rfl) (fun _ _ _ _ => rfl)
    (fun _ _ _ _ _ _ => ⟨rfl, rfl⟩)).1
  · rw [hchain]
    simp [ordered, base_entry, ULONG_MAX]
  · rw [hchain]
    intro p hp
    simp only [List.mem_cons, List.mem_singleton, List.not_mem_nil, or_false] at hp
    rcases hp with rfl | rfl <;> decide

/-- The chain of major 0 after the registration of one range that starts at 5 and runs
beyond the identifier space. -/
theorem overwide_single_chain :
    (register 64 fresh_dir ⟨5, 18446744073709551613, 0, 1, 0, 0⟩).probes (slot (MAJOR 7))
      = [] ++ ⟨5, 18446744073709551613, 0, 1, 0, 0⟩ :: [base_entry 64 9] := by
  rw [register_probes 64 _ _ (by decide), if_pos ⟨0, by decide, by decide⟩]
  decide

/-- Counterexample to C19 as stated, on a 64-bit machine, with deterministic callbacks that
leave the directory alone, all chains ordered and all ranges at least 1.  First: `[0, 2^31 + 1)`
is registered on a fresh directory and the `->get` returns the handle 77 for an index that
is not negative and `NULL` otherwise; for `d = 2^31` the reference, which hands over the
index `d - dev = 2^31`, gives 77, while `kobj_lookup` hands over the `int` value `-2^31` and
returns `NULL`.  Second: the range `(5, 2^64 - 3)` is registered and every `->get` function
`f` returns the handle `f`; the entry covers 7 as a range of numbers, so the reference gives
its handle 1, but `p->dev + p->range - 1` wraps, the scan passes over it and `kobj_lookup(7)`
returns the handle 9 of the base entry. -/
theorem lookup_closed_form_counterexample :
    (kobj_map_init 64 true true 9 5 = some fresh_dir ∧
      (∀ b, ordered ((register 64 fresh_dir ⟨0, 2147483649, 0, 1, 0, 0⟩).probes b)) ∧
      (∀ b, ∀ p ∈ (register 64 fresh_dir ⟨0, 2147483649, 0, 1, 0, 0⟩).probes b, 1 ≤ p.range) ∧
      lookup_reference (fun n => (n : Int)) (fun _ => true) (fun _ _ _ => 0) index_res
          ((register 64 fresh_dir ⟨0, 2147483649, 0, 1, 0, 0⟩).probes (slot (MAJOR 2147483648)))
          2147483648 = some 77 ∧
      (kobj_lookup 64 (pure_cb (fun _ => true) (fun _ _ _ => 0) index_res)
          (register 64 fresh_dir ⟨0, 2147483649, 0, 1, 0, 0⟩) 2147483648 0 ()).kobj = none)
    ∧ ((∀ b, ordered ((register 64 fresh_dir ⟨5, 18446744073709551613, 0, 1, 0, 0⟩).probes b)) ∧
      (∀ b, ∀ p ∈ (register 64 fresh_dir ⟨5, 18446744073709551613, 0, 1, 0, 0⟩).probes b,
        1 ≤ p.range) ∧
      lookup_reference (fun n => (n : Int)) (fun _ => true) (fun _ _ _ => 0)
          (fun f _ _ _ => some f)
          ((register 64 fresh_dir ⟨5, 18446744073709551613, 0, 1, 0, 0⟩).probes (slot (MAJOR 7)))
          7 = some 1 ∧
      (kobj_lookup 64 (pure_cb (fun _ => true) (fun _ _ _ => 0) (fun f _ _ _ => some f))
          (register 64 fresh_dir ⟨5, 18446744073709551613, 0, 1, 0, 0⟩) 7 0 ()).kobj
        = some 9) := by
  have hchain := one_registration_chain 64 9 5 fresh_dir ⟨0, 2147483649, 0, 1, 0, 0⟩ 2147483648
    (by decide) rfl (by decide) (by decide) (by decide) (by decide)
  have hord : ∀ (r : probe) b, ordered ((register 64 fresh_dir r).probes b) := fun r =>
    kobj_map_preserves ordered 64 true fresh_dir r.dev r.range r.owner r.get r.lock r.data
      (fun l hl => insert_probe_ordered _ l hl) (fun _ => by simp [fresh_dir, ordered])
  have hpos : ∀ (r : probe), 1 ≤ r.range →
      ∀ b, ∀ p ∈ (register 64 fresh_dir r).probes b, 1 ≤ p.range := fun r hr =>
    kobj_map_preserves (fun l => ∀ p ∈ l, 1 ≤ p.range) 64 true fresh_dir r.dev r.range r.owner
      r.get r.lock r.data
      (fun l hl p hp => by
        rcases mem_insert_probe _ _ _ hp with rfl | hp
        · exact hr
        · exact hl p hp)
      (fun _ p hp => by
        simp only [fresh_dir, List.mem_singleton] at hp
        subst hp
        decide)
  refine ⟨⟨rfl, hord _, hpos _ (by decide), ?_, ?_⟩, hord _, hpos _ (by decide), ?_, ?_⟩
  · rw [hchain]
    decide
  · have h := (lookup_closed_form_aux 64 (pure_cb (fun _ => true) (fun _ _ _ => 0) index_res)
      (register 64 fresh_dir ⟨0, 2147483649, 0, 1, 0, 0⟩) 2147483648 0 () (fun _ => true)
      (fun _ _ _ => 0) index_res (by decide)
      (by rw [hchain]; simp [ordered, base_entry, ULONG_MAX])
      (by
        rw [hchain]
        intro p hp
        simp only [List.mem_cons, List.mem_singleton, List.not_mem_nil, or_false] at hp
        rcases hp with rfl | rfl <;> decide)
      (fun _ _ => rfl) (fun _ _ _ _ => rfl) (fun _ _ _ _ _ _ => ⟨rfl, rfl⟩)).1
    rw [h, hchain]
    decide
  · rw [overwide_single_chain]
    decide
  · exact (lookup_first_candidate 64
      (pure_cb (fun _ => true) (fun _ _ _ => 0) (fun f _ _ _ => some f)) _ 7 0 ()
      [⟨5, 18446744073709551613, 0, 1, 0, 0⟩] [] (base_entry 64 9) 9 overwide_single_chain
      (by intro x hx; simp only [List.mem_singleton] at hx; subst hx; decide)
      (by decide) (by decide) (fun _ => rfl) (Or.inl rfl) (fun _ _ _ => rfl)).1

/-! ## A base `->get` that registers a provider -/

/-- The retry loop entered with any `best` above `A.range - 1`: when the chain of `d` is
`pre ++ A :: post`, the scan passes over `pre`, and `A` is taken and its `->get` returns a
handle, that handle is the result. -/
theorem retry_first_candidate {σ : Type} (lb : Nat) (cb : callbacks σ) (D : struct_kobj_map)
    (d best : Nat) (index : Int) (st : σ) (tr : List event) (pre post : List probe) (A : probe)
    (H : Nat)
    (hchain : D.probes (slot (MAJOR d)) = pre ++ A :: post)
    (hpre : ∀ x ∈ pre, skips lb x d) (hA : ¬ skips lb A d)
    (hbest : ulong_pred lb A.range < best)
    (htok : ∀ s, (cb.try_module_get A.owner s).1 = true)
    (hguard : A.lock = 0 ∨ ∀ s, 0 ≤ (cb.lock A.lock d A.data s).1)
    (hget : ∀ i s dom, (cb.get A.get d i A.data s dom).kobj = some H) :
    (kobj_lookup_retry lb cb d best index st D tr).kobj = some H := by
  obtain ⟨s2, hs, _, _, _⟩ := scan_cons_candidate lb cb d A post
    { best := best, index := index, st := st, trace := tr ++ [event.mutex_lock D.lock] }
    hA hbest (htok _) (hguard.imp id (fun h => h _))
  have hscan : scan lb cb d (D.probes (slot (MAJOR d)))
      { best := best, index := index, st := st, trace := tr ++ [event.mutex_lock D.lock] }
      = scan_result.candidate A s2 := by
    rw [hchain, scan_skip_pre lb cb d pre _ _ hpre, hs]
  rw [kobj_lookup_retry_some lb cb d best index st D tr A s2 H hscan (hget _ _ _)]

/-- The lookup when the scan passes over `pre` and takes the base entry, whose `->get`
returns `NULL` and leaves a directory `D2` in which the chain of `d` starts with an entry
`A` that is taken and resolves to `H`: the retry returns `H`. -/
theorem lookup_base_loads {σ : Type} (lb : Nat) (cb : callbacks σ) (D D2 : struct_kobj_map)
    (d : Nat) (i0 : Int) (st0 : σ) (pre post2 : List probe) (base A : probe) (H : Nat)
    (hchain : D.probes (slot (MAJOR d)) = pre ++ base :: [])
    (hpre : ∀ x ∈ pre, skips lb x d) (hbase : ¬ skips lb base d)
    (hbbest : ulong_pred lb base.range < ULONG_MAX lb)
    (hbtok : ∀ s, (cb.try_module_get base.owner s).1 = true)
    (hblock : base.lock = 0)
    (hbget : ∀ i s, (cb.get base.get d i base.data s D).kobj = none ∧
      (cb.get base.get d i base.data s D).domain = D2)
    (hchain2 : D2.probes (slot (MAJOR d)) = [] ++ A :: post2)
    (hA : ¬ skips lb A d) (hAbest : ulong_pred lb A.range < ulong_pred lb base.range)
    (htok : ∀ s, (cb.try_module_get A.owner s).1 = true)
    (hguard : A.lock = 0 ∨ ∀ s, 0 ≤ (cb.lock A.lock d A.data s).1)
    (hget : ∀ i s dom, (cb.get A.get d i A.data s dom).kobj = some H) :
    (kobj_lookup lb cb D d i0 st0).kobj = some H := by
  obtain ⟨s2, hs, hb, _, _⟩ := scan_cons_candidate lb cb d base []
    { best := ULONG_MAX lb, index := i0, st := st0, trace := [] ++ [event.mutex_lock D.lock] }
    hbase hbbest (hbtok _) (Or.inl hblock)
  have hscan : scan lb cb d (D.probes (slot (MAJOR d)))
      { best := ULONG_MAX lb, index := i0, st := st0, trace := [] ++ [event.mutex_lock D.lock] }
      = scan_result.candidate base s2 := by
    rw [hchain, scan_skip_pre lb cb d pre _ _ hpre, hs]
  unfold kobj_lookup
  rw [kobj_lookup_retry_none lb cb d _ i0 st0 D [] base s2 hscan (hbget _ _).1,
    (hbget s2.index s2.st).2]
  exact retry_first_candidate lb cb D2 d s2.best _ _ _ [] post2 A H hchain2 (by simp) hA
    (by rw [hb]; exact hAbest) htok hguard hget

/-- Witness of C3 as amended, with callbacks whose `->get` function 1 returns the handle 77:
with `[100, 110)` registered, the lookup of 200, which nothing but the base entry covers,
finds nothing, and neither does the lookup of 102 before the registration. -/
theorem lookup_unregistered_not_found_witness :
    (∀ d i s dom, (sample_cb.get 9 d i 0 s dom).kobj = none ∧
      (sample_cb.get 9 d i 0 s dom).domain = dom) ∧
    (kobj_lookup 64 sample_cb (register 64 fresh_dir ⟨100, 10, 0, 1, 0, 0⟩) 200 0 ()).kobj
        = none ∧
      (kobj_lookup 64 sample_cb fresh_dir 102 0 ()).kobj = none := by
  have h := lookup_unregistered_not_found 64 sample_cb 9 5 (by decide)
    (fun _ _ _ _ => ⟨rfl, rfl⟩)
  refine ⟨fun _ _ _ _ => ⟨rfl, rfl⟩, h.1 _ (reachable.map fresh_dir true 100 10 0 1 0 0
      (reachable.init fresh_dir rfl) (by decide) (by decide)) 200 ?_ 0 (),
    h.2 fresh_dir rfl 102 0 ()⟩
  intro b p hp hne
  have hp2 : p ∈ (register 64 fresh_dir ⟨100, 10, 0, 1, 0, 0⟩).probes b := hp
  rw [register_probes 64 fresh_dir ⟨100, 10, 0, 1, 0, 0⟩ (by decide) b] at hp2
  split_ifs at hp2 with hc
  · rcases mem_insert_probe _ _ _ hp2 with rfl | hp2
    · decide
    · simp only [fresh_dir, List.mem_singleton] at hp2
      exact absurd hp2 hne
  · simp only [fresh_dir, List.mem_singleton] at hp2
    exact absurd hp2 hne

/-- Counterexample to C3 as stated: the base `->get` of `loading_cb` returns `NULL` for every
identifier, and on the freshly initialised directory no provider range covers 102; but that
base `->get` registers `[1, 201)` while it runs without the mutex, the scan restarts at
`retry:` with `best` lowered to `~0UL - 2`, finds the new entry, and `kobj_lookup(102)` returns
the handle 77, not `NULL`. -/
theorem lookup_unregistered_counterexample :
    kobj_map_init 64 true true 9 5 = some fresh_dir ∧
    (∀ d i s dom, (loading_cb.get 9 d i 0 s dom).kobj = none) ∧
    (∀ b, fresh_dir.probes b = [base_entry 64 9]) ∧
    (kobj_lookup 64 loading_cb fresh_dir 102 0 ()).kobj = some 77 := by
  refine ⟨rfl, fun _ _ _ _ => rfl, fun _ => rfl, ?_⟩
  exact lookup_base_loads 64 loading_cb fresh_dir (register 64 fresh_dir ⟨1, 200, 0, 1, 0, 0⟩)
    102 0 () [] [base_entry 64 9] (base_entry 64 9) ⟨1, 200, 0, 1, 0, 0⟩ 77 rfl (by simp)
    (by decide) (by decide) (fun _ => rfl) rfl (fun _ _ => ⟨rfl, rfl⟩)
    (one_registration_chain 64 9 5 fresh_dir ⟨1, 200, 0, 1, 0, 0⟩ 102 (by decide) rfl
      (by decide) (by decide) (by decide) (by decide))
    (by decide) (by decide) (fun _ => rfl) (Or.inl rfl) (fun _ _ _ => rfl)

/-- The lookup after the registration, on a fresh directory, of one entry with a range
inside the identifier space whose guard fails: the scan stops at the base entry or at the
end of the chain, and no `->get` is called. -/
theorem lookup_veto_in_space {σ : Type} (lb : Nat) (cb : callbacks σ) (base_probe m : Nat)
    (D0 : struct_kobj_map) (r : probe) (d : Nat) (i0 : Int) (st0 : σ)
    (hlb : 32 ≤ lb)
    (hinit : kobj_map_init lb true true base_probe m = some D0)
    (hrange : 1 ≤ r.range) (htyped : r.range < 2 ^ lb) (hfit : r.dev + r.range ≤ 2 ^ 32)
    (htok : ∀ s, (cb.try_module_get r.owner s).1 = true)
    (hlock : r.lock ≠ 0) (hguard : ∀ d2 s, (cb.lock r.lock d2 r.data s).1 < 0)
    (hd : r.dev ≤ d ∧ d < r.dev + r.range) :
    (kobj_lookup lb cb (register lb D0 r) d i0 st0).kobj = none ∧
      resolve_calls (kobj_lookup lb cb (register lb D0 r) d i0 st0).trace = [] := by
  have hp := two_pow_le lb hlb
  have hchain := one_registration_chain lb base_probe m D0 r d hlb hinit htyped hfit hd.1 hd.2
  have hns := not_skips_of_covered lb r d hlb hfit hd.1 hd.2
  have hpr : ulong_pred lb r.range = r.range - 1 := ulong_pred_eq lb r.range hrange htyped
  have hpb : ulong_pred lb (base_entry lb base_probe).range = 2 ^ lb - 2 := by
    simp only [base_entry, ULONG_MAX]
    rw [ulong_pred_eq lb (2 ^ lb - 1) (by omega) (by omega)]
    omega
  have hstep := scan_cons_veto lb cb d r [base_entry lb base_probe]
    { best := ULONG_MAX lb, index := i0, st := st0
      trace := [] ++ [event.mutex_lock (register lb D0 r).lock] }
    hns (by simp only [hpr, ULONG_MAX]; omega) (htok _) hlock (hguard _ _)
  obtain ⟨s2, hs2⟩ := scan_passive_exhausted lb cb (base_entry lb base_probe) d
    [base_entry lb base_probe]
    (by
      intro p hp2
      simp only [List.mem_singleton] at hp2
      exact Or.inr (Or.inr (Or.inl hp2)))
    { best := ulong_pred lb r.range, index := to_int ((d + 2 ^ 32 - r.dev) % 2 ^ 32)
      st := cb.module_put r.owner
        (cb.lock r.lock d r.data (cb.try_module_get r.owner st0).2).2
      trace := [] ++ [event.mutex_lock (register lb D0 r).lock]
        ++ [event.try_module_get r.owner true] ++
        [event.guard r d (cb.lock r.lock d r.data (cb.try_module_get r.owner st0).2).1,
         event.module_put r.owner] }
    (by simp only [hpr, hpb]; omega)
  have hscan : scan lb cb d ((register lb D0 r).probes (slot (MAJOR d)))
      { best := ULONG_MAX lb, index := i0, st := st0
        trace := [] ++ [event.mutex_lock (register lb D0 r).lock] }
      = scan_result.exhausted s2 := by
    rw [hchain, hstep, hs2]
  have hf := (scan_state_facts lb cb d ((register lb D0 r).probes (slot (MAJOR d)))
    { best := ULONG_MAX lb, index := i0, st := st0
      trace := [] ++ [event.mutex_lock (register lb D0 r).lock] }).1
  rw [hscan] at hf
  simp only [scan_result.state] at hf
  unfold kobj_lookup
  rw [kobj_lookup_retry_exhausted lb cb d _ i0 st0 (register lb D0 r) [] s2 hscan]
  simp [resolve_calls_append, hf, resolve_calls]

/-- The lookup after the registration, on a fresh directory, of one entry whose guard
fails, when the base `->get` returns `NULL` and leaves the directory as it is. -/
theorem lookup_veto_framed {σ : Type} (lb : Nat) (cb : callbacks σ) (base_probe m : Nat)
    (D0 : struct_kobj_map) (r : probe) (d : Nat) (i0 : Int) (st0 : σ)
    (hinit : kobj_map_init lb true true base_probe m = some D0)
    (hbase : ∀ i s dom, (cb.get base_probe d i 0 s dom).kobj = none ∧
      (cb.get base_probe d i 0 s dom).domain = dom)
    (hdev : r.dev < 2 ^ 32)
    (hlock : r.lock ≠ 0) (hguard : ∀ d2 s, (cb.lock r.lock d2 r.data s).1 < 0) :
    (kobj_lookup lb cb (register lb D0 r) d i0 st0).kobj = none ∧
      r ∉ resolved_entries (kobj_lookup lb cb (register lb D0 r) d i0 st0).trace := by
  have hl : ∀ p ∈ (register lb D0 r).probes (slot (MAJOR d)),
      passive lb cb (base_entry lb base_probe) d p := by
    intro p hp
    rw [register_probes lb D0 r hdev, init_probes lb base_probe m D0 hinit] at hp
    have hp2 : p = r ∨ p = base_entry lb base_probe := by
      split_ifs at hp with hc
      · rcases mem_insert_probe _ _ _ hp with h | h
        · exact Or.inl h
        · exact Or.inr (by simpa using h)
      · exact Or.inr (by simpa using hp)
    rcases hp2 with rfl | rfl
    · exact Or.inr (Or.inr (Or.inr ⟨hlock, hguard d⟩))
    · exact Or.inr (Or.inr (Or.inl rfl))
  have h := lookup_passive lb cb (base_entry lb base_probe) (register lb D0 r) d i0 st0 hl hbase
  refine ⟨h.1, ?_⟩
  intro hmem
  unfold resolved_entries at hmem
  rw [List.mem_map] at hmem
  obtain ⟨c, hc, hcr⟩ := hmem
  have := h.2 c hc
  rw [hcr] at this
  rw [this] at hlock
  exact hlock rfl

/-- C5, as amended.  Guard veto: on a freshly initialised directory, after the registration
of one entry with `range >= 1`, an acquirable token and a guard that fails for every
identifier, `kobj_lookup(d)` returns `NULL` for every `d` of the range of that entry and the
`->get` of that entry is not called, provided the range of the entry lies inside the
identifier space (then no `->get` at all is called, whatever the base `->get` would do), or
the base `->get` returns `NULL` and leaves the directory as it is. -/
theorem lookup_guard_veto {σ : Type} (lb : Nat) (cb : callbacks σ) (base_probe m : Nat)
    (D0 : struct_kobj_map) (r : probe) (d : Nat) (i0 : Int) (st0 : σ)
    (hinit : kobj_map_init lb true true base_probe m = some D0)
    (hdev : r.dev < 2 ^ 32) (hrange : 1 ≤ r.range)
    (htok : ∀ s, (cb.try_module_get r.owner s).1 = true)
    (hlock : r.lock ≠ 0) (hguard : ∀ d2 s, (cb.lock r.lock d2 r.data s).1 < 0)
    (hd : r.dev ≤ d ∧ d < r.dev + r.range)
    (hcase : (32 ≤ lb ∧ r.range < 2 ^ lb ∧ r.dev + r.range - 1 ≤ 2 ^ 32 - 1)
      ∨ (∀ i s dom, (cb.get base_probe d i 0 s dom).kobj = none ∧
          (cb.get base_probe d i 0 s dom).domain = dom)) :
    (kobj_lookup lb cb (register lb D0 r) d i0 st0).kobj = none
    ∧ r ∉ resolved_entries (kobj_lookup lb cb (register lb D0 r) d i0 st0).trace
    ∧ ((32 ≤ lb ∧ r.range < 2 ^ lb ∧ r.dev + r.range - 1 ≤ 2 ^ 32 - 1) →
        resolve_calls (kobj_lookup lb cb (register lb D0 r) d i0 st0).trace = []) := by
  have hin : (32 ≤ lb ∧ r.range < 2 ^ lb ∧ r.dev + r.range - 1 ≤ 2 ^ 32 - 1) →
      (kobj_lookup lb cb (register lb D0 r) d i0 st0).kobj = none ∧
        resolve_calls (kobj_lookup lb cb (register lb D0 r) d i0 st0).trace = [] := by
    intro hs
    exact lookup_veto_in_space lb cb base_probe m D0 r d i0 st0 hs.1 hinit hrange hs.2.1
      (by omega) htok hlock hguard hd
  refine ⟨?_, ?_, fun hs => (hin hs).2⟩
  · rcases hcase with hs | hb
    · exact (hin hs).1
    · exact (lookup_veto_framed lb cb base_probe m D0 r d i0 st0 hinit hb hdev hlock hguard).1
  · rcases hcase with hs | hb
    · unfold resolved_entries
      rw [(hin hs).2]
      simp
    · exact (lookup_veto_framed lb cb base_probe m D0 r d i0 st0 hinit hb hdev hlock hguard).2

/-- Witness of C5 as amended: `[100, 110)` registered with the failing guard 7 and the
`->get` function 1, with a base `->get` that would register a provider; lookup of 105. -/
theorem lookup_guard_veto_witness :
    (kobj_lookup 64 loading_cb (register 64 fresh_dir ⟨100, 10, 0, 1, 7, 0⟩) 105 0 ()).kobj
        = none ∧
      (⟨100, 10, 0, 1, 7, 0⟩ : probe) ∉ resolved_entries
        (kobj_lookup 64 loading_cb (register 64 fresh_dir ⟨100, 10, 0, 1, 7, 0⟩) 105 0 ()).trace ∧
      ((32 ≤ 64 ∧ (⟨100, 10, 0, 1, 7, 0⟩ : probe).range < 2 ^ 64 ∧
          (⟨100, 10, 0, 1, 7, 0⟩ : probe).dev + (⟨100, 10, 0, 1, 7, 0⟩ : probe).range - 1
            ≤ 2 ^ 32 - 1) →
        resolve_calls
          (kobj_lookup 64 loading_cb (register 64 fresh_dir ⟨100, 10, 0, 1, 7, 0⟩) 105 0 ()).trace
          = []) :=
  lookup_guard_veto 64 loading_cb 9 5 fresh_dir ⟨100, 10, 0, 1, 7, 0⟩ 105 0 () rfl
    (by decide) (by decide) (fun _ => rfl) (by decide) (fun _ _ => by simp [loading_cb])
    (by decide) (Or.inl (by decide))

/-- The chain of major 0 after the registration of the range `(5, 2^64 - 3)` with the failing
guard 7. -/
theorem overwide_veto_chain :
    (register 64 fresh_dir ⟨5, 18446744073709551613, 0, 2, 7, 0⟩).probes (slot (MAJOR 7))
      = [⟨5, 18446744073709551613, 0, 2, 7, 0⟩] ++ base_entry 64 9 :: [] := by
  rw [register_probes 64 _ _ (by decide), if_pos ⟨0, by decide, by decide⟩]
  decide

/-- The chain of major 0 after the base `->get` of `loading_cb` has run on that directory. -/
theorem overwide_loaded_chain :
    (register 64 (register 64 fresh_dir ⟨5, 18446744073709551613, 0, 2, 7, 0⟩)
        ⟨1, 200, 0, 1, 0, 0⟩).probes (slot (MAJOR 7))
      = [] ++ ⟨1, 200, 0, 1, 0, 0⟩ ::
          [⟨5, 18446744073709551613, 0, 2, 7, 0⟩, base_entry 64 9] := by
  rw [register_probes 64 _ _ (by decide), if_pos ⟨0, by decide, by decide⟩,
    register_probes 64 _ _ (by decide), if_pos ⟨0, by decide, by decide⟩]
  decide

/-- Counterexample to C5 as stated, on a 64-bit machine: the entry `(5, 2^64 - 3)` has
`range >= 1`, an acquirable token and a guard that fails for every identifier; 7 lies in its
range; the base `->get` of `loading_cb` returns `NULL` for every identifier.  But
`p->dev + p->range - 1` wraps, the scan passes over the entry, the base `->get` runs and
registers `[1, 201)`, and after `goto retry` `kobj_lookup(7)` returns the handle 77, not
`NULL`. -/
theorem lookup_guard_veto_counterexample :
    kobj_map_init 64 true true 9 5 = some fresh_dir ∧
    (∀ d i s dom, (loading_cb.get 9 d i 0 s dom).kobj = none) ∧
    (1 ≤ (⟨5, 18446744073709551613, 0, 2, 7, 0⟩ : probe).range) ∧
    (∀ s, (loading_cb.try_module_get 0 s).1 = true) ∧
    (∀ d s, (loading_cb.lock 7 d 0 s).1 < 0) ∧
    (5 ≤ 7 ∧ 7 < 5 + 18446744073709551613) ∧
    (kobj_lookup 64 loading_cb (register 64 fresh_dir ⟨5, 18446744073709551613, 0, 2, 7, 0⟩)
        7 0 ()).kobj = some 77 := by
  refine ⟨rfl, fun _ _ _ _ => rfl, by decide, fun _ => rfl, fun _ _ => by simp [loading_cb],
    by decide, ?_⟩
  exact lookup_base_loads 64 loading_cb _
    (register 64 (register 64 fresh_dir ⟨5, 18446744073709551613, 0, 2, 7, 0⟩)
      ⟨1, 200, 0, 1, 0, 0⟩)
    7 0 () [⟨5, 18446744073709551613, 0, 2, 7, 0⟩]
    [⟨5, 18446744073709551613, 0, 2, 7, 0⟩, base_entry 64 9] (base_entry 64 9)
    ⟨1, 200, 0, 1, 0, 0⟩ 77 overwide_veto_chain
    (by intro x hx; simp only [List.mem_singleton] at hx; subst hx; decide)
    (by decide) (by decide) (fun _ => rfl) rfl (fun _ _ => ⟨rfl, rfl⟩)
    overwide_loaded_chain (by decide) (by decide) (fun _ => rfl) (Or.inl rfl)
    (fun _ _ _ => rfl)

end Kobj
